import Mathlib

/-!
# Dynamic array engine of `code/array/custom_array.go`

A shallow embedding of the Go type `DynamicArray` and of its methods.

* Go `int` values are modelled by `Int`.  The only arithmetic performed on
  them is on `length`, `capacity` and indices, all of which are bounded by the
  size of an allocated slice, so 64-bit wrap-around is never reached.
* A Go slice `[]int` is modelled by `List Int`; `len(s)` is `s.length`.
* A run-time panic (slice index out of range, `make` with a negative length)
  is modelled by `none`; a Go `error` value is modelled by `Option Error`
  (`none` is `nil`).
* A method with a pointer receiver returns the receiver's final state next to
  its Go results.
* Output written by `fmt.Printf` is not part of the model.
-/

namespace DynArray

/-! ## Slices -/

/-- Go `make([]int, n)`: a zeroed slice of length `n`; panics when `n < 0`.
The allocation limit of the runtime is left out here (see `Limited.make`). -/
def make (n : Int) : Option (List Int) :=
  if n < 0 then none else some (List.replicate n.toNat 0)

/-- Go `s[i]` as an expression: panics unless `0 <= i < len(s)`. -/
def sliceGet (s : List Int) (i : Int) : Option Int :=
  if 0 ≤ i ∧ i < s.length then s[i.toNat]? else none

/-- Go `s[i] = v`: panics unless `0 <= i < len(s)`. -/
def sliceSet (s : List Int) (i : Int) (v : Int) : Option (List Int) :=
  if 0 ≤ i ∧ i < s.length then some (s.set i.toNat v) else none

/-- Counted loop `for i := start; i < stop; i++ { body }` whose body assigns
neither `i` nor `stop`: `n` is the number of iterations left, the caller passes
`(stop - start).toNat`. -/
def forUp {σ : Type} (body : Int → σ → Option σ) : Nat → Int → σ → Option σ
  | 0, _, s => some s
  | n + 1, i, s => (body i s).bind (fun s1 => forUp body n (i + 1) s1)

/-- Counted loop `for i := start; i > stop; i-- { body }` whose body assigns
neither `i` nor `stop`: `n` is the number of iterations left, the caller passes
`(start - stop).toNat`. -/
def forDown {σ : Type} (body : Int → σ → Option σ) : Nat → Int → σ → Option σ
  | 0, _, s => some s
  | n + 1, i, s => (body i s).bind (fun s1 => forDown body n (i - 1) s1)

/-! ## The data model -/

/-- Go `fmt.Errorf` values produced by the array methods, kept as the format
arguments. -/
inductive Error where
  /-- Text `"インデックス %d が範囲外です (0-%d)"` with its two arguments. -/
  | indexOutOfRange (index : Int) (upper : Int)
  /-- Text `"配列が空です"`. -/
  | emptyArray
  deriving DecidableEq, Repr

/-- Go `type DynamicArray struct { data []int; length int; capacity int }`. -/
structure DynamicArray where
  data : List Int
  length : Int
  capacity : Int
  deriving DecidableEq, Repr

/-- Go `NewDynamicArray`. -/
def NewDynamicArray : Option DynamicArray :=
  let initialCapacity : Int := 2
  (make initialCapacity).bind fun data =>
  some { data := data, length := 0, capacity := initialCapacity }

/-- Go `NewDynamicArrayWithCapacity`. -/
def NewDynamicArrayWithCapacity (capacity : Int) : Option DynamicArray :=
  let capacity : Int := if capacity < 1 then 2 else capacity
  (make capacity).bind fun data =>
  some { data := data, length := 0, capacity := capacity }

/-- Go `resize`: doubles `capacity`, allocates and copies slot by slot. -/
def resize (da : DynamicArray) : Option DynamicArray :=
  let capacity := da.capacity * 2
  (make capacity).bind fun newData =>
  (forUp (fun i nd => (sliceGet da.data i).bind fun x => sliceSet nd i x)
    (da.length - 0).toNat 0 newData).bind fun newData =>
  some { data := newData, length := da.length, capacity := capacity }

/-- Go `Get`. -/
def Get (da : DynamicArray) (index : Int) : Option ((Int × Option Error) × DynamicArray) :=
  if index < 0 ∨ index ≥ da.length then
    some ((0, some (Error.indexOutOfRange index (da.length - 1))), da)
  else
    (sliceGet da.data index).bind fun x => some ((x, none), da)

/-- Go `Set`. -/
def Set (da : DynamicArray) (index : Int) (value : Int) : Option (Option Error × DynamicArray) :=
  if index < 0 ∨ index ≥ da.length then
    some (some (Error.indexOutOfRange index (da.length - 1)), da)
  else
    (sliceSet da.data index value).bind fun data =>
    some (none, { da with data := data })

/-- Go `Append`. -/
def Append (da : DynamicArray) (value : Int) : Option DynamicArray :=
  (if da.length ≥ da.capacity then resize da else some da).bind fun da =>
  (sliceSet da.data da.length value).bind fun data =>
  some { da with data := data, length := da.length + 1 }

/-- Go `Insert`. -/
def Insert (da : DynamicArray) (index : Int) (value : Int) : Option (Option Error × DynamicArray) :=
  if index < 0 ∨ index > da.length then
    some (some (Error.indexOutOfRange index da.length), da)
  else
    (if da.length ≥ da.capacity then resize da else some da).bind fun da =>
    (forDown (fun i d => (sliceGet d (i - 1)).bind fun x => sliceSet d i x)
      (da.length - index).toNat da.length da.data).bind fun data =>
    (sliceSet data index value).bind fun data =>
    some (none, { da with data := data, length := da.length + 1 })

/-- Go `Delete`. -/
def Delete (da : DynamicArray) (index : Int) : Option (Option Error × DynamicArray) :=
  if index < 0 ∨ index ≥ da.length then
    some (some (Error.indexOutOfRange index (da.length - 1)), da)
  else
    (forUp (fun i d => (sliceGet d (i + 1)).bind fun x => sliceSet d i x)
      (da.length - 1 - index).toNat index da.data).bind fun data =>
    some (none, { da with data := data, length := da.length - 1 })

/-- Go `Pop`. -/
def Pop (da : DynamicArray) : Option ((Int × Option Error) × DynamicArray) :=
  if da.length = 0 then
    some ((0, some Error.emptyArray), da)
  else
    (sliceGet da.data (da.length - 1)).bind fun value =>
    some ((value, none), { da with length := da.length - 1 })

/-- Go `Length`. -/
def Length (da : DynamicArray) : Int := da.length

/-- Go `Capacity`. -/
def Capacity (da : DynamicArray) : Int := da.capacity

/-- Go `IsEmpty`. -/
def IsEmpty (da : DynamicArray) : Bool := decide (da.length = 0)

/-- Go `Clear`. -/
def Clear (da : DynamicArray) : Option DynamicArray :=
  some { da with length := 0 }

/-- Go `ToSlice`: a fresh slice of `length` elements copied slot by slot. -/
def ToSlice (da : DynamicArray) : Option (List Int × DynamicArray) :=
  (make da.length).bind fun result =>
  (forUp (fun i r => (sliceGet da.data i).bind fun x => sliceSet r i x)
    (da.length - 0).toNat 0 result).bind fun result =>
  some (result, da)

/-- Scan of Go `IndexOf`, the loop
`for i := 0; i < da.length; i++ { if da.data[i] == value { return i } }`
followed by `return -1`: `n` is the number of iterations left when no slot
matches, the caller passes `(da.length - 0).toNat`. -/
def indexOfLoop (data : List Int) (value : Int) : Nat → Int → Option Int
  | 0, _ => some (-1)
  | n + 1, i =>
    (sliceGet data i).bind fun x =>
    if x = value then some i else indexOfLoop data value n (i + 1)

/-- Go `IndexOf`. -/
def IndexOf (da : DynamicArray) (value : Int) : Option (Int × DynamicArray) :=
  (indexOfLoop da.data value (da.length - 0).toNat 0).bind fun r => some (r, da)

/-- Go `Contains`. -/
def Contains (da : DynamicArray) (value : Int) : Option (Bool × DynamicArray) :=
  (IndexOf da value).bind fun r => some (decide (r.1 ≠ -1), r.2)

/-! ## Sequences of public mutating calls -/

/-- A call of one of the mutating public methods. -/
inductive Op where
  | append (value : Int)
  | insert (index : Int) (value : Int)
  | set (index : Int) (value : Int)
  | delete (index : Int)
  | pop
  | clear
  deriving DecidableEq, Repr

/-- Performs one call and keeps the receiver's final state; the Go results
(value, error) are dropped, so a failing call is a step like any other. -/
def step (da : DynamicArray) : Op → Option DynamicArray
  | Op.append v => Append da v
  | Op.insert i v => (Insert da i v).map Prod.snd
  | Op.set i v => (Set da i v).map Prod.snd
  | Op.delete i => (Delete da i).map Prod.snd
  | Op.pop => (Pop da).map Prod.snd
  | Op.clear => Clear da

/-- Performs the calls of `ops` from left to right. -/
def run (da : DynamicArray) : List Op → Option DynamicArray
  | [] => some da
  | op :: ops => (step da op).bind fun da1 => run da1 ops

/-- A call of one of the public methods that receive the array: a mutator or
one of the read-only methods `Get`, `IndexOf`, `Contains`, `ToSlice`. -/
inductive Call where
  | mutate (op : Op)
  | get (index : Int)
  | indexOf (value : Int)
  | contains (value : Int)
  | toSlice
  deriving DecidableEq, Repr

/-- Performs one public call and keeps the receiver's final state. -/
def stepCall (da : DynamicArray) : Call → Option DynamicArray
  | Call.mutate op => step da op
  | Call.get i => (Get da i).map Prod.snd
  | Call.indexOf v => (IndexOf da v).map Prod.snd
  | Call.contains v => (Contains da v).map Prod.snd
  | Call.toSlice => (ToSlice da).map Prod.snd

/-- Performs the public calls of `calls` from left to right. -/
def runCalls (da : DynamicArray) : List Call → Option DynamicArray
  | [] => some da
  | c :: cs => (stepCall da c).bind fun da1 => runCalls da1 cs

/-- The representation invariant: the buffer has exactly `capacity` slots, at
least one, and `length` counts a prefix of them. -/
def WellFormed (da : DynamicArray) : Prop :=
  (da.data.length : Int) = da.capacity ∧ 1 ≤ da.capacity ∧
    0 ≤ da.length ∧ da.length ≤ da.capacity

instance (da : DynamicArray) : Decidable (WellFormed da) := by
  unfold WellFormed; infer_instance

/-- Go `String`: `"DynamicArray["`, the live elements in decimal separated by
`", "`, then `"]"`. -/
def DynamicArray.String (da : DynamicArray) : Option (String × DynamicArray) :=
  let result := "DynamicArray["
  (forUp (fun i result => (sliceGet da.data i).bind fun x =>
      some ((if i > 0 then result ++ ", " else result) ++ toString x))
    (da.length - 0).toNat 0 result).bind fun result =>
  some (result ++ "]", da)

/-- Number of element copies `newData[i] = da.data[i]` performed by one call of
`resize`: the iteration count of its loop `for i := 0; i < da.length; i++`. -/
def resizeCopies (da : DynamicArray) : Nat := (da.length - 0).toNat

/-- Number of element copies performed by `resize` during one `Append`: those
of `resize` when the growth check `da.length >= da.capacity` fires, else none. -/
def appendCopies (da : DynamicArray) : Nat :=
  if da.length ≥ da.capacity then resizeCopies da else 0

/-- Total number of element copies performed by `resize` while the values
`xs` are appended in order (`none` when an `Append` panics). -/
def copiesOfAppends (da : DynamicArray) : List Int → Option Nat
  | [] => some 0
  | x :: xs =>
    (Append da x).bind fun da1 =>
    (copiesOfAppends da1 xs).bind fun n => some (appendCopies da + n)

/-! ## Allocation with a limit

`make` above has no upper limit on the length.  The Go runtime has one
(`makeslice: len out of range`); where the length is an argument of the
caller, as in `NewDynamicArrayWithCapacity`, it decides whether an array is
returned at all.  `Limited` carries that limit as the parameter `maxLen`. -/

namespace Limited

/-- Go `make([]int, n)` on a runtime that allocates slices of at most `maxLen`
elements: panics when `n < 0` or `n > maxLen`. -/
def make (maxLen : Nat) (n : Int) : Option (List Int) :=
  if n < 0 ∨ n > (maxLen : Int) then none else some (List.replicate n.toNat 0)

/-- Go `NewDynamicArrayWithCapacity` on such a runtime. -/
def NewDynamicArrayWithCapacity (maxLen : Nat) (capacity : Int) : Option DynamicArray :=
  let capacity : Int := if capacity < 1 then 2 else capacity
  (make maxLen capacity).bind fun data =>
  some { data := data, length := 0, capacity := capacity }

end Limited

/-! ## Slices held by reference

The methods once more, with slices as Go has them: a slice made by `make` is
the position of its backing array in the heap, the list of all backing arrays
allocated so far, and `s[i] = v` writes into the heap.  This is what lets
two slices share storage or not. -/

namespace Ref

/-- Go `type DynamicArray struct { data []int; length int; capacity int }`,
`data` being the position of its backing array in the heap. -/
structure DynamicArray where
  data : Nat
  length : Int
  capacity : Int
  deriving DecidableEq, Repr

/-- Go `make([]int, n)`: a new zeroed backing array at the next free position;
panics when `n < 0`. -/
def make (heap : List (List Int)) (n : Int) : Option (Nat × List (List Int)) :=
  if n < 0 then none else some (heap.length, heap ++ [List.replicate n.toNat 0])

/-- Go `s[i]` as an expression, for the slice at position `s`. -/
def load (heap : List (List Int)) (s : Nat) (i : Int) : Option Int :=
  (heap[s]?).bind fun a => sliceGet a i

/-- Go `s[i] = v`, for the slice at position `s`. -/
def store (heap : List (List Int)) (s : Nat) (i : Int) (v : Int) : Option (List (List Int)) :=
  (heap[s]?).bind fun a => (sliceSet a i v).bind fun a1 => some (heap.set s a1)

/-- Go `resize`. -/
def resize (heap : List (List Int)) (da : DynamicArray) :
    Option (List (List Int) × DynamicArray) :=
  let capacity := da.capacity * 2
  (make heap capacity).bind fun r =>
  (forUp (fun i h => (load h da.data i).bind fun x => store h r.1 i x)
    (da.length - 0).toNat 0 r.2).bind fun h =>
  some (h, { data := r.1, length := da.length, capacity := capacity })

/-- Go `Set`. -/
def Set (heap : List (List Int)) (da : DynamicArray) (index : Int) (value : Int) :
    Option (Option Error × List (List Int) × DynamicArray) :=
  if index < 0 ∨ index ≥ da.length then
    some (some (Error.indexOutOfRange index (da.length - 1)), heap, da)
  else
    (store heap da.data index value).bind fun h => some (none, h, da)

/-- Go `Append`. -/
def Append (heap : List (List Int)) (da : DynamicArray) (value : Int) :
    Option (List (List Int) × DynamicArray) :=
  (if da.length ≥ da.capacity then resize heap da else some (heap, da)).bind fun r =>
  (store r.1 r.2.data r.2.length value).bind fun h =>
  some (h, { r.2 with length := r.2.length + 1 })

/-- Go `Insert`. -/
def Insert (heap : List (List Int)) (da : DynamicArray) (index : Int) (value : Int) :
    Option (Option Error × List (List Int) × DynamicArray) :=
  if index < 0 ∨ index > da.length then
    some (some (Error.indexOutOfRange index da.length), heap, da)
  else
    (if da.length ≥ da.capacity then resize heap da else some (heap, da)).bind fun r =>
    (forDown (fun i h => (load h r.2.data (i - 1)).bind fun x => store h r.2.data i x)
      (r.2.length - index).toNat r.2.length r.1).bind fun h =>
    (store h r.2.data index value).bind fun h =>
    some (none, h, { r.2 with length := r.2.length + 1 })

/-- Go `Delete`. -/
def Delete (heap : List (List Int)) (da : DynamicArray) (index : Int) :
    Option (Option Error × List (List Int) × DynamicArray) :=
  if index < 0 ∨ index ≥ da.length then
    some (some (Error.indexOutOfRange index (da.length - 1)), heap, da)
  else
    (forUp (fun i h => (load h da.data (i + 1)).bind fun x => store h da.data i x)
      (da.length - 1 - index).toNat index heap).bind fun h =>
    some (none, h, { da with length := da.length - 1 })

/-- Go `Pop`. -/
def Pop (heap : List (List Int)) (da : DynamicArray) :
    Option ((Int × Option Error) × List (List Int) × DynamicArray) :=
  if da.length = 0 then
    some ((0, some Error.emptyArray), heap, da)
  else
    (load heap da.data (da.length - 1)).bind fun value =>
    some ((value, none), heap, { da with length := da.length - 1 })

/-- Go `Clear`. -/
def Clear (heap : List (List Int)) (da : DynamicArray) :
    Option (List (List Int) × DynamicArray) :=
  some (heap, { da with length := 0 })

/-- Go `ToSlice`: the result is the position of the slice returned. -/
def ToSlice (heap : List (List Int)) (da : DynamicArray) :
    Option (Nat × List (List Int) × DynamicArray) :=
  (make heap da.length).bind fun r =>
  (forUp (fun i h => (load h da.data i).bind fun x => store h r.1 i x)
    (da.length - 0).toNat 0 r.2).bind fun h =>
  some (r.1, h, da)

/-- Performs one mutating call and keeps the final heap and receiver. -/
def step (heap : List (List Int)) (da : DynamicArray) :
    Op → Option (List (List Int) × DynamicArray)
  | Op.append v => Append heap da v
  | Op.insert i v => (Insert heap da i v).map Prod.snd
  | Op.set i v => (Set heap da i v).map Prod.snd
  | Op.delete i => (Delete heap da i).map Prod.snd
  | Op.pop => (Pop heap da).map Prod.snd
  | Op.clear => Clear heap da

/-- Performs the calls of `ops` from left to right. -/
def run (heap : List (List Int)) (da : DynamicArray) :
    List Op → Option (List (List Int) × DynamicArray)
  | [] => some (heap, da)
  | op :: ops => (step heap da op).bind fun r => run r.1 r.2 ops

/-- The array by value that a receiver stands for: its backing array read
from the heap, `none` when `data` is not a position of the heap. -/
def abs (heap : List (List Int)) (da : DynamicArray) : Option DynArray.DynamicArray :=
  (heap[da.data]?).bind fun d => some { data := d, length := da.length, capacity := da.capacity }

/-- What a call may do to the heap: it only grows, the receiver keeps its
backing array or moves to a new one, and every other backing array that
existed before is left as it was. -/
def Frames (heap : List (List Int)) (da : DynamicArray)
    (heap1 : List (List Int)) (da1 : DynamicArray) : Prop :=
  heap.length ≤ heap1.length ∧ (da1.data = da.data ∨ heap.length ≤ da1.data) ∧
    ∀ q : Nat, q < heap.length → q ≠ da.data → heap1[q]? = heap[q]?

end Ref

end DynArray

/-! # Hash table of `code/hash.go`

* A nil-terminated chain of `KeyValue` nodes is the list of its
  `(Key, Value)` pairs, head first; the nil pointer is the empty list.
* `interface{}` values are values of an arbitrary type `V`.
* A key is a `String`; `range key` yields its characters.
* Go `int` is 64 bits wide here: the djb2 arithmetic wraps (`wrapInt64`) and
  `%` is Go's truncated remainder (`Int.tmod`), whose sign is the dividend's.
* A run-time panic (index out of range, division by zero) is `none`.
-/

/-- Go `type HashTable struct { Buckets []*KeyValue; Size int; Capacity int }`. -/
structure HashTable (V : Type) where
  Buckets : List (List (String × V))
  Size : Int
  Capacity : Int
  deriving DecidableEq, Repr

namespace HashTable

variable {V : Type}

/-- Two's-complement wrap-around of Go's 64-bit `int`. -/
def wrapInt64 (x : Int) : Int := (x + 2 ^ 63) % 2 ^ 64 - 2 ^ 63

/-- Go `NewHashTable`; `make` panics on a negative length. -/
def NewHashTable (capacity : Int) : Option (HashTable V) :=
  if capacity < 0 then none
  else some { Buckets := List.replicate capacity.toNat [], Size := 0, Capacity := capacity }

/-- The loop of `hash`: `hash = ((hash << 5) + hash) + int(char)` for each
character of the key, on wrapping 64-bit integers. -/
def hashLoop : List Char → Int → Int
  | [], hash => hash
  | char :: rest, hash =>
    hashLoop rest (wrapInt64 (wrapInt64 (wrapInt64 (hash * 2 ^ 5) + hash) + (char.toNat : Int)))

/-- Go `hash` (djb2): `return hash % ht.Capacity`, a panic when `Capacity` is 0. -/
def hash (ht : HashTable V) (key : String) : Option Int :=
  let hash := hashLoop key.toList 5381
  if ht.Capacity = 0 then none else some (hash.tmod ht.Capacity)

/-- Go `ht.Buckets[index]` as an expression: panics unless
`0 <= index < len(ht.Buckets)`. -/
def bucketGet (buckets : List (List (String × V))) (index : Int) :
    Option (List (String × V)) :=
  if 0 ≤ index ∧ index < buckets.length then buckets[index.toNat]? else none

/-- The chain walk of `Put`: the chain with the value of the first node whose
key is `key` replaced, or `none` when the walk reaches nil. -/
def chainUpdate (key : String) (value : V) : List (String × V) → Option (List (String × V))
  | [] => none
  | (k, v) :: next =>
    if k = key then some ((k, value) :: next)
    else (chainUpdate key value next).map fun chain => (k, v) :: chain

/-- Go `Put`. -/
def Put (ht : HashTable V) (key : String) (value : V) : Option (HashTable V) :=
  (hash ht key).bind fun index =>
  (bucketGet ht.Buckets index).bind fun current =>
  match chainUpdate key value current with
  | some chain => some { ht with Buckets := ht.Buckets.set index.toNat chain }
  | none =>
    some { ht with
      Buckets := ht.Buckets.set index.toNat ((key, value) :: current)
      Size := ht.Size + 1 }

/-- The chain walk of `Get`: the value of the first node whose key is `key`. -/
def chainFind (key : String) : List (String × V) → Option V
  | [] => none
  | (k, v) :: next => if k = key then some v else chainFind key next

/-- Go `Get`: `(value, true)` or `(nil, false)`. -/
def Get (ht : HashTable V) (key : String) : Option (Option V × Bool) :=
  (hash ht key).bind fun index =>
  (bucketGet ht.Buckets index).bind fun current =>
  match chainFind key current with
  | some value => some (some value, true)
  | none => some (none, false)

/-- The chain walk of `Delete`: the chain without the first node whose key is
`key`, or `none` when the walk reaches nil. -/
def chainRemove (key : String) : List (String × V) → Option (List (String × V))
  | [] => none
  | (k, v) :: next =>
    if k = key then some next
    else (chainRemove key next).map fun chain => (k, v) :: chain

/-- Go `Delete`. -/
def Delete (ht : HashTable V) (key : String) : Option (Bool × HashTable V) :=
  (hash ht key).bind fun index =>
  (bucketGet ht.Buckets index).bind fun current =>
  match chainRemove key current with
  | some chain =>
    some (true, { ht with Buckets := ht.Buckets.set index.toNat chain, Size := ht.Size - 1 })
  | none => some (false, ht)

/-- Go `GetAllKeys`: the keys of every chain, bucket after bucket. -/
def GetAllKeys (ht : HashTable V) : List String :=
  ht.Buckets.foldl (fun keys bucket => keys ++ bucket.map Prod.fst) []

/-- A table of capacity 10 that holds the key `"banana"` in bucket 0, as after
`NewHashTable(10)` and `Put("banana", 200)` in `main`. -/
def demoTable : HashTable Int :=
  { Buckets := [[("banana", 200)], [], [], [], [], [], [], [], [], []], Size := 1, Capacity := 10 }

end HashTable

/-! # Singly linked list of `code/list.go`

* A nil-terminated chain of `ListNode` nodes is the list of its `Data`
  fields, head first; the nil pointer is the empty list, and a `*ListNode`
  result is the chain that starts at that node.
* A nil-pointer dereference is `none`.
-/

/-- Go `type LinkedList struct { Head *ListNode; Size int }`. -/
structure LinkedList where
  Head : List Int
  Size : Int
  deriving DecidableEq, Repr

namespace LinkedList

/-- Go `InsertAtHead`. -/
def InsertAtHead (list : LinkedList) (data : Int) : Option LinkedList :=
  some { Head := data :: list.Head, Size := list.Size + 1 }

/-- The walk of `InsertAtTail` from the non-nil node `current` (its `Data` and
its `Next` chain): `for current.Next != nil { current = current.Next }`, then
`current.Next = newNode`. -/
def linkLast (data : Int) : Int → List Int → List Int
  | x, [] => [x, data]
  | x, y :: next => x :: linkLast data y next

/-- Go `InsertAtTail`. -/
def InsertAtTail (list : LinkedList) (data : Int) : Option LinkedList :=
  match list.Head with
  | [] => some { Head := [data], Size := list.Size + 1 }
  | x :: next => some { Head := linkLast data x next, Size := list.Size + 1 }

/-- The walk of `InsertAtIndex` on the chain that starts at `current`: `n`
steps `current = current.Next`, then `newNode.Next = current.Next` and
`current.Next = newNode`; dereferencing nil is `none`. -/
def insertAfter (data : Int) : Nat → List Int → Option (List Int)
  | _, [] => none
  | 0, x :: next => some (x :: data :: next)
  | n + 1, x :: next => (insertAfter data n next).map fun chain => x :: chain

/-- Go `InsertAtIndex`. -/
def InsertAtIndex (list : LinkedList) (index : Int) (data : Int) :
    Option (Bool × LinkedList) :=
  if index < 0 ∨ index > list.Size then some (false, list)
  else if index = 0 then (InsertAtHead list data).map fun l => (true, l)
  else
    (insertAfter data (index - 1 - 0).toNat list.Head).bind fun head =>
    some (true, { Head := head, Size := list.Size + 1 })

/-- Go `DeleteFromHead`. -/
def DeleteFromHead (list : LinkedList) : Option (Bool × LinkedList) :=
  match list.Head with
  | [] => some (false, list)
  | _ :: next => some (true, { Head := next, Size := list.Size - 1 })

/-- The walk of `DeleteFromTail` on the chain that starts at `current`:
`for current.Next.Next != nil { current = current.Next }`, then
`current.Next = nil`; dereferencing nil is `none`. -/
def unlinkLast : List Int → Option (List Int)
  | [] => none
  | _ :: [] => none
  | x :: _ :: [] => some [x]
  | x :: y :: z :: next => (unlinkLast (y :: z :: next)).map fun chain => x :: chain

/-- Go `DeleteFromTail`. -/
def DeleteFromTail (list : LinkedList) : Option (Bool × LinkedList) :=
  match list.Head with
  | [] => some (false, list)
  | _ :: [] => some (true, { Head := [], Size := list.Size - 1 })
  | x :: y :: next =>
    (unlinkLast (x :: y :: next)).bind fun head =>
    some (true, { Head := head, Size := list.Size - 1 })

/-- The walk of `DeleteAtIndex` on the chain that starts at `current`: `n`
steps `current = current.Next`, then `current.Next = current.Next.Next` when
`current.Next != nil` (result `some chain`) and nothing otherwise (result
`none`, the method returns false); dereferencing nil is the outer `none`. -/
def deleteAfter : Nat → List Int → Option (Option (List Int))
  | _, [] => none
  | 0, _ :: [] => some none
  | 0, x :: _ :: next => some (some (x :: next))
  | n + 1, x :: next => (deleteAfter n next).map fun r => r.map fun chain => x :: chain

/-- Go `DeleteAtIndex`. -/
def DeleteAtIndex (list : LinkedList) (index : Int) : Option (Bool × LinkedList) :=
  if index < 0 ∨ index ≥ list.Size ∨ list.Head = [] then some (false, list)
  else if index = 0 then DeleteFromHead list
  else
    (deleteAfter (index - 1 - 0).toNat list.Head).bind fun r =>
    match r with
    | some head => some (true, { Head := head, Size := list.Size - 1 })
    | none => some (false, list)

/-- The walk of `GetAtIndex`: `n` steps `current = current.Next`;
dereferencing nil is `none`. -/
def walk : Nat → List Int → Option (List Int)
  | 0, current => some current
  | _ + 1, [] => none
  | n + 1, _ :: next => walk n next

/-- Go `GetAtIndex`: the chain that starts at the node returned, `[]` for nil. -/
def GetAtIndex (list : LinkedList) (index : Int) : Option (List Int) :=
  if index < 0 ∨ index ≥ list.Size then some []
  else walk (index - 0).toNat list.Head

/-- Go `IsEmpty`. -/
def IsEmpty (list : LinkedList) : Bool := decide (list.Head = [])

/-- Go `GetSize`. -/
def GetSize (list : LinkedList) : Int := list.Size

/-- A call of one of the six mutating methods. -/
inductive Op where
  | insertAtHead (data : Int)
  | insertAtTail (data : Int)
  | insertAtIndex (index : Int) (data : Int)
  | deleteFromHead
  | deleteFromTail
  | deleteAtIndex (index : Int)
  deriving DecidableEq, Repr

/-- Performs one call and keeps the receiver's final state. -/
def step (list : LinkedList) : Op → Option LinkedList
  | Op.insertAtHead d => InsertAtHead list d
  | Op.insertAtTail d => InsertAtTail list d
  | Op.insertAtIndex i d => (InsertAtIndex list i d).map Prod.snd
  | Op.deleteFromHead => (DeleteFromHead list).map Prod.snd
  | Op.deleteFromTail => (DeleteFromTail list).map Prod.snd
  | Op.deleteAtIndex i => (DeleteAtIndex list i).map Prod.snd

/-- Performs the calls of `ops` from left to right. -/
def run (list : LinkedList) : List Op → Option LinkedList
  | [] => some list
  | op :: ops => (step list op).bind fun l => run l ops

/-- The empty list `&LinkedList{}`. -/
def empty : LinkedList := { Head := [], Size := 0 }

end LinkedList

namespace DynArray

/-! ## Slice primitives at natural-number positions -/

theorem sliceGet_natCast (s : List Int) (n : Nat) : sliceGet s (n : Int) = s[n]? := by
  unfold sliceGet
  by_cases h : n < s.length
  · have h1 : (0 : Int) ≤ (n : Int) ∧ (n : Int) < (s.length : Int) := ⟨by omega, by omega⟩
    simp [h1]
  · have h1 : ¬ ((0 : Int) ≤ (n : Int) ∧ (n : Int) < (s.length : Int)) := by omega
    rw [if_neg h1]
    exact (List.getElem?_eq_none (by omega)).symm

theorem sliceSet_natCast (s : List Int) (n : Nat) (v : Int) (h : n < s.length) :
    sliceSet s (n : Int) v = some (s.set n v) := by
  unfold sliceSet
  have h1 : (0 : Int) ≤ (n : Int) ∧ (n : Int) < (s.length : Int) := ⟨by omega, by omega⟩
  simp [h1]

theorem make_natCast (n : Nat) : make (n : Int) = some (List.replicate n 0) := by
  unfold make
  have h1 : ¬ ((n : Int) < 0) := by omega
  simp [h1]

/-! ## The three loops -/

/-- The slot-by-slot copy loop of `resize` and `ToSlice`, started at slot `k`
with `n` iterations left: it ends without a panic, keeps the length of the
destination and overwrites exactly the slots `k .. k+n-1` from the source. -/
theorem copyLoop_spec (src : List Int) (n : Nat) :
    ∀ (k : Nat) (dst : List Int), k + n ≤ src.length → k + n ≤ dst.length →
      ∃ out, forUp (fun i nd => (sliceGet src i).bind fun x => sliceSet nd i x) n (k : Int) dst
          = some out ∧ out.length = dst.length ∧
        ∀ m : Nat, out[m]? = if k ≤ m ∧ m < k + n then src[m]? else dst[m]? := by
  induction n with
  | zero =>
    intro k dst _ _
    refine ⟨dst, rfl, rfl, fun m => ?_⟩
    have : ¬ (k ≤ m ∧ m < k + 0) := by omega
    rw [if_neg this]
  | succ n ih =>
    intro k dst hs hd
    have hk : k < src.length := by omega
    obtain ⟨out, ho, hl, hm⟩ := ih (k + 1) (dst.set k src[k]) (by omega)
      (by rw [List.length_set]; omega)
    refine ⟨out, ?_, by rw [hl, List.length_set], fun m => ?_⟩
    · simp only [forUp]
      rw [sliceGet_natCast, List.getElem?_eq_getElem hk]
      simp only [Option.some_bind]
      rw [sliceSet_natCast _ _ _ (by omega)]
      simp only [Option.some_bind]
      exact_mod_cast ho
    · rw [hm m, List.getElem?_set]
      by_cases h1 : k = m
      · subst h1
        have h2 : ¬ (k + 1 ≤ k ∧ k < k + 1 + n) := by omega
        have h3 : k ≤ k ∧ k < k + (n + 1) := by omega
        have h4 : k < dst.length := by omega
        simp [h2, h3, h4, List.getElem?_eq_getElem hk]
      · by_cases h2 : k + 1 ≤ m ∧ m < k + 1 + n
        · have h3 : k ≤ m ∧ m < k + (n + 1) := by omega
          simp [h2, h3]
        · have h3 : ¬ (k ≤ m ∧ m < k + (n + 1)) := by omega
          simp [h1, h2, h3]

/-- The tail-to-head shift loop of `Insert`, started at slot `j + n` with `n`
iterations left: it ends without a panic, keeps the length of the buffer and
moves the slots `j .. j+n-1` one place up. -/
theorem shiftRight_spec (n : Nat) :
    ∀ (j : Nat) (d : List Int), j + n < d.length →
      ∃ out, forDown (fun i d => (sliceGet d (i - 1)).bind fun x => sliceSet d i x) n
          ((j + n : Nat) : Int) d = some out ∧ out.length = d.length ∧
        ∀ m : Nat, out[m]? = if j < m ∧ m ≤ j + n then d[m - 1]? else d[m]? := by
  induction n with
  | zero =>
    intro j d _
    refine ⟨d, rfl, rfl, fun m => ?_⟩
    have : ¬ (j < m ∧ m ≤ j + 0) := by omega
    rw [if_neg this]
  | succ n ih =>
    intro j d hd
    have hk : j + n < d.length := by omega
    obtain ⟨out, ho, hl, hm⟩ := ih j (d.set (j + n + 1) d[j + n]) (by rw [List.length_set]; omega)
    refine ⟨out, ?_, by rw [hl, List.length_set], fun m => ?_⟩
    · simp only [forDown]
      have e1 : (((j + (n + 1) : Nat) : Int) - 1) = ((j + n : Nat) : Int) := by push_cast; omega
      rw [e1, sliceGet_natCast, List.getElem?_eq_getElem hk]
      simp only [Option.some_bind]
      rw [sliceSet_natCast _ _ _ (by omega)]
      simp only [Option.some_bind]
      exact ho
    · rw [hm m]
      by_cases h2 : j < m ∧ m ≤ j + n
      · have h3 : j < m ∧ m ≤ j + (n + 1) := by omega
        have h4 : j + n + 1 ≠ m - 1 := by omega
        simp [h2, h3, List.getElem?_set, h4]
      · by_cases h1 : j + n + 1 = m
        · subst h1
          have h3 : j < j + n + 1 ∧ j + n + 1 ≤ j + (n + 1) := by omega
          have h4 : j + n + 1 < d.length := by omega
          simp [h2, h3, List.getElem?_set, h4, List.getElem?_eq_getElem hk]
        · have h3 : ¬ (j < m ∧ m ≤ j + (n + 1)) := by omega
          simp [h2, h3, List.getElem?_set, h1]

/-- The head-to-tail shift loop of `Delete`, started at slot `j` with `n`
iterations left: it ends without a panic, keeps the length of the buffer and
moves the slots `j+1 .. j+n` one place down. -/
theorem shiftLeft_spec (n : Nat) :
    ∀ (j : Nat) (d : List Int), j + n < d.length →
      ∃ out, forUp (fun i d => (sliceGet d (i + 1)).bind fun x => sliceSet d i x) n
          (j : Int) d = some out ∧ out.length = d.length ∧
        ∀ m : Nat, out[m]? = if j ≤ m ∧ m < j + n then d[m + 1]? else d[m]? := by
  induction n with
  | zero =>
    intro j d _
    refine ⟨d, rfl, rfl, fun m => ?_⟩
    have : ¬ (j ≤ m ∧ m < j + 0) := by omega
    rw [if_neg this]
  | succ n ih =>
    intro j d hd
    have hk : j + 1 < d.length := by omega
    obtain ⟨out, ho, hl, hm⟩ := ih (j + 1) (d.set j d[j + 1]) (by rw [List.length_set]; omega)
    refine ⟨out, ?_, by rw [hl, List.length_set], fun m => ?_⟩
    · simp only [forUp]
      have e1 : ((j : Int) + 1) = ((j + 1 : Nat) : Int) := by push_cast; rfl
      rw [e1, sliceGet_natCast, List.getElem?_eq_getElem hk]
      simp only [Option.some_bind]
      rw [sliceSet_natCast _ _ _ (by omega)]
      simp only [Option.some_bind]
      exact ho
    · rw [hm m]
      by_cases h1 : j = m
      · subst h1
        have h2 : ¬ (j + 1 ≤ j ∧ j < j + 1 + n) := by omega
        have h3 : j ≤ j ∧ j < j + (n + 1) := by omega
        have h4 : j < d.length := by omega
        simp [h2, h3, List.getElem?_set, h4, List.getElem?_eq_getElem hk]
      · by_cases h2 : j + 1 ≤ m ∧ m < j + 1 + n
        · have h3 : j ≤ m ∧ m < j + (n + 1) := by omega
          have h4 : j ≠ m + 1 := by omega
          simp [h2, h3, List.getElem?_set, h4]
        · have h3 : ¬ (j ≤ m ∧ m < j + (n + 1)) := by omega
          simp [h2, h3, List.getElem?_set, h1]

/-! ## Well-formed arrays in natural-number form -/

theorem WellFormed.exists_nat {d : List Int} {l c : Int} (h : WellFormed ⟨d, l, c⟩) :
    ∃ L C : Nat, l = (L : Int) ∧ c = (C : Int) ∧ d.length = C ∧ 1 ≤ C ∧ L ≤ C := by
  obtain ⟨h1, h2, h3, h4⟩ := h
  simp only at h1 h2 h3 h4
  exact ⟨l.toNat, c.toNat, by omega, by omega, by omega, by omega, by omega⟩

theorem wellFormed_mk (d : List Int) (L C : Nat) (hd : d.length = C) (hC : 1 ≤ C) (hL : L ≤ C) :
    WellFormed ⟨d, (L : Int), (C : Int)⟩ := by
  refine ⟨?_, ?_, ?_, ?_⟩ <;> simp only <;> omega

/-! ## `resize` and the growth check -/

theorem resize_mk (d : List Int) (L C : Nat) (hd : d.length = C) (hL : L ≤ C) :
    resize ⟨d, (L : Int), (C : Int)⟩
      = some ⟨d.take L ++ List.replicate (C * 2 - L) 0, (L : Int), ((C * 2 : Nat) : Int)⟩ := by
  obtain ⟨out, ho, hl, hm⟩ := copyLoop_spec d L 0 (List.replicate (C * 2) 0) (by omega)
    (by rw [List.length_replicate]; omega)
  have e : out = d.take L ++ List.replicate (C * 2 - L) 0 := by
    apply List.ext_getElem?
    intro m
    rw [hm m, List.getElem?_append, List.getElem?_take, List.length_take,
      List.getElem?_replicate, List.getElem?_replicate]
    have hmin : min L d.length = L := by omega
    rw [hmin]
    by_cases h1 : m < L
    · have h2 : 0 ≤ m ∧ m < 0 + L := by omega
      simp [h1, h2]
    · have h2 : ¬ (0 ≤ m ∧ m < 0 + L) := by omega
      by_cases h3 : m < C * 2
      · have h4 : m - L < C * 2 - L := by omega
        simp [h1, h2, h3, h4]
      · have h4 : ¬ (m - L < C * 2 - L) := by omega
        simp [h1, h2, h3, h4]
  unfold resize
  simp only
  have e1 : (C : Int) * 2 = ((C * 2 : Nat) : Int) := by push_cast; rfl
  have e2 : ((L : Int) - 0).toNat = L := by omega
  rw [e1, make_natCast, e2]
  simp only [Option.some_bind]
  have ho1 : forUp (fun i nd => (sliceGet d i).bind fun x => sliceSet nd i x) L 0
      (List.replicate (C * 2) 0) = some out := by exact_mod_cast ho
  rw [ho1, e]
  rfl

/-- The growth check shared by `Append` and `Insert`: it never panics on a
well-formed array and leaves a buffer with a free slot behind the live ones. -/
theorem grow_mk (d : List Int) (L C : Nat) (hd : d.length = C) (hC : 1 ≤ C) (hL : L ≤ C) :
    ∃ (g : List Int) (C1 : Nat),
      (if (L : Int) ≥ (C : Int) then resize ⟨d, (L : Int), (C : Int)⟩
        else some ⟨d, (L : Int), (C : Int)⟩) = some ⟨g, (L : Int), (C1 : Int)⟩ ∧
      g.length = C1 ∧ L < C1 ∧ (C1 = if L = C then C * 2 else C) ∧
      (L ≠ C → g = d) ∧ (L = C → g = d.take L ++ List.replicate (C * 2 - L) 0) ∧
      g.take L = d.take L := by
  by_cases h : L = C
  · refine ⟨d.take L ++ List.replicate (C * 2 - L) 0, C * 2, ?_, ?_, by omega, by simp [h],
      fun h1 => absurd h h1, fun _ => rfl, ?_⟩
    · have h1 : (L : Int) ≥ (C : Int) := by omega
      rw [if_pos h1, resize_mk d L C hd hL]
    · rw [List.length_append, List.length_take, List.length_replicate]; omega
    · rw [List.take_append_of_le_length (by rw [List.length_take]; omega), List.take_take]
      simp
  · refine ⟨d, C, ?_, hd, by omega, by simp [h], fun _ => rfl, fun h1 => absurd h1 h, rfl⟩
    have h1 : ¬ ((L : Int) ≥ (C : Int)) := by omega
    rw [if_neg h1]

/-! ## The methods on a well-formed array -/

theorem ToSlice_mk (d : List Int) (L C : Nat) (hL : L ≤ d.length) :
    ToSlice ⟨d, (L : Int), (C : Int)⟩ = some (d.take L, ⟨d, (L : Int), (C : Int)⟩) := by
  obtain ⟨out, ho, hl, hm⟩ := copyLoop_spec d L 0 (List.replicate L 0) (by omega)
    (by rw [List.length_replicate]; omega)
  have e : out = d.take L := by
    apply List.ext_getElem?
    intro m
    rw [hm m, List.getElem?_take, List.getElem?_replicate]
    by_cases h1 : m < L
    · have h2 : 0 ≤ m ∧ m < 0 + L := by omega
      simp [h1, h2]
    · have h2 : ¬ (0 ≤ m ∧ m < 0 + L) := by omega
      simp [h1, h2]
  unfold ToSlice
  simp only
  have e2 : ((L : Int) - 0).toNat = L := by omega
  rw [make_natCast, e2]
  simp only [Option.some_bind]
  have ho1 : forUp (fun i nd => (sliceGet d i).bind fun x => sliceSet nd i x) L 0
      (List.replicate L 0) = some out := by exact_mod_cast ho
  rw [ho1, e]
  rfl

theorem Append_mk (d : List Int) (L C : Nat) (v : Int)
    (hd : d.length = C) (hC : 1 ≤ C) (hL : L ≤ C) :
    ∃ (g : List Int) (C1 : Nat),
      Append ⟨d, (L : Int), (C : Int)⟩ v = some ⟨g.set L v, ((L + 1 : Nat) : Int), (C1 : Int)⟩ ∧
      g.length = C1 ∧ L < C1 ∧ (C1 = if L = C then C * 2 else C) ∧
      (L ≠ C → g = d) ∧ (L = C → g = d.take L ++ List.replicate (C * 2 - L) 0) ∧
      g.take L = d.take L := by
  obtain ⟨g, C1, hg, h1, h2, h3, h4, h5, h6⟩ := grow_mk d L C hd hC hL
  refine ⟨g, C1, ?_, h1, h2, h3, h4, h5, h6⟩
  unfold Append
  simp only
  rw [hg]
  simp only [Option.some_bind]
  rw [sliceSet_natCast _ _ _ (by omega)]
  simp only [Option.some_bind]
  push_cast
  rfl

theorem Insert_mk (d : List Int) (L C i : Nat) (v : Int)
    (hd : d.length = C) (hC : 1 ≤ C) (hL : L ≤ C) (hi : i ≤ L) :
    ∃ (g out : List Int) (C1 : Nat),
      Insert ⟨d, (L : Int), (C : Int)⟩ (i : Int) v
        = some (none, ⟨out, ((L + 1 : Nat) : Int), (C1 : Int)⟩) ∧
      g.length = C1 ∧ L < C1 ∧ (C1 = if L = C then C * 2 else C) ∧
      (L ≠ C → g = d) ∧ (L = C → g = d.take L ++ List.replicate (C * 2 - L) 0) ∧
      g.take L = d.take L ∧ out.length = C1 ∧
      ∀ m : Nat, out[m]? =
        if m = i then some v else if i < m ∧ m ≤ L then g[m - 1]? else g[m]? := by
  obtain ⟨g, C1, hg, h1, h2, h3, h4, h5, h6⟩ := grow_mk d L C hd hC hL
  obtain ⟨sh, hs, hsl, hsm⟩ := shiftRight_spec (L - i) i g (by omega)
  refine ⟨g, sh.set i v, C1, ?_, h1, h2, h3, h4, h5, h6, by rw [List.length_set]; omega, ?_⟩
  · unfold Insert
    have hc : ¬ ((i : Int) < 0 ∨ (i : Int) > (L : Int)) := by omega
    simp only
    rw [if_neg hc, hg]
    simp only [Option.some_bind]
    have e1 : ((L : Int) - (i : Int)).toNat = L - i := by omega
    have e2 : (L : Int) = ((i + (L - i) : Nat) : Int) := by omega
    rw [e1]
    conv => lhs; arg 1; arg 3; rw [e2]
    rw [hs]
    simp only [Option.some_bind]
    rw [sliceSet_natCast _ _ _ (by omega)]
    simp only [Option.some_bind]
    push_cast
    rfl
  · intro m
    rw [List.getElem?_set, hsm m]
    by_cases hm : m = i
    · subst hm
      have : m < sh.length := by omega
      simp [this]
    · have hm1 : ¬ (i = m) := fun h => hm h.symm
      have e3 : i + (L - i) = L := by omega
      simp only [hm, hm1, if_false, e3]

theorem Delete_mk (d : List Int) (L C i : Nat)
    (hd : d.length = C) (hL : L ≤ C) (hi : i < L) :
    ∃ out : List Int,
      Delete ⟨d, (L : Int), (C : Int)⟩ (i : Int)
        = some (none, ⟨out, ((L - 1 : Nat) : Int), (C : Int)⟩) ∧
      out.length = C ∧
      ∀ m : Nat, out[m]? = if i ≤ m ∧ m < L - 1 then d[m + 1]? else d[m]? := by
  obtain ⟨out, ho, hl, hm⟩ := shiftLeft_spec (L - 1 - i) i d (by omega)
  refine ⟨out, ?_, by omega, ?_⟩
  · unfold Delete
    have hc : ¬ ((i : Int) < 0 ∨ (i : Int) ≥ (L : Int)) := by omega
    simp only
    rw [if_neg hc]
    have e1 : ((L : Int) - 1 - (i : Int)).toNat = L - 1 - i := by omega
    rw [e1, ho]
    simp only [Option.some_bind]
    have e2 : (L : Int) - 1 = ((L - 1 : Nat) : Int) := by omega
    rw [e2]
  · intro m
    rw [hm m]
    have e3 : i + (L - 1 - i) = L - 1 := by omega
    rw [e3]

theorem Get_mk (d : List Int) (L C i : Nat) (hd : d.length = C) (hL : L ≤ C) (hi : i < L) :
    ∃ x : Int, d[i]? = some x ∧
      Get ⟨d, (L : Int), (C : Int)⟩ (i : Int) = some ((x, none), ⟨d, (L : Int), (C : Int)⟩) := by
  have hlt : i < d.length := by omega
  refine ⟨d[i], List.getElem?_eq_getElem hlt, ?_⟩
  unfold Get
  have hc : ¬ ((i : Int) < 0 ∨ (i : Int) ≥ (L : Int)) := by omega
  simp only
  rw [if_neg hc, sliceGet_natCast, List.getElem?_eq_getElem hlt]
  rfl

theorem Set_mk (d : List Int) (L C i : Nat) (v : Int)
    (hd : d.length = C) (hL : L ≤ C) (hi : i < L) :
    Set ⟨d, (L : Int), (C : Int)⟩ (i : Int) v
      = some (none, ⟨d.set i v, (L : Int), (C : Int)⟩) := by
  unfold Set
  have hc : ¬ ((i : Int) < 0 ∨ (i : Int) ≥ (L : Int)) := by omega
  simp only
  rw [if_neg hc, sliceSet_natCast _ _ _ (by omega)]
  rfl

theorem Pop_mk (d : List Int) (L C : Nat) (hd : d.length = C) (hL : L ≤ C) (hp : 0 < L) :
    ∃ x : Int, d[L - 1]? = some x ∧
      Pop ⟨d, (L : Int), (C : Int)⟩
        = some ((x, none), ⟨d, ((L - 1 : Nat) : Int), (C : Int)⟩) := by
  have hlt : L - 1 < d.length := by omega
  refine ⟨d[L - 1], List.getElem?_eq_getElem hlt, ?_⟩
  unfold Pop
  have hc : ¬ ((L : Int) = 0) := by omega
  have e2 : (L : Int) - 1 = ((L - 1 : Nat) : Int) := by omega
  simp only
  rw [if_neg hc, e2, sliceGet_natCast, List.getElem?_eq_getElem hlt]
  rfl

/-! ## Logical contents after each mutator -/

theorem getElem?_of_take_eq {g d : List Int} {L : Nat} (h : g.take L = d.take L)
    (k : Nat) (hk : k < L) : g[k]? = d[k]? := by
  have h1 := congrArg (fun l : List Int => l[k]?) h
  simp only [List.getElem?_take, hk, if_true] at h1
  exact h1

theorem take_succ_set (g : List Int) (L : Nat) (v : Int) (h : L < g.length) :
    (g.set L v).take (L + 1) = g.take L ++ [v] := by
  apply List.ext_getElem?
  intro m
  rw [List.getElem?_take, List.getElem?_set, List.getElem?_append, List.getElem?_take,
    List.length_take]
  have hmin : min L g.length = L := by omega
  rw [hmin]
  by_cases h1 : m < L
  · have h2 : m < L + 1 := by omega
    have h3 : ¬ (L = m) := by omega
    simp [h1, h2, h3]
  · by_cases h2 : m = L
    · subst h2
      simp [h]
    · have h3 : ¬ (m < L + 1) := by omega
      have h4 : m - L ≠ 0 := by omega
      have h5 : ([v] : List Int)[m - L]? = none := by
        apply List.getElem?_eq_none
        simp only [List.length_singleton]
        omega
      simp [h1, h3, h5]

theorem take_set_of_le (g : List Int) (v : Int) {n m : Nat} (h : m ≤ n) :
    (g.set n v).take m = g.take m := by
  apply List.ext_getElem?
  intro k
  rw [List.getElem?_take, List.getElem?_take]
  by_cases hk : k < m
  · rw [if_pos hk, if_pos hk, List.getElem?_set_ne (by omega)]
  · rw [if_neg hk, if_neg hk]

theorem Append_contents_mk (d : List Int) (L C : Nat) (v : Int)
    (hd : d.length = C) (hC : 1 ≤ C) (hL : L ≤ C) :
    ∃ (out : List Int) (C1 : Nat),
      Append ⟨d, (L : Int), (C : Int)⟩ v = some ⟨out, ((L + 1 : Nat) : Int), (C1 : Int)⟩ ∧
      out.length = C1 ∧ L + 1 ≤ C1 ∧ (C1 = if L = C then C * 2 else C) ∧
      out.take (L + 1) = d.take L ++ [v] := by
  obtain ⟨g, C1, hg, h1, h2, h3, _, _, h6⟩ := Append_mk d L C v hd hC hL
  refine ⟨g.set L v, C1, hg, by rw [List.length_set]; exact h1, by omega, h3, ?_⟩
  rw [take_succ_set g L v (by omega), h6]

theorem Insert_contents_mk (d : List Int) (L C i : Nat) (v : Int)
    (hd : d.length = C) (hC : 1 ≤ C) (hL : L ≤ C) (hi : i ≤ L) :
    ∃ (out : List Int) (C1 : Nat),
      Insert ⟨d, (L : Int), (C : Int)⟩ (i : Int) v
        = some (none, ⟨out, ((L + 1 : Nat) : Int), (C1 : Int)⟩) ∧
      out.length = C1 ∧ L + 1 ≤ C1 ∧ (C1 = if L = C then C * 2 else C) ∧
      out.take (L + 1) = (d.take L).take i ++ [v] ++ (d.take L).drop i := by
  obtain ⟨g, out, C1, ho, h1, h2, h3, _, _, h6, h7, h8⟩ := Insert_mk d L C i v hd hC hL hi
  refine ⟨out, C1, ho, h7, by omega, h3, ?_⟩
  apply List.ext_getElem?
  intro m
  have hlen : ((d.take L).take i ++ [v]).length = i + 1 := by
    simp only [List.length_append, List.length_take, List.length_singleton]
    omega
  have hlen0 : ((d.take L).take i).length = i := by
    simp only [List.length_take]
    omega
  rw [List.getElem?_take, h8 m, List.getElem?_append, hlen]
  by_cases c1 : m < i
  · have c2 : m < L + 1 := by omega
    have c3 : m < i + 1 := by omega
    have c4 : ¬ (m = i) := by omega
    have c5 : ¬ (i < m ∧ m ≤ L) := by omega
    rw [if_pos c2, if_neg c4, if_neg c5, if_pos c3, List.getElem?_append, hlen0, if_pos c1,
      List.getElem?_take, if_pos c1, List.getElem?_take, if_pos (by omega)]
    exact getElem?_of_take_eq h6 m (by omega)
  · by_cases c2 : m = i
    · subst c2
      have c3 : m < L + 1 := by omega
      rw [if_pos c3, if_pos rfl, if_pos (by omega), List.getElem?_append, hlen0, if_neg c1]
      simp
    · by_cases c3 : m < L + 1
      · have c5 : i < m ∧ m ≤ L := by omega
        rw [if_pos c3, if_neg c2, if_pos c5, if_neg (by omega), List.getElem?_drop,
          List.getElem?_take]
        have e : i + (m - (i + 1)) = m - 1 := by omega
        rw [e, if_pos (by omega)]
        exact getElem?_of_take_eq h6 (m - 1) (by omega)
      · rw [if_neg c3, if_neg (by omega), List.getElem?_drop, List.getElem?_take]
        rw [if_neg (by omega)]

theorem Delete_contents_mk (d : List Int) (L C i : Nat)
    (hd : d.length = C) (hL : L ≤ C) (hi : i < L) :
    ∃ out : List Int,
      Delete ⟨d, (L : Int), (C : Int)⟩ (i : Int)
        = some (none, ⟨out, ((L - 1 : Nat) : Int), (C : Int)⟩) ∧
      out.length = C ∧
      out.take (L - 1) = (d.take L).take i ++ (d.take L).drop (i + 1) := by
  obtain ⟨out, ho, h1, h2⟩ := Delete_mk d L C i hd hL hi
  refine ⟨out, ho, h1, ?_⟩
  apply List.ext_getElem?
  intro m
  have hlen0 : ((d.take L).take i).length = i := by
    simp only [List.length_take]
    omega
  rw [List.getElem?_take, h2 m, List.getElem?_append, hlen0]
  by_cases c1 : m < i
  · have c4 : ¬ (i ≤ m ∧ m < L - 1) := by omega
    rw [if_pos (by omega), if_neg c4, if_pos c1, List.getElem?_take, if_pos c1,
      List.getElem?_take, if_pos (by omega)]
  · by_cases c3 : m < L - 1
    · have c5 : i ≤ m ∧ m < L - 1 := by omega
      rw [if_pos c3, if_pos c5, if_neg c1, List.getElem?_drop, List.getElem?_take]
      have e : i + 1 + (m - i) = m + 1 := by omega
      rw [e, if_pos (by omega)]
    · rw [if_neg c3, if_neg c1, List.getElem?_drop, List.getElem?_take]
      rw [if_neg (by omega)]

/-! ## Error returns and preservation of the representation invariant -/

theorem Get_error (da : DynamicArray) (i : Int) (h : i < 0 ∨ i ≥ da.length) :
    Get da i = some ((0, some (Error.indexOutOfRange i (da.length - 1))), da) := by
  unfold Get
  rw [if_pos h]

theorem Set_error (da : DynamicArray) (i v : Int) (h : i < 0 ∨ i ≥ da.length) :
    Set da i v = some (some (Error.indexOutOfRange i (da.length - 1)), da) := by
  unfold Set
  rw [if_pos h]

theorem Insert_error (da : DynamicArray) (i v : Int) (h : i < 0 ∨ i > da.length) :
    Insert da i v = some (some (Error.indexOutOfRange i da.length), da) := by
  unfold Insert
  rw [if_pos h]

theorem Delete_error (da : DynamicArray) (i : Int) (h : i < 0 ∨ i ≥ da.length) :
    Delete da i = some (some (Error.indexOutOfRange i (da.length - 1)), da) := by
  unfold Delete
  rw [if_pos h]

theorem Pop_error (da : DynamicArray) (h : da.length = 0) :
    Pop da = some ((0, some Error.emptyArray), da) := by
  unfold Pop
  rw [if_pos h]

/-- Every public mutating call on a well-formed array returns without a panic
and leaves a well-formed array. -/
theorem step_wellFormed (da : DynamicArray) (op : Op) (h : WellFormed da) :
    ∃ da1, step da op = some da1 ∧ WellFormed da1 := by
  obtain ⟨d, l, c⟩ := da
  obtain ⟨L, C, rfl, rfl, hd, hC, hL⟩ := h.exists_nat
  cases op with
  | append v =>
    obtain ⟨out, C1, ho, h1, h2, _, _⟩ := Append_contents_mk d L C v hd hC hL
    exact ⟨_, ho, wellFormed_mk out (L + 1) C1 h1 (by omega) h2⟩
  | insert i v =>
    by_cases hi : i < 0 ∨ i > (L : Int)
    · refine ⟨_, ?_, h⟩
      simp only [step]
      rw [Insert_error _ i v hi]
      rfl
    · obtain ⟨n, rfl⟩ := Int.eq_ofNat_of_zero_le (show 0 ≤ i by omega)
      obtain ⟨out, C1, ho, h1, h2, _, _⟩ :=
        Insert_contents_mk d L C n v hd hC hL (by omega)
      refine ⟨_, ?_, wellFormed_mk out (L + 1) C1 h1 (by omega) h2⟩
      simp only [step]
      rw [ho]
      rfl
  | set i v =>
    by_cases hi : i < 0 ∨ i ≥ (L : Int)
    · refine ⟨_, ?_, h⟩
      simp only [step]
      rw [Set_error _ i v hi]
      rfl
    · obtain ⟨n, rfl⟩ := Int.eq_ofNat_of_zero_le (show 0 ≤ i by omega)
      refine ⟨_, ?_, wellFormed_mk (d.set n v) L C (by rw [List.length_set]; exact hd) hC hL⟩
      simp only [step]
      rw [Set_mk d L C n v hd hL (by omega)]
      rfl
  | delete i =>
    by_cases hi : i < 0 ∨ i ≥ (L : Int)
    · refine ⟨_, ?_, h⟩
      simp only [step]
      rw [Delete_error _ i hi]
      rfl
    · obtain ⟨n, rfl⟩ := Int.eq_ofNat_of_zero_le (show 0 ≤ i by omega)
      obtain ⟨out, ho, h1, _⟩ := Delete_contents_mk d L C n hd hL (by omega)
      refine ⟨_, ?_, wellFormed_mk out (L - 1) C h1 hC (by omega)⟩
      simp only [step]
      rw [ho]
      rfl
  | pop =>
    by_cases hp : L = 0
    · refine ⟨_, ?_, h⟩
      simp only [step]
      rw [Pop_error _ (by simp [hp])]
      rfl
    · obtain ⟨x, _, hx⟩ := Pop_mk d L C hd hL (by omega)
      refine ⟨_, ?_, wellFormed_mk d (L - 1) C hd hC (by omega)⟩
      simp only [step]
      rw [hx]
      rfl
  | clear =>
    exact ⟨_, rfl, wellFormed_mk d 0 C hd hC (by omega)⟩

theorem run_wellFormed (ops : List Op) :
    ∀ da : DynamicArray, WellFormed da → ∃ da1, run da ops = some da1 ∧ WellFormed da1 := by
  induction ops with
  | nil => exact fun da h => ⟨da, rfl, h⟩
  | cons op ops ih =>
    intro da h
    obtain ⟨da1, h1, w1⟩ := step_wellFormed da op h
    obtain ⟨da2, h2, w2⟩ := ih da1 w1
    refine ⟨da2, ?_, w2⟩
    simp only [run]
    rw [h1]
    exact h2

theorem NewDynamicArray_eq :
    NewDynamicArray = some ⟨[0, 0], 0, 2⟩ := by
  decide

theorem NewDynamicArrayWithCapacity_eq (n : Int) :
    NewDynamicArrayWithCapacity n
      = some ⟨List.replicate (if n < 1 then 2 else n).toNat 0, 0, if n < 1 then 2 else n⟩ := by
  unfold NewDynamicArrayWithCapacity make
  by_cases h : n < 1
  · simp [h]
  · have h1 : ¬ (n < 0) := by omega
    simp [h, h1]

theorem NewDynamicArrayWithCapacity_wellFormed (n : Int) :
    ∃ a0, NewDynamicArrayWithCapacity n = some a0 ∧ WellFormed a0 := by
  refine ⟨_, NewDynamicArrayWithCapacity_eq n, ?_⟩
  refine ⟨?_, ?_, ?_, ?_⟩ <;> simp only [List.length_replicate] <;> (try split_ifs) <;> omega

/-! ## The claims -/

/-- C1: on an array built by `NewDynamicArray` or by
`NewDynamicArrayWithCapacity n` (any integer `n`), every finite sequence of
`Append`, `Insert`, `Set`, `Delete`, `Pop` and `Clear` calls, failing calls
included, runs without a panic and `0 <= length <= capacity` holds after each
call (after every prefix `ops.take k` of the sequence). -/
theorem length_le_capacity_after_each_call (n : Int) (ops : List Op) (k : Nat) :
    (∃ a0 a, NewDynamicArray = some a0 ∧ run a0 (ops.take k) = some a ∧
        0 ≤ Length a ∧ Length a ≤ Capacity a) ∧
    (∃ a0 a, NewDynamicArrayWithCapacity n = some a0 ∧ run a0 (ops.take k) = some a ∧
        0 ≤ Length a ∧ Length a ≤ Capacity a) := by
  constructor
  · obtain ⟨a, ha, w⟩ := run_wellFormed (ops.take k) ⟨[0, 0], 0, 2⟩ (by decide)
    exact ⟨_, a, NewDynamicArray_eq, ha, w.2.2.1, w.2.2.2⟩
  · obtain ⟨a0, h0, w0⟩ := NewDynamicArrayWithCapacity_wellFormed n
    obtain ⟨a, ha, w⟩ := run_wellFormed (ops.take k) a0 w0
    exact ⟨a0, a, h0, ha, w.2.2.1, w.2.2.2⟩

/-- C2: on a well-formed array, `Append v` returns without a panic, the
contents given by `ToSlice` become the old contents followed by `v`, and
`Length` grows by one, whether or not the buffer had to grow. -/
theorem Append_contents (a : DynamicArray) (v : Int) (h : WellFormed a) :
    ∃ s a1, ToSlice a = some (s, a) ∧ Append a v = some a1 ∧
      ToSlice a1 = some (s ++ [v], a1) ∧ Length a1 = Length a + 1 := by
  obtain ⟨d, l, c⟩ := a
  obtain ⟨L, C, rfl, rfl, hd, hC, hL⟩ := h.exists_nat
  obtain ⟨out, C1, ho, h1, h2, _, h4⟩ := Append_contents_mk d L C v hd hC hL
  refine ⟨d.take L, _, ToSlice_mk d L C (by omega), ho, ?_, ?_⟩
  · rw [ToSlice_mk out (L + 1) C1 (by omega), h4]
  · simp only [Length]
    push_cast
    rfl

/-- Witness of C2 on a full array (growth is triggered). -/
theorem Append_contents_witness :
    WellFormed ⟨[7, 8], 2, 2⟩ ∧
    ∃ s a1, ToSlice ⟨[7, 8], 2, 2⟩ = some (s, ⟨[7, 8], 2, 2⟩) ∧
      Append ⟨[7, 8], 2, 2⟩ 9 = some a1 ∧
      ToSlice a1 = some (s ++ [9], a1) ∧ Length a1 = Length ⟨[7, 8], 2, 2⟩ + 1 :=
  ⟨by decide, Append_contents ⟨[7, 8], 2, 2⟩ 9 (by decide)⟩

/-- C3: on a well-formed array, `Append` and a successful `Insert` change
`capacity` exactly when `length == capacity` held before the call.  In that
case the call continues on the result of `resize`, whose capacity is twice the
old one and whose buffer has that many slots, the first `length` of them equal
to the old buffer's, and the final capacity and buffer size are twice the old
capacity; otherwise the capacity is unchanged. -/
theorem capacity_changes_iff_full (a : DynamicArray) (i v : Int) (h : WellFormed a)
    (hi : 0 ≤ i ∧ i ≤ Length a) :
    ∃ a1 a2, Append a v = some a1 ∧ Insert a i v = some (none, a2) ∧
      (Capacity a1 ≠ Capacity a ↔ Length a = Capacity a) ∧
      (Capacity a2 ≠ Capacity a ↔ Length a = Capacity a) ∧
      (Length a ≠ Capacity a → Capacity a1 = Capacity a ∧ Capacity a2 = Capacity a) ∧
      (Length a = Capacity a →
        Capacity a1 = 2 * Capacity a ∧ Capacity a2 = 2 * Capacity a ∧
        (a1.data.length : Int) = 2 * Capacity a ∧ (a2.data.length : Int) = 2 * Capacity a ∧
        a1.data.take (Length a).toNat = a.data.take (Length a).toNat ∧
        ∃ g, resize a = some g ∧ Capacity g = 2 * Capacity a ∧
          (g.data.length : Int) = 2 * Capacity a ∧ Length g = Length a ∧
          g.data.take (Length a).toNat = a.data.take (Length a).toNat ∧
          Append a v = Append g v ∧ Insert a i v = Insert g i v) := by
  obtain ⟨d, l, c⟩ := a
  obtain ⟨L, C, rfl, rfl, hd, hC, hL⟩ := h.exists_nat
  simp only [Length] at hi
  obtain ⟨n, rfl⟩ := Int.eq_ofNat_of_zero_le hi.1
  have hn : n ≤ L := by omega
  obtain ⟨g, C1, ho, h1, h2, h3, h4, h5, h6⟩ := Append_mk d L C v hd hC hL
  obtain ⟨out, C2, ho2, k1, k2, k3, _⟩ := Insert_contents_mk d L C n v hd hC hL hn
  refine ⟨_, _, ho, ho2, ?_, ?_, ?_, ?_⟩
  · simp only [Capacity, Length]
    split_ifs at h3 <;> omega
  · simp only [Capacity, Length]
    split_ifs at k3 <;> omega
  · intro hne
    simp only [Capacity, Length] at hne ⊢
    have : L ≠ C := by omega
    rw [if_neg this] at h3 k3
    omega
  · intro he
    simp only [Capacity, Length] at he ⊢
    have hLC : L = C := by omega
    rw [if_pos hLC] at h3 k3
    have hg := resize_mk d L C hd hL
    have hgl : (d.take L ++ List.replicate (C * 2 - L) 0).length = C * 2 := by
      rw [List.length_append, List.length_take, List.length_replicate]
      omega
    refine ⟨by omega, by omega, ?_, ?_, ?_, _, hg, ?_, ?_, rfl, ?_, ?_, ?_⟩
    · show ((g.set L v).length : Int) = 2 * (C : Int)
      rw [List.length_set]
      omega
    · show (out.length : Int) = 2 * (C : Int)
      omega
    · show (g.set L v).take (L : Int).toNat = d.take (L : Int).toNat
      simp only [Int.toNat_ofNat]
      rw [take_set_of_le g v (Nat.le_refl L), h6]
    · show ((C * 2 : Nat) : Int) = 2 * (C : Int)
      omega
    · show ((d.take L ++ List.replicate (C * 2 - L) 0).length : Int) = 2 * (C : Int)
      rw [hgl]
      omega
    · show (d.take L ++ List.replicate (C * 2 - L) 0).take (L : Int).toNat
        = d.take (L : Int).toNat
      simp only [Int.toNat_ofNat]
      rw [List.take_append_of_le_length (by rw [List.length_take]; omega), List.take_take]
      simp
    · have c1 : (L : Int) ≥ (C : Int) := by omega
      have c2 : ¬ ((L : Int) ≥ ((C * 2 : Nat) : Int)) := by omega
      simp only [Append]
      rw [if_pos c1, if_neg c2, hg]
    · have c1 : (L : Int) ≥ (C : Int) := by omega
      have c2 : ¬ ((L : Int) ≥ ((C * 2 : Nat) : Int)) := by omega
      have c3 : ¬ ((n : Int) < 0 ∨ (n : Int) > (L : Int)) := by omega
      simp only [Insert]
      rw [if_neg c3, if_neg c3, if_pos c1, if_neg c2, hg]

/-- Witness of C3 on a full array of capacity 2. -/
theorem capacity_changes_iff_full_witness :
    WellFormed ⟨[7, 8], 2, 2⟩ ∧ ((0 : Int) ≤ 1 ∧ (1 : Int) ≤ Length ⟨[7, 8], 2, 2⟩) ∧
    ∃ a1 a2, Append ⟨[7, 8], 2, 2⟩ 9 = some a1 ∧ Insert ⟨[7, 8], 2, 2⟩ 1 9 = some (none, a2) ∧
      (Capacity a1 ≠ Capacity ⟨[7, 8], 2, 2⟩ ↔ Length ⟨[7, 8], 2, 2⟩ = Capacity ⟨[7, 8], 2, 2⟩) ∧
      (Capacity a2 ≠ Capacity ⟨[7, 8], 2, 2⟩ ↔ Length ⟨[7, 8], 2, 2⟩ = Capacity ⟨[7, 8], 2, 2⟩) ∧
      (Length ⟨[7, 8], 2, 2⟩ ≠ Capacity ⟨[7, 8], 2, 2⟩ →
        Capacity a1 = Capacity ⟨[7, 8], 2, 2⟩ ∧ Capacity a2 = Capacity ⟨[7, 8], 2, 2⟩) ∧
      (Length ⟨[7, 8], 2, 2⟩ = Capacity ⟨[7, 8], 2, 2⟩ →
        Capacity a1 = 2 * Capacity ⟨[7, 8], 2, 2⟩ ∧ Capacity a2 = 2 * Capacity ⟨[7, 8], 2, 2⟩ ∧
        (a1.data.length : Int) = 2 * Capacity ⟨[7, 8], 2, 2⟩ ∧
        (a2.data.length : Int) = 2 * Capacity ⟨[7, 8], 2, 2⟩ ∧
        a1.data.take (Length ⟨[7, 8], 2, 2⟩).toNat
          = (DynamicArray.mk [7, 8] 2 2).data.take (Length ⟨[7, 8], 2, 2⟩).toNat ∧
        ∃ g, resize ⟨[7, 8], 2, 2⟩ = some g ∧ Capacity g = 2 * Capacity ⟨[7, 8], 2, 2⟩ ∧
          (g.data.length : Int) = 2 * Capacity ⟨[7, 8], 2, 2⟩ ∧
          Length g = Length ⟨[7, 8], 2, 2⟩ ∧
          g.data.take (Length ⟨[7, 8], 2, 2⟩).toNat
            = (DynamicArray.mk [7, 8] 2 2).data.take (Length ⟨[7, 8], 2, 2⟩).toNat ∧
          Append ⟨[7, 8], 2, 2⟩ 9 = Append g 9 ∧ Insert ⟨[7, 8], 2, 2⟩ 1 9 = Insert g 1 9) :=
  ⟨by decide, by decide, capacity_changes_iff_full ⟨[7, 8], 2, 2⟩ 1 9 (by decide) (by decide)⟩

/-- C4: on a well-formed array with contents `s`, `Insert i v` with
`0 <= i <= Length` returns no error and without a panic, the contents become
`take i s ++ [v] ++ drop i s` and `Length` grows by one. -/
theorem Insert_contents (a : DynamicArray) (i v : Int) (h : WellFormed a)
    (hi : 0 ≤ i ∧ i ≤ Length a) :
    ∃ s a1, ToSlice a = some (s, a) ∧ Insert a i v = some (none, a1) ∧
      ToSlice a1 = some (s.take i.toNat ++ [v] ++ s.drop i.toNat, a1) ∧
      Length a1 = Length a + 1 := by
  obtain ⟨d, l, c⟩ := a
  obtain ⟨L, C, rfl, rfl, hd, hC, hL⟩ := h.exists_nat
  simp only [Length] at hi
  obtain ⟨n, rfl⟩ := Int.eq_ofNat_of_zero_le hi.1
  obtain ⟨out, C1, ho, h1, h2, _, h4⟩ := Insert_contents_mk d L C n v hd hC hL (by omega)
  refine ⟨d.take L, _, ToSlice_mk d L C (by omega), ho, ?_, ?_⟩
  · rw [ToSlice_mk out (L + 1) C1 (by omega), h4]
    rfl
  · simp only [Length]
    push_cast
    rfl

/-- Witness of C4: insertion in the middle of a full array. -/
theorem Insert_contents_witness :
    WellFormed ⟨[7, 8], 2, 2⟩ ∧ ((0 : Int) ≤ 1 ∧ (1 : Int) ≤ Length ⟨[7, 8], 2, 2⟩) ∧
    ∃ s a1, ToSlice ⟨[7, 8], 2, 2⟩ = some (s, ⟨[7, 8], 2, 2⟩) ∧
      Insert ⟨[7, 8], 2, 2⟩ 1 9 = some (none, a1) ∧
      ToSlice a1 = some (s.take (1 : Int).toNat ++ [9] ++ s.drop (1 : Int).toNat, a1) ∧
      Length a1 = Length ⟨[7, 8], 2, 2⟩ + 1 :=
  ⟨by decide, by decide, Insert_contents ⟨[7, 8], 2, 2⟩ 1 9 (by decide) (by decide)⟩

/-- C5: on a well-formed array with contents `s`, `Delete i` with
`0 <= i < Length` returns no error and without a panic, the contents become
`take i s ++ drop (i+1) s`, `Length` decreases by one and `Capacity` is
unchanged. -/
theorem Delete_contents (a : DynamicArray) (i : Int) (h : WellFormed a)
    (hi : 0 ≤ i ∧ i < Length a) :
    ∃ s a1, ToSlice a = some (s, a) ∧ Delete a i = some (none, a1) ∧
      ToSlice a1 = some (s.take i.toNat ++ s.drop (i.toNat + 1), a1) ∧
      Length a1 = Length a - 1 ∧ Capacity a1 = Capacity a := by
  obtain ⟨d, l, c⟩ := a
  obtain ⟨L, C, rfl, rfl, hd, hC, hL⟩ := h.exists_nat
  simp only [Length] at hi
  obtain ⟨n, rfl⟩ := Int.eq_ofNat_of_zero_le hi.1
  obtain ⟨out, ho, h1, h4⟩ := Delete_contents_mk d L C n hd hL (by omega)
  refine ⟨d.take L, _, ToSlice_mk d L C (by omega), ho, ?_, ?_, rfl⟩
  · rw [ToSlice_mk out (L - 1) C (by omega), h4]
    rfl
  · simp only [Length]
    omega

/-- Witness of C5: deletion of the first of three live elements. -/
theorem Delete_contents_witness :
    WellFormed ⟨[7, 8, 9, 0], 3, 4⟩ ∧ ((0 : Int) ≤ 0 ∧ (0 : Int) < Length ⟨[7, 8, 9, 0], 3, 4⟩) ∧
    ∃ s a1, ToSlice ⟨[7, 8, 9, 0], 3, 4⟩ = some (s, ⟨[7, 8, 9, 0], 3, 4⟩) ∧
      Delete ⟨[7, 8, 9, 0], 3, 4⟩ 0 = some (none, a1) ∧
      ToSlice a1 = some (s.take (0 : Int).toNat ++ s.drop ((0 : Int).toNat + 1), a1) ∧
      Length a1 = Length ⟨[7, 8, 9, 0], 3, 4⟩ - 1 ∧
      Capacity a1 = Capacity ⟨[7, 8, 9, 0], 3, 4⟩ :=
  ⟨by decide, by decide, Delete_contents ⟨[7, 8, 9, 0], 3, 4⟩ 0 (by decide) (by decide)⟩

/-- C6: on a well-formed array, `Get i` returns the `i`-th element of the
contents and no error when `0 <= i < Length`, and an error otherwise (in
particular at `i == Length` and at every negative `i`); it never panics and
the array is returned unchanged in both cases. -/
theorem Get_in_range_or_error (a : DynamicArray) (i : Int) (h : WellFormed a) :
    (0 ≤ i ∧ i < Length a →
      ∃ s x, ToSlice a = some (s, a) ∧ s[i.toNat]? = some x ∧ Get a i = some ((x, none), a)) ∧
    (¬ (0 ≤ i ∧ i < Length a) → ∃ r e, Get a i = some ((r, some e), a)) ∧
    (∃ r e, Get a (Length a) = some ((r, some e), a)) ∧
    (i < 0 → ∃ r e, Get a i = some ((r, some e), a)) := by
  obtain ⟨d, l, c⟩ := a
  obtain ⟨L, C, rfl, rfl, hd, hC, hL⟩ := h.exists_nat
  simp only [Length]
  refine ⟨?_, ?_, ?_, ?_⟩
  · intro hi
    obtain ⟨n, rfl⟩ := Int.eq_ofNat_of_zero_le hi.1
    have hn : n < L := by omega
    obtain ⟨x, hx, hg⟩ := Get_mk d L C n hd hL hn
    refine ⟨d.take L, x, ToSlice_mk d L C (by omega), ?_, hg⟩
    simp only [Int.toNat_ofNat]
    rw [List.getElem?_take, if_pos hn, hx]
  · intro hi
    exact ⟨_, _, Get_error _ i (by simp only; omega)⟩
  · exact ⟨_, _, Get_error _ (L : Int) (by simp only; omega)⟩
  · intro hi
    exact ⟨_, _, Get_error _ i (Or.inl hi)⟩

/-- Witness of C6 on an array with two live elements and a dead slot. -/
theorem Get_in_range_or_error_witness :
    WellFormed ⟨[7, 8, 9], 2, 3⟩ ∧
    ((0 ≤ (1 : Int) ∧ (1 : Int) < Length ⟨[7, 8, 9], 2, 3⟩ →
      ∃ s x, ToSlice ⟨[7, 8, 9], 2, 3⟩ = some (s, ⟨[7, 8, 9], 2, 3⟩) ∧
        s[(1 : Int).toNat]? = some x ∧ Get ⟨[7, 8, 9], 2, 3⟩ 1 = some ((x, none), ⟨[7, 8, 9], 2, 3⟩)) ∧
    (¬ (0 ≤ (1 : Int) ∧ (1 : Int) < Length ⟨[7, 8, 9], 2, 3⟩) →
      ∃ r e, Get ⟨[7, 8, 9], 2, 3⟩ 1 = some ((r, some e), ⟨[7, 8, 9], 2, 3⟩)) ∧
    (∃ r e, Get ⟨[7, 8, 9], 2, 3⟩ (Length ⟨[7, 8, 9], 2, 3⟩)
      = some ((r, some e), ⟨[7, 8, 9], 2, 3⟩)) ∧
    ((1 : Int) < 0 → ∃ r e, Get ⟨[7, 8, 9], 2, 3⟩ 1 = some ((r, some e), ⟨[7, 8, 9], 2, 3⟩))) :=
  ⟨by decide, Get_in_range_or_error ⟨[7, 8, 9], 2, 3⟩ 1 (by decide)⟩

/-- C7: on a well-formed array, `Set i v` never panics and succeeds exactly
when `0 <= i < Length`; after a success `Get i` returns `v`, `Get` at every
other index returns what it returned before, and `Length` and `Capacity` are
unchanged; `Set` at `i == Length` or at a negative index returns an error. -/
theorem Set_succeeds_iff_in_range (a : DynamicArray) (i v : Int) (h : WellFormed a) :
    (∃ r, Set a i v = some r) ∧
    ((∃ a1, Set a i v = some (none, a1)) ↔ (0 ≤ i ∧ i < Length a)) ∧
    (∀ a1, Set a i v = some (none, a1) →
      Get a1 i = some ((v, none), a1) ∧
      (∀ j, j ≠ i → (Get a1 j).map Prod.fst = (Get a j).map Prod.fst) ∧
      Length a1 = Length a ∧ Capacity a1 = Capacity a) ∧
    (i = Length a ∨ i < 0 → ∃ e, Set a i v = some (some e, a)) := by
  obtain ⟨d, l, c⟩ := a
  obtain ⟨L, C, rfl, rfl, hd, hC, hL⟩ := h.exists_nat
  simp only [Length, Capacity]
  by_cases hi : i < 0 ∨ i ≥ (L : Int)
  · have he := Set_error ⟨d, (L : Int), (C : Int)⟩ i v hi
    refine ⟨⟨_, he⟩, ⟨?_, ?_⟩, ?_, fun _ => ⟨_, he⟩⟩
    · rintro ⟨a1, h1⟩
      rw [he] at h1
      simp at h1
    · intro h1
      omega
    · intro a1 h1
      rw [he] at h1
      simp at h1
  · obtain ⟨n, rfl⟩ := Int.eq_ofNat_of_zero_le (show 0 ≤ i by omega)
    have hn : n < L := by omega
    have hs := Set_mk d L C n v hd hL hn
    refine ⟨⟨_, hs⟩, ⟨fun _ => by omega, fun _ => ⟨_, hs⟩⟩, ?_, fun h1 => by omega⟩
    intro a1 h1
    rw [hs] at h1
    simp only [Option.some.injEq, Prod.mk.injEq, true_and] at h1
    subst h1
    have hd1 : (d.set n v).length = C := by rw [List.length_set]; exact hd
    refine ⟨?_, ?_, rfl, rfl⟩
    · obtain ⟨x, hx, hg⟩ := Get_mk (d.set n v) L C n hd1 hL hn
      rw [List.getElem?_set_self (by omega)] at hx
      simp only [Option.some.injEq] at hx
      rw [hg, hx]
    · intro j hj
      by_cases hjr : j < 0 ∨ j ≥ (L : Int)
      · rw [Get_error _ j hjr, Get_error _ j hjr]
        rfl
      · obtain ⟨m, rfl⟩ := Int.eq_ofNat_of_zero_le (show 0 ≤ j by omega)
        have hm : m < L := by omega
        have hne : n ≠ m := by
          intro e
          apply hj
          rw [e]
        obtain ⟨x, hx, hg⟩ := Get_mk (d.set n v) L C m hd1 hL hm
        obtain ⟨y, hy, hg0⟩ := Get_mk d L C m hd hL hm
        rw [List.getElem?_set_ne hne, hy] at hx
        simp only [Option.some.injEq] at hx
        rw [hg, hg0, hx]
        rfl

/-- Witness of C7 on an array with two live elements and a dead slot. -/
theorem Set_succeeds_iff_in_range_witness :
    WellFormed ⟨[7, 8, 9], 2, 3⟩ ∧
    ((∃ r, Set ⟨[7, 8, 9], 2, 3⟩ 1 5 = some r) ∧
    ((∃ a1, Set ⟨[7, 8, 9], 2, 3⟩ 1 5 = some (none, a1)) ↔
      (0 ≤ (1 : Int) ∧ (1 : Int) < Length ⟨[7, 8, 9], 2, 3⟩)) ∧
    (∀ a1, Set ⟨[7, 8, 9], 2, 3⟩ 1 5 = some (none, a1) →
      Get a1 1 = some ((5, none), a1) ∧
      (∀ j, j ≠ 1 → (Get a1 j).map Prod.fst = (Get ⟨[7, 8, 9], 2, 3⟩ j).map Prod.fst) ∧
      Length a1 = Length ⟨[7, 8, 9], 2, 3⟩ ∧ Capacity a1 = Capacity ⟨[7, 8, 9], 2, 3⟩) ∧
    ((1 : Int) = Length ⟨[7, 8, 9], 2, 3⟩ ∨ (1 : Int) < 0 →
      ∃ e, Set ⟨[7, 8, 9], 2, 3⟩ 1 5 = some (some e, ⟨[7, 8, 9], 2, 3⟩))) :=
  ⟨by decide, Set_succeeds_iff_in_range ⟨[7, 8, 9], 2, 3⟩ 1 5 (by decide)⟩

/-- C8: failure is atomic on every array, well-formed or not: `Get`, `Set`
and `Delete` with `index < 0` or `index >= length`, `Insert` with `index < 0`
or `index > length`, and `Pop` with `length == 0` each return an error together
with the receiver exactly as it was (same buffer, length and capacity; `Insert`
does not grow a full array). -/
theorem failure_is_atomic (a : DynamicArray) (i v : Int) :
    (i < 0 ∨ i ≥ Length a →
      (∃ r e, Get a i = some ((r, some e), a)) ∧
      (∃ e, Set a i v = some (some e, a)) ∧
      (∃ e, Delete a i = some (some e, a))) ∧
    (i < 0 ∨ i > Length a → ∃ e, Insert a i v = some (some e, a)) ∧
    (Length a = 0 → ∃ r e, Pop a = some ((r, some e), a)) :=
  ⟨fun h => ⟨⟨_, _, Get_error a i h⟩, ⟨_, Set_error a i v h⟩, ⟨_, Delete_error a i h⟩⟩,
    fun h => ⟨_, Insert_error a i v h⟩, fun h => ⟨_, _, Pop_error a h⟩⟩

/-- Witness of C8 on a full array, one past the last valid insertion index. -/
theorem failure_is_atomic_witness :
    ((3 : Int) < 0 ∨ (3 : Int) ≥ Length ⟨[7, 8], 2, 2⟩) ∧
    ((3 : Int) < 0 ∨ (3 : Int) > Length ⟨[7, 8], 2, 2⟩) ∧
    (∃ r e, Get ⟨[7, 8], 2, 2⟩ 3 = some ((r, some e), ⟨[7, 8], 2, 2⟩)) ∧
    (∃ e, Set ⟨[7, 8], 2, 2⟩ 3 5 = some (some e, ⟨[7, 8], 2, 2⟩)) ∧
    (∃ e, Delete ⟨[7, 8], 2, 2⟩ 3 = some (some e, ⟨[7, 8], 2, 2⟩)) ∧
    (∃ e, Insert ⟨[7, 8], 2, 2⟩ 3 5 = some (some e, ⟨[7, 8], 2, 2⟩)) :=
  ⟨by decide, by decide,
    ((failure_is_atomic ⟨[7, 8], 2, 2⟩ 3 5).1 (by decide)).1,
    ((failure_is_atomic ⟨[7, 8], 2, 2⟩ 3 5).1 (by decide)).2.1,
    ((failure_is_atomic ⟨[7, 8], 2, 2⟩ 3 5).1 (by decide)).2.2,
    (failure_is_atomic ⟨[7, 8], 2, 2⟩ 3 5).2.1 (by decide)⟩

/-- C9: on a well-formed array, `Pop` never panics and returns an error
exactly when `Length` is 0; otherwise it returns the last element of the
contents, the contents lose that last element and keep the others in order,
`Length` decreases by one and `Capacity` is unchanged. -/
theorem Pop_error_iff_empty (a : DynamicArray) (h : WellFormed a) :
    (∃ r a1, Pop a = some (r, a1)) ∧
    ((∃ x e a1, Pop a = some ((x, some e), a1)) ↔ Length a = 0) ∧
    (Length a ≠ 0 →
      ∃ s x a1, ToSlice a = some (s, a) ∧ Pop a = some ((x, none), a1) ∧
        s.getLast? = some x ∧ ToSlice a1 = some (s.dropLast, a1) ∧
        Length a1 = Length a - 1 ∧ Capacity a1 = Capacity a) := by
  obtain ⟨d, l, c⟩ := a
  obtain ⟨L, C, rfl, rfl, hd, hC, hL⟩ := h.exists_nat
  simp only [Length, Capacity]
  by_cases hp : L = 0
  · have he := Pop_error ⟨d, (L : Int), (C : Int)⟩ (by simp only; omega)
    exact ⟨⟨_, _, he⟩, ⟨fun _ => by omega, fun _ => ⟨_, _, _, he⟩⟩, fun h1 => by omega⟩
  · obtain ⟨x, hx, hpop⟩ := Pop_mk d L C hd hL (by omega)
    refine ⟨⟨_, _, hpop⟩, ⟨?_, fun h1 => by omega⟩, fun _ => ?_⟩
    · rintro ⟨y, e, a1, h1⟩
      rw [hpop] at h1
      simp at h1
    · refine ⟨d.take L, x, _, ToSlice_mk d L C (by omega), hpop, ?_, ?_, ?_, rfl⟩
      · rw [List.getLast?_eq_getElem?, List.length_take, List.getElem?_take]
        have hmin : min L d.length = L := by omega
        rw [hmin, if_pos (by omega), hx]
      · rw [ToSlice_mk d (L - 1) C (by omega), List.dropLast_eq_take, List.length_take,
          List.take_take]
        have hmin : min (min L d.length - 1) L = L - 1 := by omega
        rw [hmin]
      · show ((L - 1 : Nat) : Int) = (L : Int) - 1
        omega

/-- Witness of C9 on an array with two live elements and a dead slot. -/
theorem Pop_error_iff_empty_witness :
    WellFormed ⟨[7, 8, 9], 2, 3⟩ ∧
    ((∃ r a1, Pop ⟨[7, 8, 9], 2, 3⟩ = some (r, a1)) ∧
    ((∃ x e a1, Pop ⟨[7, 8, 9], 2, 3⟩ = some ((x, some e), a1)) ↔
      Length ⟨[7, 8, 9], 2, 3⟩ = 0) ∧
    (Length ⟨[7, 8, 9], 2, 3⟩ ≠ 0 →
      ∃ s x a1, ToSlice ⟨[7, 8, 9], 2, 3⟩ = some (s, ⟨[7, 8, 9], 2, 3⟩) ∧
        Pop ⟨[7, 8, 9], 2, 3⟩ = some ((x, none), a1) ∧
        s.getLast? = some x ∧ ToSlice a1 = some (s.dropLast, a1) ∧
        Length a1 = Length ⟨[7, 8, 9], 2, 3⟩ - 1 ∧
        Capacity a1 = Capacity ⟨[7, 8, 9], 2, 3⟩)) :=
  ⟨by decide, Pop_error_iff_empty ⟨[7, 8, 9], 2, 3⟩ (by decide)⟩

/-- C10: on a well-formed array and for `0 <= i <= Length`, `Insert i v`
followed by `Delete i` succeeds twice without a panic and leaves the same
`Length` and the same contents (`ToSlice`) as before the insertion. -/
theorem Insert_then_Delete (a : DynamicArray) (i v : Int) (h : WellFormed a)
    (hi : 0 ≤ i ∧ i ≤ Length a) :
    ∃ s a1 a2, ToSlice a = some (s, a) ∧ Insert a i v = some (none, a1) ∧
      Delete a1 i = some (none, a2) ∧ Length a2 = Length a ∧ ToSlice a2 = some (s, a2) := by
  obtain ⟨d, l, c⟩ := a
  obtain ⟨L, C, rfl, rfl, hd, hC, hL⟩ := h.exists_nat
  simp only [Length] at hi
  obtain ⟨n, rfl⟩ := Int.eq_ofNat_of_zero_le hi.1
  have hn : n ≤ L := by omega
  obtain ⟨out, C1, ho, h1, h2, _, h4⟩ := Insert_contents_mk d L C n v hd hC hL hn
  obtain ⟨out2, ho2, k1, k4⟩ := Delete_contents_mk out (L + 1) C1 n h1 h2 (by omega)
  have e1 : L + 1 - 1 = L := by omega
  rw [e1] at ho2 k4
  refine ⟨d.take L, _, _, ToSlice_mk d L C (by omega), ho, ho2, rfl, ?_⟩
  rw [ToSlice_mk out2 L C1 (by omega), k4, h4]
  have hlen : ((d.take L).take n).length = n := by
    rw [List.length_take, List.length_take]
    omega
  have t1 : (List.take n (d.take L) ++ [v] ++ List.drop n (d.take L)).take n
      = List.take n (d.take L) := by
    rw [List.append_assoc, List.take_append_of_le_length (by omega), List.take_of_length_le (by omega)]
  have t2 : (List.take n (d.take L) ++ [v] ++ List.drop n (d.take L)).drop (n + 1)
      = List.drop n (d.take L) := by
    have hl1 : (List.take n (d.take L) ++ [v]).length = n + 1 := by
      rw [List.length_append, hlen, List.length_singleton]
    rw [List.drop_append_of_le_length (by omega), List.drop_of_length_le (by omega)]
    rfl
  rw [t1, t2, List.take_append_drop]

/-- Witness of C10: insertion into a full array, then deletion at the same
index. -/
theorem Insert_then_Delete_witness :
    WellFormed ⟨[7, 8], 2, 2⟩ ∧ ((0 : Int) ≤ 1 ∧ (1 : Int) ≤ Length ⟨[7, 8], 2, 2⟩) ∧
    ∃ s a1 a2, ToSlice ⟨[7, 8], 2, 2⟩ = some (s, ⟨[7, 8], 2, 2⟩) ∧
      Insert ⟨[7, 8], 2, 2⟩ 1 9 = some (none, a1) ∧
      Delete a1 1 = some (none, a2) ∧ Length a2 = Length ⟨[7, 8], 2, 2⟩ ∧
      ToSlice a2 = some (s, a2) :=
  ⟨by decide, by decide, Insert_then_Delete ⟨[7, 8], 2, 2⟩ 1 9 (by decide) (by decide)⟩

/-- C11: on a well-formed array, `Append v` followed immediately by `Pop`
runs without a panic, `Pop` returns `v` with no error, and `Length` and the
contents (`ToSlice`) are those from before the `Append`. -/
theorem Append_then_Pop (a : DynamicArray) (v : Int) (h : WellFormed a) :
    ∃ s a1 a2, ToSlice a = some (s, a) ∧ Append a v = some a1 ∧
      Pop a1 = some ((v, none), a2) ∧ Length a2 = Length a ∧ ToSlice a2 = some (s, a2) := by
  obtain ⟨d, l, c⟩ := a
  obtain ⟨L, C, rfl, rfl, hd, hC, hL⟩ := h.exists_nat
  obtain ⟨out, C1, ho, h1, h2, _, h4⟩ := Append_contents_mk d L C v hd hC hL
  obtain ⟨x, hx, hp⟩ := Pop_mk out (L + 1) C1 h1 h2 (by omega)
  have e1 : L + 1 - 1 = L := by omega
  rw [e1] at hx hp
  have hxv : x = v := by
    have h5 := congrArg (fun l : List Int => l[L]?) h4
    simp only [List.getElem?_take, Nat.lt_succ_self, if_true] at h5
    rw [hx, List.getElem?_append_right (by rw [List.length_take]; omega), List.length_take] at h5
    have hmin : min L d.length = L := by omega
    rw [hmin, Nat.sub_self] at h5
    simpa using h5
  subst hxv
  refine ⟨d.take L, _, _, ToSlice_mk d L C (by omega), ho, hp, rfl, ?_⟩
  rw [ToSlice_mk out L C1 (by omega)]
  have h6 := congrArg (fun l : List Int => l.take L) h4
  simp only [List.take_take] at h6
  have hmin2 : min L (L + 1) = L := by omega
  rw [hmin2, List.take_append_of_le_length (by rw [List.length_take]; omega), List.take_take,
    Nat.min_self] at h6
  rw [h6]

/-- Witness of C11 on a full array (growth is triggered by the `Append`). -/
theorem Append_then_Pop_witness :
    WellFormed ⟨[7, 8], 2, 2⟩ ∧
    ∃ s a1 a2, ToSlice ⟨[7, 8], 2, 2⟩ = some (s, ⟨[7, 8], 2, 2⟩) ∧
      Append ⟨[7, 8], 2, 2⟩ 9 = some a1 ∧
      Pop a1 = some ((9, none), a2) ∧ Length a2 = Length ⟨[7, 8], 2, 2⟩ ∧
      ToSlice a2 = some (s, a2) :=
  ⟨by decide, Append_then_Pop ⟨[7, 8], 2, 2⟩ 9 (by decide)⟩

/-- C12, as stated, fails at `n = 1`: `NewDynamicArrayWithCapacity 1` has
capacity 1, not `max 1 2 = 2`. -/
theorem NewDynamicArrayWithCapacity_one_not_max :
    NewDynamicArrayWithCapacity 1 = some ⟨[0], 0, 1⟩ ∧
    ¬ ∃ a, NewDynamicArrayWithCapacity 1 = some a ∧ Capacity a = max 1 2 ∧ Length a = 0 := by
  decide

/-- On a runtime whose `make` allocates at most `maxLen` elements, the
constructor panics when the length it passes to `make` exceeds `maxLen`, and
otherwise returns what it returns without a limit. -/
theorem Limited_NewDynamicArrayWithCapacity_eq (maxLen : Nat) (n : Int) :
    Limited.NewDynamicArrayWithCapacity maxLen n
      = if (if n < 1 then 2 else n) > (maxLen : Int) then none
        else NewDynamicArrayWithCapacity n := by
  unfold Limited.NewDynamicArrayWithCapacity NewDynamicArrayWithCapacity Limited.make make
  simp only
  by_cases h1 : n < 1
  · simp only [if_pos h1]
    have h0 : ¬ ((2 : Int) < 0) := by omega
    by_cases h2 : (2 : Int) > (maxLen : Int)
    · rw [if_pos (Or.inr h2), if_pos h2]
      rfl
    · rw [if_neg (by omega), if_neg h2, if_neg h0]
  · simp only [if_neg h1]
    have h0 : ¬ (n < 0) := by omega
    by_cases h2 : n > (maxLen : Int)
    · rw [if_pos (Or.inr h2), if_pos h2]
      rfl
    · rw [if_neg (by omega), if_neg h2, if_neg h0]

/-- C12, amended: on a runtime whose `make` allocates at most `maxLen >= 2`
elements, `NewDynamicArrayWithCapacity n` returns, for every integer
`n <= maxLen`, an array of length 0 whose capacity is 2 when `n < 1` and `n`
otherwise, its buffer having that many slots (this is `max n 2` for every `n`
other than 1); for `n > maxLen` it panics in `make` and returns no array. -/
theorem NewDynamicArrayWithCapacity_capacity_within_limit (maxLen : Nat) (n : Int)
    (hmax : 2 ≤ maxLen) :
    (n ≤ (maxLen : Int) →
      ∃ a, Limited.NewDynamicArrayWithCapacity maxLen n = some a ∧
        Capacity a = (if n < 1 then 2 else n) ∧ Length a = 0 ∧
        (a.data.length : Int) = Capacity a ∧
        (n ≠ 1 → Capacity a = max n 2)) ∧
    (n > (maxLen : Int) → Limited.NewDynamicArrayWithCapacity maxLen n = none) := by
  rw [Limited_NewDynamicArrayWithCapacity_eq]
  constructor
  · intro hn
    have hle : ¬ ((if n < 1 then 2 else n) > (maxLen : Int)) := by
      split_ifs <;> omega
    rw [if_neg hle]
    refine ⟨_, NewDynamicArrayWithCapacity_eq n, rfl, rfl, ?_, ?_⟩
    · simp only [Capacity, List.length_replicate]
      split_ifs <;> omega
    · intro h1
      simp only [Capacity]
      split_ifs <;> omega
  · intro hn
    have hgt : (if n < 1 then 2 else n) > (maxLen : Int) := by
      split_ifs <;> omega
    rw [if_pos hgt]

/-- Witness of C12 (amended): `n = 5` under the limit `2 ^ 45`. -/
theorem NewDynamicArrayWithCapacity_capacity_within_limit_witness :
    2 ≤ 2 ^ 45 ∧ (5 : Int) ≤ ((2 ^ 45 : Nat) : Int) ∧
    ∃ a, Limited.NewDynamicArrayWithCapacity (2 ^ 45) 5 = some a ∧
      Capacity a = (if (5 : Int) < 1 then 2 else 5) ∧ Length a = 0 ∧
      (a.data.length : Int) = Capacity a ∧
      ((5 : Int) ≠ 1 → Capacity a = max 5 2) :=
  ⟨by decide, by decide,
    (NewDynamicArrayWithCapacity_capacity_within_limit (2 ^ 45) 5 (by decide)).1 (by decide)⟩

/-- C13, as stated, fails for a length that `make` cannot allocate: with the
limit of `2 ^ 45` elements (that of `[]int` on 64-bit Linux) the call
`NewDynamicArrayWithCapacity(1 << 62)` panics in `make` and returns no
array. -/
theorem NewDynamicArrayWithCapacity_panics_above_limit :
    Limited.NewDynamicArrayWithCapacity (2 ^ 45) (2 ^ 62) = none ∧
    ¬ ∃ a, Limited.NewDynamicArrayWithCapacity (2 ^ 45) (2 ^ 62) = some a := by
  have h : Limited.NewDynamicArrayWithCapacity (2 ^ 45) (2 ^ 62) = none := by decide
  refine ⟨h, ?_⟩
  rintro ⟨a, ha⟩
  rw [h] at ha
  exact Option.noConfusion ha

/-- C13, amended: `NewDynamicArray` returns an array of capacity 2 and length
0; on a runtime whose `make` allocates at most `maxLen >= 2` elements,
`NewDynamicArrayWithCapacity n` returns an array of length 0 and capacity 2
for every `n <= 0` (it is coerced, never rejected), returns an array for every
`n <= maxLen`, and fails only for `n > maxLen`, by the panic of `make`. -/
theorem constructors_default_capacity_within_limit (maxLen : Nat) (n : Int)
    (hmax : 2 ≤ maxLen) :
    (∃ a, NewDynamicArray = some a ∧ Capacity a = 2 ∧ Length a = 0) ∧
    (n ≤ 0 →
      ∃ a, Limited.NewDynamicArrayWithCapacity maxLen n = some a ∧
        Length a = 0 ∧ Capacity a = 2) ∧
    (n ≤ (maxLen : Int) → ∃ a, Limited.NewDynamicArrayWithCapacity maxLen n = some a) ∧
    (n > (maxLen : Int) → Limited.NewDynamicArrayWithCapacity maxLen n = none) := by
  rw [Limited_NewDynamicArrayWithCapacity_eq]
  refine ⟨⟨_, NewDynamicArray_eq, rfl, rfl⟩, ?_, ?_, ?_⟩
  · intro hn
    have hle : ¬ ((if n < 1 then 2 else n) > (maxLen : Int)) := by
      split_ifs <;> omega
    rw [if_neg hle]
    refine ⟨_, NewDynamicArrayWithCapacity_eq n, rfl, ?_⟩
    simp only [Capacity]
    rw [if_pos (by omega)]
  · intro hn
    have hle : ¬ ((if n < 1 then 2 else n) > (maxLen : Int)) := by
      split_ifs <;> omega
    rw [if_neg hle]
    exact ⟨_, NewDynamicArrayWithCapacity_eq n⟩
  · intro hn
    have hgt : (if n < 1 then 2 else n) > (maxLen : Int) := by
      split_ifs <;> omega
    rw [if_pos hgt]

/-- Witness of C13 (amended): `n = -5` under the limit `2 ^ 45`. -/
theorem constructors_default_capacity_within_limit_witness :
    2 ≤ 2 ^ 45 ∧ (-5 : Int) ≤ 0 ∧
    ∃ a, Limited.NewDynamicArrayWithCapacity (2 ^ 45) (-5) = some a ∧
      Length a = 0 ∧ Capacity a = 2 :=
  ⟨by decide, by decide,
    (constructors_default_capacity_within_limit (2 ^ 45) (-5) (by decide)).2.1 (by decide)⟩

/-! ## Appending a list of values -/

/-- Appending the values `xs` in order to a well-formed array never panics; the
live prefix becomes the old one followed by `xs`. -/
theorem run_appends_mk (xs : List Int) :
    ∀ (d : List Int) (L C : Nat), d.length = C → 1 ≤ C → L ≤ C →
      ∃ (out : List Int) (C1 : Nat),
        run ⟨d, (L : Int), (C : Int)⟩ (xs.map Op.append)
          = some ⟨out, ((L + xs.length : Nat) : Int), (C1 : Int)⟩ ∧
        out.length = C1 ∧ L + xs.length ≤ C1 ∧
        out.take (L + xs.length) = d.take L ++ xs := by
  induction xs with
  | nil =>
    intro d L C hd hC hL
    exact ⟨d, C, rfl, hd, hL, by simp⟩
  | cons x xs ih =>
    intro d L C hd hC hL
    obtain ⟨o1, C1, ho, h1, h2, _, h4⟩ := Append_contents_mk d L C x hd hC hL
    obtain ⟨out, C2, hr, k1, k2, k4⟩ := ih o1 (L + 1) C1 h1 (by omega) h2
    have e : L + 1 + xs.length = L + (x :: xs).length := by
      simp only [List.length_cons]
      omega
    rw [e] at hr k2 k4
    refine ⟨out, C2, ?_, k1, k2, ?_⟩
    · simp only [List.map_cons, run, step]
      rw [ho]
      exact hr
    · rw [k4, h4, List.append_assoc]
      rfl

/-- The capacity reached by appending to an array whose capacity is `2 ^ k`
and which is at most half empty (or still has its initial capacity): the same
shape is kept by every `Append`. -/
theorem run_appends_capacity (xs : List Int) :
    ∀ (d : List Int) (L k : Nat), d.length = 2 ^ k → 1 ≤ k → L ≤ 2 ^ k →
      (k = 1 ∨ 2 ^ (k - 1) < L) →
      ∃ (out : List Int) (k1 : Nat),
        run ⟨d, (L : Int), ((2 ^ k : Nat) : Int)⟩ (xs.map Op.append)
          = some ⟨out, ((L + xs.length : Nat) : Int), ((2 ^ k1 : Nat) : Int)⟩ ∧
        1 ≤ k1 ∧ L + xs.length ≤ 2 ^ k1 ∧ (k1 = 1 ∨ 2 ^ (k1 - 1) < L + xs.length) := by
  induction xs with
  | nil =>
    intro d L k hd hk hL hs
    exact ⟨d, k, rfl, hk, hL, hs⟩
  | cons x xs ih =>
    intro d L k hd hk hL hs
    have hpos : 1 ≤ 2 ^ k := Nat.one_le_two_pow
    obtain ⟨o1, C1, ho, h1, h2, h3, _⟩ := Append_contents_mk d L (2 ^ k) x hd hpos hL
    have e : L + 1 + xs.length = L + (x :: xs).length := by
      simp only [List.length_cons]
      omega
    by_cases hfull : L = 2 ^ k
    · rw [if_pos hfull] at h3
      have hC1 : C1 = 2 ^ (k + 1) := by rw [h3, pow_succ]
      subst hC1
      have hk1 : k + 1 - 1 = k := by omega
      obtain ⟨out, k1, hr, g1, g2, g3⟩ := ih o1 (L + 1) (k + 1) h1 (by omega) h2
        (Or.inr (by rw [hk1]; omega))
      rw [e] at hr g2 g3
      refine ⟨out, k1, ?_, g1, g2, g3⟩
      simp only [List.map_cons, run, step]
      rw [ho]
      exact hr
    · rw [if_neg hfull] at h3
      subst h3
      obtain ⟨out, k1, hr, g1, g2, g3⟩ := ih o1 (L + 1) k h1 hk h2
        (by rcases hs with hs | hs
            · exact Or.inl hs
            · exact Or.inr (by omega))
      rw [e] at hr g2 g3
      refine ⟨out, k1, ?_, g1, g2, g3⟩
      simp only [List.map_cons, run, step]
      rw [ho]
      exact hr

/-- C14: for every list `xs` of `n >= 2` values, appending `xs` to a fresh
`NewDynamicArray()` runs without a panic and leaves
`capacity = 2 ^ ceil(log2 n)` (`Nat.clog 2 n`), which is at least `n` and is
the smallest power of two that is. -/
theorem capacity_after_appends (xs : List Int) (hn : 2 ≤ xs.length) :
    ∃ a0 a, NewDynamicArray = some a0 ∧ run a0 (xs.map Op.append) = some a ∧
      Capacity a = ((2 ^ Nat.clog 2 xs.length : Nat) : Int) ∧
      (xs.length : Int) ≤ Capacity a ∧
      ∀ j : Nat, xs.length ≤ 2 ^ j → Capacity a ≤ ((2 ^ j : Nat) : Int) := by
  obtain ⟨out, k1, hr, g1, g2, g3⟩ :=
    run_appends_capacity xs [0, 0] 0 1 rfl (Nat.le_refl 1) (by omega) (Or.inl rfl)
  simp only [Nat.zero_add] at hr g2 g3
  have hk : k1 = Nat.clog 2 xs.length := by
    apply Nat.le_antisymm
    · rcases g3 with g3 | g3
      · rw [g3]
        exact Nat.clog_pos (by omega) hn
      · have := (Nat.pow_lt_iff_lt_clog (by omega : 1 < 2)).1 g3
        omega
    · exact (Nat.le_pow_iff_clog_le (by omega : 1 < 2)).1 g2
  subst hk
  refine ⟨_, _, NewDynamicArray_eq, hr, rfl, ?_, ?_⟩
  · simp only [Capacity]
    exact_mod_cast g2
  · intro j hj
    simp only [Capacity]
    have h1 : Nat.clog 2 xs.length ≤ j := (Nat.le_pow_iff_clog_le (by omega : 1 < 2)).1 hj
    have h2 : 2 ^ Nat.clog 2 xs.length ≤ 2 ^ j := Nat.pow_le_pow_right (by omega) h1
    exact_mod_cast h2

/-- Witness of C14 with five appended values: the capacity is 8. -/
theorem capacity_after_appends_witness :
    2 ≤ [10, 20, 30, 40, 50].length ∧
    ∃ a0 a, NewDynamicArray = some a0 ∧
      run a0 ([10, 20, 30, 40, 50].map Op.append) = some a ∧
      Capacity a = ((2 ^ Nat.clog 2 [10, 20, 30, 40, 50].length : Nat) : Int) ∧
      (([10, 20, 30, 40, 50] : List Int).length : Int) ≤ Capacity a ∧
      ∀ j : Nat, [10, 20, 30, 40, 50].length ≤ 2 ^ j → Capacity a ≤ ((2 ^ j : Nat) : Int) :=
  ⟨by decide, capacity_after_appends [10, 20, 30, 40, 50] (by decide)⟩

/-- C15: for every list `xs` of `n` values, appending `xs` in order to a fresh
`NewDynamicArray()` runs without a panic, leaves `Length() = n`, and for every
`i` with `0 <= i < n`, `Get i` returns `xs[i]` with no error. -/
theorem Get_after_appends (xs : List Int) :
    ∃ a0 a, NewDynamicArray = some a0 ∧ run a0 (xs.map Op.append) = some a ∧
      Length a = (xs.length : Int) ∧
      ∀ i : Int, 0 ≤ i → i < (xs.length : Int) →
        ∃ x, xs[i.toNat]? = some x ∧ Get a i = some ((x, none), a) := by
  obtain ⟨out, C1, hr, h1, h2, h4⟩ := run_appends_mk xs [0, 0] 0 2 rfl (by omega) (by omega)
  simp only [Nat.zero_add, List.take_zero, List.nil_append] at hr h2 h4
  refine ⟨_, _, NewDynamicArray_eq, hr, rfl, ?_⟩
  intro i hi0 hi1
  obtain ⟨m, rfl⟩ := Int.eq_ofNat_of_zero_le hi0
  have hm : m < xs.length := by omega
  obtain ⟨x, hx, hg⟩ := Get_mk out xs.length C1 m h1 h2 hm
  refine ⟨x, ?_, hg⟩
  simp only [Int.toNat_ofNat]
  rw [← h4, List.getElem?_take, if_pos hm, hx]

/-- Witness of C15 with three appended values (one growth event), read at
index 2. -/
theorem Get_after_appends_witness :
    (0 : Int) ≤ 2 ∧ (2 : Int) < (([10, 20, 30] : List Int).length : Int) ∧
    ∃ a0 a, NewDynamicArray = some a0 ∧ run a0 ([10, 20, 30].map Op.append) = some a ∧
      Length a = (([10, 20, 30] : List Int).length : Int) ∧
      ∀ i : Int, 0 ≤ i → i < (([10, 20, 30] : List Int).length : Int) →
        ∃ x, ([10, 20, 30] : List Int)[i.toNat]? = some x ∧ Get a i = some ((x, none), a) :=
  ⟨by decide, by decide, Get_after_appends [10, 20, 30]⟩

/-! ## The linear scan of `IndexOf` -/

/-- The scan started at slot `k` with `n` slots left never panics inside the
buffer; it returns `-1` when none of the slots `k .. k+n-1` holds `v`, and
otherwise the first such slot. -/
theorem indexOfLoop_spec (d : List Int) (v : Int) (n : Nat) :
    ∀ k : Nat, k + n ≤ d.length →
      ∃ r, indexOfLoop d v n (k : Int) = some r ∧
        ((r = -1 ∧ ∀ m : Nat, k ≤ m → m < k + n → d[m]? ≠ some v) ∨
         (∃ j : Nat, r = (j : Int) ∧ k ≤ j ∧ j < k + n ∧ d[j]? = some v ∧
            ∀ m : Nat, k ≤ m → m < j → d[m]? ≠ some v)) := by
  induction n with
  | zero =>
    intro k _
    exact ⟨-1, rfl, Or.inl ⟨rfl, fun m h1 h2 => by omega⟩⟩
  | succ n ih =>
    intro k hk
    have hlt : k < d.length := by omega
    have hget : sliceGet d (k : Int) = some d[k] := by
      rw [sliceGet_natCast, List.getElem?_eq_getElem hlt]
    by_cases hv : d[k] = v
    · refine ⟨(k : Int), ?_, Or.inr ⟨k, rfl, Nat.le_refl k, by omega, ?_, fun m h1 h2 => by omega⟩⟩
      · simp only [indexOfLoop]
        rw [hget]
        simp only [Option.some_bind]
        rw [if_pos hv]
      · rw [List.getElem?_eq_getElem hlt, hv]
    · obtain ⟨r, hr, hcase⟩ := ih (k + 1) (by omega)
      have hk0 : d[k]? ≠ some v := by
        rw [List.getElem?_eq_getElem hlt]
        intro h
        exact hv (Option.some.inj h)
      refine ⟨r, ?_, ?_⟩
      · simp only [indexOfLoop]
        rw [hget]
        simp only [Option.some_bind]
        rw [if_neg hv]
        exact_mod_cast hr
      · rcases hcase with ⟨h1, h2⟩ | ⟨j, h1, h2, h3, h4, h5⟩
        · refine Or.inl ⟨h1, fun m hm1 hm2 => ?_⟩
          by_cases hmk : m = k
          · rw [hmk]
            exact hk0
          · exact h2 m (by omega) (by omega)
        · refine Or.inr ⟨j, h1, by omega, by omega, h4, fun m hm1 hm2 => ?_⟩
          by_cases hmk : m = k
          · rw [hmk]
            exact hk0
          · exact h5 m (by omega) hm2

/-- `IndexOf` on an array whose live prefix lies inside the buffer: it returns
the receiver unchanged, and either `-1` with no match in the contents or the
first matching index of the contents. -/
theorem IndexOf_mk (d : List Int) (L C : Nat) (v : Int) (hL : L ≤ d.length) :
    ∃ r, IndexOf ⟨d, (L : Int), (C : Int)⟩ v = some (r, ⟨d, (L : Int), (C : Int)⟩) ∧
      ((r = -1 ∧ v ∉ d.take L) ∨
       (∃ j : Nat, r = (j : Int) ∧ j < L ∧ (d.take L)[j]? = some v ∧
          ∀ m : Nat, m < j → (d.take L)[m]? ≠ some v)) := by
  obtain ⟨r, hr, hcase⟩ := indexOfLoop_spec d v L 0 (by omega)
  refine ⟨r, ?_, ?_⟩
  · unfold IndexOf
    have e2 : ((L : Int) - 0).toNat = L := by omega
    simp only
    rw [e2]
    have hr1 : indexOfLoop d v L 0 = some r := by exact_mod_cast hr
    rw [hr1]
    rfl
  · rcases hcase with ⟨h1, h2⟩ | ⟨j, h1, _, h3, h4, h5⟩
    · refine Or.inl ⟨h1, fun hmem => ?_⟩
      obtain ⟨m, hm⟩ := List.mem_iff_getElem?.1 hmem
      rw [List.getElem?_take] at hm
      by_cases hmL : m < L
      · rw [if_pos hmL] at hm
        exact h2 m (by omega) (by omega) hm
      · rw [if_neg hmL] at hm
        exact Option.noConfusion hm
    · refine Or.inr ⟨j, h1, by omega, ?_, fun m hm => ?_⟩
      · rw [List.getElem?_take, if_pos (by omega), h4]
      · rw [List.getElem?_take, if_pos (by omega)]
        exact h5 m (by omega) hm

theorem Contains_eq (da : DynamicArray) (v r : Int) (da1 : DynamicArray)
    (h : IndexOf da v = some (r, da1)) :
    Contains da v = some (decide (r ≠ -1), da1) := by
  unfold Contains
  rw [h]
  rfl

/-! ## Capacity along public calls -/

/-- A mutating call on a well-formed array keeps it well-formed and either
keeps the capacity or doubles it; only `Append` and `Insert` can double it. -/
theorem step_capacity (da : DynamicArray) (op : Op) (h : WellFormed da) :
    ∃ da1, step da op = some da1 ∧ WellFormed da1 ∧
      (da1.capacity = da.capacity ∨ da1.capacity = da.capacity * 2) ∧
      ((∀ v, op ≠ Op.append v) → (∀ i v, op ≠ Op.insert i v) →
        da1.capacity = da.capacity) := by
  obtain ⟨d, l, c⟩ := da
  obtain ⟨L, C, rfl, rfl, hd, hC, hL⟩ := h.exists_nat
  cases op with
  | append v =>
    obtain ⟨out, C1, ho, h1, h2, h3, _⟩ := Append_contents_mk d L C v hd hC hL
    refine ⟨_, ho, wellFormed_mk out (L + 1) C1 h1 (by omega) h2, ?_, fun hv => ?_⟩
    · simp only
      split_ifs at h3
      · exact Or.inr (by rw [h3]; push_cast; rfl)
      · exact Or.inl (by rw [h3])
    · exact absurd rfl (hv v)
  | insert i v =>
    by_cases hi : i < 0 ∨ i > (L : Int)
    · refine ⟨_, ?_, h, Or.inl rfl, fun _ _ => rfl⟩
      simp only [step]
      rw [Insert_error _ i v hi]
      rfl
    · obtain ⟨n, rfl⟩ := Int.eq_ofNat_of_zero_le (show 0 ≤ i by omega)
      obtain ⟨out, C1, ho, h1, h2, h3, _⟩ :=
        Insert_contents_mk d L C n v hd hC hL (by omega)
      refine ⟨_, ?_, wellFormed_mk out (L + 1) C1 h1 (by omega) h2, ?_, fun _ hv => ?_⟩
      · simp only [step]
        rw [ho]
        rfl
      · simp only
        split_ifs at h3
        · exact Or.inr (by rw [h3]; push_cast; rfl)
        · exact Or.inl (by rw [h3])
      · exact absurd rfl (hv _ v)
  | set i v =>
    by_cases hi : i < 0 ∨ i ≥ (L : Int)
    · refine ⟨_, ?_, h, Or.inl rfl, fun _ _ => rfl⟩
      simp only [step]
      rw [Set_error _ i v hi]
      rfl
    · obtain ⟨n, rfl⟩ := Int.eq_ofNat_of_zero_le (show 0 ≤ i by omega)
      refine ⟨_, ?_, wellFormed_mk (d.set n v) L C (by rw [List.length_set]; exact hd) hC hL,
        Or.inl rfl, fun _ _ => rfl⟩
      simp only [step]
      rw [Set_mk d L C n v hd hL (by omega)]
      rfl
  | delete i =>
    by_cases hi : i < 0 ∨ i ≥ (L : Int)
    · refine ⟨_, ?_, h, Or.inl rfl, fun _ _ => rfl⟩
      simp only [step]
      rw [Delete_error _ i hi]
      rfl
    · obtain ⟨n, rfl⟩ := Int.eq_ofNat_of_zero_le (show 0 ≤ i by omega)
      obtain ⟨out, ho, h1, _⟩ := Delete_contents_mk d L C n hd hL (by omega)
      refine ⟨_, ?_, wellFormed_mk out (L - 1) C h1 hC (by omega), Or.inl rfl, fun _ _ => rfl⟩
      simp only [step]
      rw [ho]
      rfl
  | pop =>
    by_cases hp : L = 0
    · refine ⟨_, ?_, h, Or.inl rfl, fun _ _ => rfl⟩
      simp only [step]
      rw [Pop_error _ (by simp [hp])]
      rfl
    · obtain ⟨x, _, hx⟩ := Pop_mk d L C hd hL (by omega)
      refine ⟨_, ?_, wellFormed_mk d (L - 1) C hd hC (by omega), Or.inl rfl, fun _ _ => rfl⟩
      simp only [step]
      rw [hx]
      rfl
  | clear =>
    exact ⟨_, rfl, wellFormed_mk d 0 C hd hC (by omega), Or.inl rfl, fun _ _ => rfl⟩

/-- The read-only methods return a well-formed receiver as it was. -/
theorem observers_unchanged (da : DynamicArray) (i v : Int) (h : WellFormed da) :
    (Get da i).map Prod.snd = some da ∧ (IndexOf da v).map Prod.snd = some da ∧
    (Contains da v).map Prod.snd = some da ∧ (ToSlice da).map Prod.snd = some da := by
  obtain ⟨d, l, c⟩ := da
  obtain ⟨L, C, rfl, rfl, hd, hC, hL⟩ := h.exists_nat
  obtain ⟨r, hr, _⟩ := IndexOf_mk d L C v (by omega)
  refine ⟨?_, ?_, ?_, ?_⟩
  · by_cases hi : i < 0 ∨ i ≥ (L : Int)
    · rw [Get_error _ i hi]
      rfl
    · obtain ⟨n, rfl⟩ := Int.eq_ofNat_of_zero_le (show 0 ≤ i by omega)
      obtain ⟨x, _, hg⟩ := Get_mk d L C n hd hL (by omega)
      rw [hg]
      rfl
  · rw [hr]
    rfl
  · rw [Contains_eq _ v r _ hr]
    rfl
  · rw [ToSlice_mk d L C (by omega)]
    rfl

/-- Any public call on a well-formed array returns without a panic, keeps it
well-formed and either keeps the capacity or doubles it. -/
theorem stepCall_capacity (da : DynamicArray) (c : Call) (h : WellFormed da) :
    ∃ da1, stepCall da c = some da1 ∧ WellFormed da1 ∧
      (da1.capacity = da.capacity ∨ da1.capacity = da.capacity * 2) := by
  cases c with
  | mutate op =>
    obtain ⟨da1, h1, h2, h3, _⟩ := step_capacity da op h
    exact ⟨da1, h1, h2, h3⟩
  | get i => exact ⟨da, (observers_unchanged da i 0 h).1, h, Or.inl rfl⟩
  | indexOf v => exact ⟨da, (observers_unchanged da 0 v h).2.1, h, Or.inl rfl⟩
  | contains v => exact ⟨da, (observers_unchanged da 0 v h).2.2.1, h, Or.inl rfl⟩
  | toSlice => exact ⟨da, (observers_unchanged da 0 0 h).2.2.2, h, Or.inl rfl⟩

theorem runCalls_capacity (cs : List Call) :
    ∀ da : DynamicArray, WellFormed da →
      ∃ (da1 : DynamicArray) (k : Nat), runCalls da cs = some da1 ∧ WellFormed da1 ∧
        da1.capacity = da.capacity * 2 ^ k := by
  induction cs with
  | nil => exact fun da h => ⟨da, 0, rfl, h, by simp⟩
  | cons c cs ih =>
    intro da h
    obtain ⟨da1, h1, w1, hc⟩ := stepCall_capacity da c h
    obtain ⟨da2, k, h2, w2, hk⟩ := ih da1 w1
    rcases hc with hc | hc
    · refine ⟨da2, k, ?_, w2, by rw [hk, hc]⟩
      simp only [runCalls]
      rw [h1]
      exact h2
    · refine ⟨da2, k + 1, ?_, w2, by rw [hk, hc, pow_succ]; ring⟩
      simp only [runCalls]
      rw [h1]
      exact h2

/-- C16: on an array built by `NewDynamicArray` or by
`NewDynamicArrayWithCapacity n` (any integer `n`), with initial capacity `c0`,
every finite sequence of public calls runs without a panic and after each call
(after every prefix `calls.take j`) the capacity is `c0 * 2 ^ k` for some
natural number `k`. -/
theorem capacity_is_initial_times_power_of_two (n : Int) (calls : List Call) (j : Nat) :
    (∃ a0 a, ∃ k : Nat, NewDynamicArray = some a0 ∧ runCalls a0 (calls.take j) = some a ∧
        Capacity a = Capacity a0 * 2 ^ k) ∧
    (∃ a0 a, ∃ k : Nat, NewDynamicArrayWithCapacity n = some a0 ∧
        runCalls a0 (calls.take j) = some a ∧ Capacity a = Capacity a0 * 2 ^ k) := by
  constructor
  · obtain ⟨a, k, ha, _, hk⟩ := runCalls_capacity (calls.take j) ⟨[0, 0], 0, 2⟩ (by decide)
    exact ⟨_, a, k, NewDynamicArray_eq, ha, hk⟩
  · obtain ⟨a0, h0, w0⟩ := NewDynamicArrayWithCapacity_wellFormed n
    obtain ⟨a, k, ha, _, hk⟩ := runCalls_capacity (calls.take j) a0 w0
    exact ⟨a0, a, k, h0, ha, hk⟩

/-- C17: on a well-formed array, every single public call (`Append`, `Insert`,
`Set`, `Delete`, `Pop`, `Clear`, `Get`, `IndexOf`, `Contains`, `ToSlice`)
returns without a panic with a capacity that is at least the capacity before
it; `Delete`, `Pop` and `Clear` leave the capacity as it was. -/
theorem capacity_never_decreases (a : DynamicArray) (c : Call) (i : Int) (h : WellFormed a) :
    (∃ a1, stepCall a c = some a1 ∧ Capacity a ≤ Capacity a1) ∧
    (∃ r a1, Delete a i = some (r, a1) ∧ Capacity a1 = Capacity a) ∧
    (∃ r a1, Pop a = some (r, a1) ∧ Capacity a1 = Capacity a) ∧
    (∃ a1, Clear a = some a1 ∧ Capacity a1 = Capacity a) := by
  refine ⟨?_, ?_, ?_, ⟨_, rfl, rfl⟩⟩
  · obtain ⟨a1, h1, _, hc⟩ := stepCall_capacity a c h
    refine ⟨a1, h1, ?_⟩
    have hpos : 1 ≤ a.capacity := h.2.1
    simp only [Capacity]
    omega
  · obtain ⟨a1, h1, _, _, hc⟩ := step_capacity a (Op.delete i) h
    have hc1 := hc (fun v => by simp) (fun i v => by simp)
    simp only [step] at h1
    cases hd : Delete a i with
    | none =>
      rw [hd] at h1
      exact Option.noConfusion h1
    | some p =>
      rw [hd] at h1
      simp only [Option.map_some', Option.some.injEq] at h1
      exact ⟨p.1, p.2, rfl, by rw [h1]; exact hc1⟩
  · obtain ⟨a1, h1, _, _, hc⟩ := step_capacity a Op.pop h
    have hc1 := hc (fun v => by simp) (fun i v => by simp)
    simp only [step] at h1
    cases hd : Pop a with
    | none =>
      rw [hd] at h1
      exact Option.noConfusion h1
    | some p =>
      rw [hd] at h1
      simp only [Option.map_some', Option.some.injEq] at h1
      exact ⟨p.1, p.2, rfl, by rw [h1]; exact hc1⟩

/-- Witness of C17: an `Append` on a full array, whose capacity doubles. -/
theorem capacity_never_decreases_witness :
    WellFormed ⟨[7, 8], 2, 2⟩ ∧
    ((∃ a1, stepCall ⟨[7, 8], 2, 2⟩ (Call.mutate (Op.append 9)) = some a1 ∧
        Capacity ⟨[7, 8], 2, 2⟩ ≤ Capacity a1) ∧
    (∃ r a1, Delete ⟨[7, 8], 2, 2⟩ 0 = some (r, a1) ∧ Capacity a1 = Capacity ⟨[7, 8], 2, 2⟩) ∧
    (∃ r a1, Pop ⟨[7, 8], 2, 2⟩ = some (r, a1) ∧ Capacity a1 = Capacity ⟨[7, 8], 2, 2⟩) ∧
    (∃ a1, Clear ⟨[7, 8], 2, 2⟩ = some a1 ∧ Capacity a1 = Capacity ⟨[7, 8], 2, 2⟩)) :=
  ⟨by decide, capacity_never_decreases ⟨[7, 8], 2, 2⟩ (Call.mutate (Op.append 9)) 0 (by decide)⟩

/-- C18: on every array, well-formed or not, `Clear` sets `length` to 0, so
that `IsEmpty` is true and `ToSlice` is empty, and leaves `capacity` and the
whole backing buffer as they were. -/
theorem Clear_resets_length_only (a : DynamicArray) :
    ∃ a1, Clear a = some a1 ∧ Length a1 = 0 ∧ IsEmpty a1 = true ∧
      ToSlice a1 = some ([], a1) ∧ Capacity a1 = Capacity a ∧ a1.data = a.data :=
  ⟨_, rfl, rfl, rfl, rfl, rfl, rfl⟩

/-- C19: on a well-formed array with contents `s`, `IndexOf v` never panics and
returns the receiver unchanged; when `v` is in `s` the result is the smallest
index of `s` holding `v`, when it is not the result is `-1`; so the result is
always `-1` or in `[0, length)`. -/
theorem IndexOf_first_match (a : DynamicArray) (v : Int) (h : WellFormed a) :
    ∃ s r, ToSlice a = some (s, a) ∧ IndexOf a v = some (r, a) ∧
      (v ∈ s → 0 ≤ r ∧ r < Length a ∧ s[r.toNat]? = some v ∧
        ∀ m : Nat, m < r.toNat → s[m]? ≠ some v) ∧
      (v ∉ s → r = -1) ∧
      (r = -1 ∨ (0 ≤ r ∧ r < Length a)) := by
  obtain ⟨d, l, c⟩ := a
  obtain ⟨L, C, rfl, rfl, hd, hC, hL⟩ := h.exists_nat
  obtain ⟨r, hr, hcase⟩ := IndexOf_mk d L C v (by omega)
  refine ⟨d.take L, r, ToSlice_mk d L C (by omega), hr, ?_, ?_, ?_⟩
  · intro hmem
    rcases hcase with ⟨_, h2⟩ | ⟨j, h1, h2, h3, h4⟩
    · exact absurd hmem h2
    · subst h1
      simp only [Length, Int.toNat_ofNat]
      exact ⟨by omega, by omega, h3, h4⟩
  · intro hmem
    rcases hcase with ⟨h1, _⟩ | ⟨j, _, _, h3, _⟩
    · exact h1
    · exact absurd (List.getElem?_mem h3) hmem
  · rcases hcase with ⟨h1, _⟩ | ⟨j, h1, h2, _, _⟩
    · exact Or.inl h1
    · subst h1
      simp only [Length]
      exact Or.inr ⟨by omega, by omega⟩

/-- Witness of C19: the value 8 occurs twice among the live elements and once
more in a dead slot. -/
theorem IndexOf_first_match_witness :
    WellFormed ⟨[7, 8, 8, 8], 3, 4⟩ ∧
    ∃ s r, ToSlice ⟨[7, 8, 8, 8], 3, 4⟩ = some (s, ⟨[7, 8, 8, 8], 3, 4⟩) ∧
      IndexOf ⟨[7, 8, 8, 8], 3, 4⟩ 8 = some (r, ⟨[7, 8, 8, 8], 3, 4⟩) ∧
      (8 ∈ s → 0 ≤ r ∧ r < Length ⟨[7, 8, 8, 8], 3, 4⟩ ∧ s[r.toNat]? = some 8 ∧
        ∀ m : Nat, m < r.toNat → s[m]? ≠ some 8) ∧
      (8 ∉ s → r = -1) ∧
      (r = -1 ∨ (0 ≤ r ∧ r < Length ⟨[7, 8, 8, 8], 3, 4⟩)) :=
  ⟨by decide, IndexOf_first_match ⟨[7, 8, 8, 8], 3, 4⟩ 8 (by decide)⟩

/-- C20: on a well-formed array with contents `s`, `Contains v` never panics,
returns the receiver unchanged, and is true exactly when `IndexOf v` is not
`-1`, which is exactly when `v` is a member of `s`. -/
theorem Contains_iff_mem (a : DynamicArray) (v : Int) (h : WellFormed a) :
    ∃ s r b, ToSlice a = some (s, a) ∧ IndexOf a v = some (r, a) ∧
      Contains a v = some (b, a) ∧ (b = true ↔ r ≠ -1) ∧ (r ≠ -1 ↔ v ∈ s) := by
  obtain ⟨d, l, c⟩ := a
  obtain ⟨L, C, rfl, rfl, hd, hC, hL⟩ := h.exists_nat
  obtain ⟨r, hr, hcase⟩ := IndexOf_mk d L C v (by omega)
  refine ⟨d.take L, r, decide (r ≠ -1), ToSlice_mk d L C (by omega), hr,
    Contains_eq _ v r _ hr, by simp, ?_⟩
  rcases hcase with ⟨h1, h2⟩ | ⟨j, h1, _, h3, _⟩
  · exact ⟨fun hne => absurd h1 hne, fun hmem => absurd hmem h2⟩
  · refine ⟨fun _ => List.getElem?_mem h3, fun _ => ?_⟩
    rw [h1]
    omega

/-- Witness of C20: the value 9 is held only by a dead slot. -/
theorem Contains_iff_mem_witness :
    WellFormed ⟨[7, 8, 9], 2, 3⟩ ∧
    ∃ s r b, ToSlice ⟨[7, 8, 9], 2, 3⟩ = some (s, ⟨[7, 8, 9], 2, 3⟩) ∧
      IndexOf ⟨[7, 8, 9], 2, 3⟩ 9 = some (r, ⟨[7, 8, 9], 2, 3⟩) ∧
      Contains ⟨[7, 8, 9], 2, 3⟩ 9 = some (b, ⟨[7, 8, 9], 2, 3⟩) ∧
      (b = true ↔ r ≠ -1) ∧ (r ≠ -1 ↔ 9 ∈ s) :=
  ⟨by decide, Contains_iff_mem ⟨[7, 8, 9], 2, 3⟩ 9 (by decide)⟩

/-- C22: on a well-formed array, `Insert(Length(a), v)` returns no error and
leaves exactly the state (buffer, length, capacity) that `Append(v)` leaves. -/
theorem Insert_at_length_eq_Append (a : DynamicArray) (v : Int) (h : WellFormed a) :
    ∃ a1, Append a v = some a1 ∧ Insert a (Length a) v = some (none, a1) := by
  obtain ⟨d, l, c⟩ := a
  obtain ⟨L, C, rfl, rfl, hd, hC, hL⟩ := h.exists_nat
  obtain ⟨g, C1, ho, h1, h2, h3, h4, h5, _⟩ := Append_mk d L C v hd hC hL
  obtain ⟨g2, out, C2, hi, k1, k2, k3, k4, k5, _, k7, k8⟩ :=
    Insert_mk d L C L v hd hC hL (Nat.le_refl L)
  have hg : g2 = g := by
    by_cases hLC : L = C
    · rw [h5 hLC, k5 hLC]
    · rw [h4 hLC, k4 hLC]
  have hC2 : C2 = C1 := by rw [h3, k3]
  have hout : out = g.set L v := by
    apply List.ext_getElem?
    intro m
    rw [k8 m, List.getElem?_set, hg]
    by_cases hm : m = L
    · subst hm
      rw [if_pos rfl, if_pos rfl, if_pos (by omega)]
    · have hm1 : ¬ (L = m) := fun e => hm e.symm
      have hm2 : ¬ (L < m ∧ m ≤ L) := by omega
      rw [if_neg hm, if_neg hm2, if_neg hm1]
  refine ⟨_, ho, ?_⟩
  show Insert ⟨d, (L : Int), (C : Int)⟩ (L : Int) v = _
  rw [hi, hout, hC2]

/-- Witness of C22 on a full array (both calls grow the buffer). -/
theorem Insert_at_length_eq_Append_witness :
    WellFormed ⟨[7, 8], 2, 2⟩ ∧
    ∃ a1, Append ⟨[7, 8], 2, 2⟩ 9 = some a1 ∧
      Insert ⟨[7, 8], 2, 2⟩ (Length ⟨[7, 8], 2, 2⟩) 9 = some (none, a1) :=
  ⟨by decide, Insert_at_length_eq_Append ⟨[7, 8], 2, 2⟩ 9 (by decide)⟩

/-- C23: the concrete scenario.  From `NewDynamicArray()`, `Append(1)` and
`Append(2)` keep capacity 2; `Append(3)` gives capacity 4 and length 3;
`Insert(1, 99)` gives contents `[1, 99, 2, 3]`; `Delete(0)` gives
`[99, 2, 3]`; then `IndexOf(2)` is 1, `Contains(42)` is false and `Pop()`
returns 3 and leaves `[99, 2]`. -/
theorem concrete_scenario :
    ∃ a0 a1 a2 a3 a4 a5 a6,
      NewDynamicArray = some a0 ∧
      Append a0 1 = some a1 ∧ Capacity a1 = 2 ∧ Length a1 = 1 ∧
      Append a1 2 = some a2 ∧ Capacity a2 = 2 ∧ Length a2 = 2 ∧
      Append a2 3 = some a3 ∧ Capacity a3 = 4 ∧ Length a3 = 3 ∧
      Insert a3 1 99 = some (none, a4) ∧ ToSlice a4 = some ([1, 99, 2, 3], a4) ∧
      Length a4 = 4 ∧
      Delete a4 0 = some (none, a5) ∧ ToSlice a5 = some ([99, 2, 3], a5) ∧ Length a5 = 3 ∧
      IndexOf a5 2 = some (1, a5) ∧ Contains a5 42 = some (false, a5) ∧
      Pop a5 = some ((3, none), a6) ∧ ToSlice a6 = some ([99, 2], a6) :=
  ⟨⟨[0, 0], 0, 2⟩, ⟨[1, 0], 1, 2⟩, ⟨[1, 2], 2, 2⟩, ⟨[1, 2, 3, 0], 3, 4⟩,
    ⟨[1, 99, 2, 3], 4, 4⟩, ⟨[99, 2, 3, 3], 3, 4⟩, ⟨[99, 2, 3, 3], 2, 4⟩, by decide⟩

/-- C25, as stated, fails on an empty array: `Get`, `Set` and `Delete` at
index 0 of an array of length 0 return the out-of-range error with upper bound
`-1`, not an "empty" indication. -/
theorem error_on_empty_array_is_a_range :
    Get ⟨[0, 0], 0, 2⟩ 0 = some ((0, some (Error.indexOutOfRange 0 (-1))), ⟨[0, 0], 0, 2⟩) ∧
    Set ⟨[0, 0], 0, 2⟩ 0 5 = some (some (Error.indexOutOfRange 0 (-1)), ⟨[0, 0], 0, 2⟩) ∧
    Delete ⟨[0, 0], 0, 2⟩ 0 = some (some (Error.indexOutOfRange 0 (-1)), ⟨[0, 0], 0, 2⟩) ∧
    ¬ (∃ r a1, Get ⟨[0, 0], 0, 2⟩ 0 = some ((r, some Error.emptyArray), a1)) := by
  refine ⟨by decide, by decide, by decide, ?_⟩
  rintro ⟨r, a1, h⟩
  have hg : Get ⟨[0, 0], 0, 2⟩ 0
      = some ((0, some (Error.indexOutOfRange 0 (-1))), ⟨[0, 0], 0, 2⟩) := by decide
  rw [hg] at h
  simp at h

/-- C25, amended: on every array, the error returned by `Get`, `Set` and
`Delete` for an index `< 0` or `>= length` carries the attempted index and the
upper bound `length - 1` of the range `0-(length-1)`, and the one returned by
`Insert` for an index `< 0` or `> length` carries the attempted index and the
upper bound `length`; this is also so when `length == 0`, where the reported
upper bound is `-1`. -/
theorem error_reports_index_and_upper_bound (a : DynamicArray) (i v : Int) :
    (i < 0 ∨ i ≥ Length a →
      Get a i = some ((0, some (Error.indexOutOfRange i (Length a - 1))), a) ∧
      Set a i v = some (some (Error.indexOutOfRange i (Length a - 1)), a) ∧
      Delete a i = some (some (Error.indexOutOfRange i (Length a - 1)), a)) ∧
    (i < 0 ∨ i > Length a →
      Insert a i v = some (some (Error.indexOutOfRange i (Length a)), a)) ∧
    (Length a = 0 →
      Get a i = some ((0, some (Error.indexOutOfRange i (-1))), a) ∧
      Set a i v = some (some (Error.indexOutOfRange i (-1)), a) ∧
      Delete a i = some (some (Error.indexOutOfRange i (-1)), a)) := by
  refine ⟨fun h => ⟨Get_error a i h, Set_error a i v h, Delete_error a i h⟩,
    fun h => Insert_error a i v h, fun h0 => ?_⟩
  simp only [Length] at h0
  have h : i < 0 ∨ i ≥ a.length := by omega
  have e : a.length - 1 = -1 := by omega
  rw [← e]
  exact ⟨Get_error a i h, Set_error a i v h, Delete_error a i h⟩

/-- Witness of C25 (amended) on an array of length 2, at index 5. -/
theorem error_reports_index_and_upper_bound_witness :
    ((5 : Int) < 0 ∨ (5 : Int) ≥ Length ⟨[7, 8, 9], 2, 3⟩) ∧
    Get ⟨[7, 8, 9], 2, 3⟩ 5
      = some ((0, some (Error.indexOutOfRange 5 (Length ⟨[7, 8, 9], 2, 3⟩ - 1))),
          ⟨[7, 8, 9], 2, 3⟩) :=
  ⟨by decide, ((error_reports_index_and_upper_bound ⟨[7, 8, 9], 2, 3⟩ 5 0).1 (by decide)).1⟩


/-! ## Copies performed by `resize` along appends -/

theorem appendCopies_mk (d : List Int) (L C : Nat) (hL : L ≤ C) :
    appendCopies ⟨d, (L : Int), (C : Int)⟩ = if L = C then L else 0 := by
  unfold appendCopies resizeCopies
  by_cases h : L = C
  · have h1 : (L : Int) ≥ (C : Int) := by omega
    simp only
    rw [if_pos h1, if_pos h]
    omega
  · have h1 : ¬ ((L : Int) ≥ (C : Int)) := by omega
    simp only
    rw [if_neg h1, if_neg h]

/-- Appending `xs` to a well-formed array of capacity `C`: the copies made by
`resize` add up to the growth of the capacity, and once the capacity has grown
it is at most `2 * length - 2`. -/
theorem copiesOfAppends_mk (xs : List Int) :
    ∀ (d : List Int) (L C : Nat), d.length = C → 1 ≤ C → L ≤ C →
      ∃ (n : Nat) (out : List Int) (C1 : Nat),
        copiesOfAppends ⟨d, (L : Int), (C : Int)⟩ xs = some n ∧
        run ⟨d, (L : Int), (C : Int)⟩ (xs.map Op.append)
          = some ⟨out, ((L + xs.length : Nat) : Int), (C1 : Int)⟩ ∧
        n + C = C1 ∧ (C1 = C ∨ C1 + 2 ≤ 2 * (L + xs.length)) := by
  induction xs with
  | nil =>
    intro d L C hd hC hL
    exact ⟨0, d, C, rfl, rfl, by omega, Or.inl rfl⟩
  | cons x xs ih =>
    intro d L C hd hC hL
    obtain ⟨o1, C1, ho, h1, h2, h3, _⟩ := Append_contents_mk d L C x hd hC hL
    obtain ⟨n, out, C2, hn, hr, g1, g2⟩ := ih o1 (L + 1) C1 h1 (by omega) h2
    have e : L + 1 + xs.length = L + (x :: xs).length := by
      simp only [List.length_cons]
      omega
    rw [e] at hr g2
    refine ⟨appendCopies ⟨d, (L : Int), (C : Int)⟩ + n, out, C2, ?_, ?_, ?_, ?_⟩
    · simp only [copiesOfAppends]
      rw [ho]
      simp only [Option.some_bind]
      rw [hn]
      rfl
    · simp only [List.map_cons, run, step]
      rw [ho]
      exact hr
    · rw [appendCopies_mk d L C hL]
      split_ifs at h3 ⊢ <;> omega
    · split_ifs at h3 <;> omega

/-- C26, as stated, fails at `k = 0`: no `Append` makes no copy, and 0 is not
less than `2 * 0`. -/
theorem copies_not_less_than_twice_zero :
    ∃ a0, NewDynamicArrayWithCapacity 1 = some a0 ∧ copiesOfAppends a0 [] = some 0 ∧
      ¬ (0 < 2 * ([] : List Int).length) :=
  ⟨⟨[0], 0, 1⟩, by decide, by decide, by decide⟩

/-- C26, amended: for every initial capacity `c0 >= 1` and every list `xs` of
`k` values, appending `xs` to a freshly constructed array of capacity `c0`
(or to a fresh `NewDynamicArray()`) never panics and the total number of
element copies performed by `resize` is at most `2 * k`, hence at most
`c0 + 2 * k`, and it is less than `2 * k` whenever `k >= 1`. -/
theorem copies_linear_in_appends (c0 : Int) (xs : List Int) (hc : 1 ≤ c0) :
    (∃ a0 n, NewDynamicArrayWithCapacity c0 = some a0 ∧ Capacity a0 = c0 ∧
      copiesOfAppends a0 xs = some n ∧ n ≤ 2 * xs.length ∧
      (n : Int) ≤ c0 + 2 * xs.length ∧ (1 ≤ xs.length → n < 2 * xs.length)) ∧
    (∃ a0 n, NewDynamicArray = some a0 ∧
      copiesOfAppends a0 xs = some n ∧ n ≤ 2 * xs.length ∧
      (1 ≤ xs.length → n < 2 * xs.length)) := by
  constructor
  · obtain ⟨c, rfl⟩ := Int.eq_ofNat_of_zero_le (show 0 ≤ c0 by omega)
    have hc1 : 1 ≤ c := by omega
    have h0 := NewDynamicArrayWithCapacity_eq (c : Int)
    have hne : ¬ ((c : Int) < 1) := by omega
    simp only [if_neg hne, Int.toNat_ofNat] at h0
    obtain ⟨n, out, C1, hn, _, g1, g2⟩ :=
      copiesOfAppends_mk xs (List.replicate c 0) 0 c (List.length_replicate c 0) hc1 (by omega)
    refine ⟨_, n, h0, rfl, hn, by omega, by omega, fun _ => by omega⟩
  · obtain ⟨n, out, C1, hn, _, g1, g2⟩ :=
      copiesOfAppends_mk xs [0, 0] 0 2 rfl (by omega) (by omega)
    exact ⟨_, n, NewDynamicArray_eq, hn, by omega, fun _ => by omega⟩

/-- Witness of C26 (amended): nine appends on an array of initial capacity 1. -/
theorem copies_linear_in_appends_witness :
    (1 : Int) ≤ 1 ∧
    (∃ a0 n, NewDynamicArrayWithCapacity 1 = some a0 ∧ Capacity a0 = 1 ∧
      copiesOfAppends a0 [1, 2, 3, 4, 5, 6, 7, 8, 9] = some n ∧
      n ≤ 2 * [1, 2, 3, 4, 5, 6, 7, 8, 9].length ∧
      (n : Int) ≤ 1 + 2 * [1, 2, 3, 4, 5, 6, 7, 8, 9].length ∧
      (1 ≤ [1, 2, 3, 4, 5, 6, 7, 8, 9].length → n < 2 * [1, 2, 3, 4, 5, 6, 7, 8, 9].length)) :=
  ⟨by decide, (copies_linear_in_appends 1 [1, 2, 3, 4, 5, 6, 7, 8, 9] (by decide)).1⟩


/-! ## Loops that only read the buffer -/

/-- A counted loop whose body reads slot `i` of the buffer and has no other
way to fail ends without a panic when all the slots it visits exist. -/
theorem forUp_read_total {σ : Type} (d : List Int) (f : Int → Int → σ → σ) (n : Nat) :
    ∀ (k : Nat) (s : σ), k + n ≤ d.length →
      ∃ out, forUp (fun i s => (sliceGet d i).bind fun x => some (f i x s)) n (k : Int) s
        = some out := by
  induction n with
  | zero => exact fun k s _ => ⟨s, rfl⟩
  | succ n ih =>
    intro k s hk
    have hlt : k < d.length := by omega
    obtain ⟨out, ho⟩ := ih (k + 1) (f (k : Int) d[k] s) (by omega)
    refine ⟨out, ?_⟩
    simp only [forUp]
    rw [sliceGet_natCast, List.getElem?_eq_getElem hlt]
    simp only [Option.some_bind]
    exact_mod_cast ho

/-- Such a loop gives the same result on two buffers that agree on the slots
it visits. -/
theorem forUp_read_congr {σ : Type} (d e : List Int) (f : Int → Int → σ → σ) (n : Nat) :
    ∀ (k : Nat) (s : σ), (∀ m : Nat, k ≤ m → m < k + n → d[m]? = e[m]?) →
      forUp (fun i s => (sliceGet d i).bind fun x => some (f i x s)) n (k : Int) s
        = forUp (fun i s => (sliceGet e i).bind fun x => some (f i x s)) n (k : Int) s := by
  induction n with
  | zero => exact fun k s _ => rfl
  | succ n ih =>
    intro k s hk
    simp only [forUp]
    rw [sliceGet_natCast, sliceGet_natCast, hk k (Nat.le_refl k) (by omega)]
    cases e[k]? with
    | none => rfl
    | some x =>
      simp only [Option.some_bind]
      have h1 := ih (k + 1) (f (k : Int) x s) (fun m h1 h2 => hk m (by omega) (by omega))
      exact_mod_cast h1

/-- `String` on a well-formed array never panics and returns the receiver as
it was. -/
theorem String_mk (d : List Int) (L C : Nat) (hL : L ≤ d.length) :
    ∃ s, DynamicArray.String ⟨d, (L : Int), (C : Int)⟩ = some (s, ⟨d, (L : Int), (C : Int)⟩) := by
  obtain ⟨out, ho⟩ := forUp_read_total d
    (fun i x result => (if i > 0 then result ++ ", " else result) ++ toString x) L 0
    "DynamicArray[" (by omega)
  refine ⟨out ++ "]", ?_⟩
  unfold DynamicArray.String
  have e2 : ((L : Int) - 0).toNat = L := by omega
  simp only
  rw [e2]
  have ho1 : forUp (fun i result => (sliceGet d i).bind fun x =>
      some ((if i > 0 then result ++ ", " else result) ++ toString x)) L 0 "DynamicArray["
      = some out := by exact_mod_cast ho
  rw [ho1]
  rfl

/-- `String` reads the live slots only. -/
theorem String_congr (d e : List Int) (L C D : Nat)
    (h : ∀ m : Nat, m < L → d[m]? = e[m]?) :
    (DynamicArray.String ⟨d, (L : Int), (C : Int)⟩).map Prod.fst
      = (DynamicArray.String ⟨e, (L : Int), (D : Int)⟩).map Prod.fst := by
  have hc := forUp_read_congr d e
    (fun i x result => (if i > 0 then result ++ ", " else result) ++ toString x) L 0
    "DynamicArray[" (fun m _ h2 => h m (by omega))
  have hc1 : forUp (fun i result => (sliceGet d i).bind fun x =>
      some ((if i > 0 then result ++ ", " else result) ++ toString x)) L 0 "DynamicArray["
      = forUp (fun i result => (sliceGet e i).bind fun x =>
      some ((if i > 0 then result ++ ", " else result) ++ toString x)) L 0 "DynamicArray[" := by
    exact_mod_cast hc
  unfold DynamicArray.String
  have e2 : ((L : Int) - 0).toNat = L := by omega
  simp only
  rw [e2, hc1]
  cases forUp (fun i result => (sliceGet e i).bind fun x =>
      some ((if i > 0 then result ++ ", " else result) ++ toString x)) L 0 "DynamicArray[" with
  | none => rfl
  | some r => rfl

/-- C27: both constructors (for every integer `n`) return an array with
`len(data) == capacity >= 1` and `length == 0`; on an array with
`len(data) == capacity >= 1` and `0 <= length <= capacity`, every public call
(`Append`, `Insert`, `Set`, `Delete`, `Pop`, `Clear`, `Get`, `IndexOf`,
`Contains`, `ToSlice`, and `String`) returns without a panic, that is without
indexing the buffer out of range, and leaves an array with the same property;
the growth check of `Append` and `Insert` leaves `length < len(data)`. -/
theorem wellFormed_preserved_and_panic_free (n : Int) (a : DynamicArray) (c : Call)
    (h : WellFormed a) :
    (∃ a0, NewDynamicArray = some a0 ∧ (a0.data.length : Int) = a0.capacity ∧
      1 ≤ a0.capacity ∧ a0.length = 0) ∧
    (∃ a0, NewDynamicArrayWithCapacity n = some a0 ∧ (a0.data.length : Int) = a0.capacity ∧
      1 ≤ a0.capacity ∧ a0.length = 0) ∧
    (∃ a1, stepCall a c = some a1 ∧ (a1.data.length : Int) = a1.capacity ∧
      1 ≤ a1.capacity ∧ 0 ≤ a1.length ∧ a1.length ≤ a1.capacity) ∧
    (∃ s, DynamicArray.String a = some (s, a)) ∧
    (∃ g, (if a.length ≥ a.capacity then resize a else some a) = some g ∧
      g.length = a.length ∧ g.length < (g.data.length : Int) ∧
      (g.data.length : Int) = g.capacity) := by
  refine ⟨⟨_, NewDynamicArray_eq, by decide, by decide, rfl⟩, ?_, ?_, ?_, ?_⟩
  · obtain ⟨a0, h0, w0⟩ := NewDynamicArrayWithCapacity_wellFormed n
    refine ⟨a0, h0, w0.1, w0.2.1, ?_⟩
    rw [NewDynamicArrayWithCapacity_eq n] at h0
    rw [← Option.some.inj h0]
  · obtain ⟨a1, h1, w1, _⟩ := stepCall_capacity a c h
    exact ⟨a1, h1, w1⟩
  · obtain ⟨d, l, c⟩ := a
    obtain ⟨L, C, rfl, rfl, hd, hC, hL⟩ := h.exists_nat
    exact String_mk d L C (by omega)
  · obtain ⟨d, l, c⟩ := a
    obtain ⟨L, C, rfl, rfl, hd, hC, hL⟩ := h.exists_nat
    obtain ⟨g, C1, hg, h1, h2, _⟩ := grow_mk d L C hd hC hL
    refine ⟨_, hg, rfl, ?_, ?_⟩
    · show (L : Int) < (g.length : Int)
      omega
    · show (g.length : Int) = (C1 : Int)
      omega

/-- Witness of C27: an `Insert` at the front of a full array. -/
theorem wellFormed_preserved_and_panic_free_witness :
    WellFormed ⟨[7, 8], 2, 2⟩ ∧
    ∃ a1, stepCall ⟨[7, 8], 2, 2⟩ (Call.mutate (Op.insert 0 9)) = some a1 ∧
      (a1.data.length : Int) = a1.capacity ∧
      1 ≤ a1.capacity ∧ 0 ≤ a1.length ∧ a1.length ≤ a1.capacity :=
  ⟨by decide, (wellFormed_preserved_and_panic_free 0 ⟨[7, 8], 2, 2⟩
    (Call.mutate (Op.insert 0 9)) (by decide)).2.2.1⟩


/-! ## Two arrays with the same live elements -/

theorem take_eq_of_live_eq (d e : List Int) (L : Nat)
    (h : ∀ m : Nat, m < L → d[m]? = e[m]?) : d.take L = e.take L := by
  apply List.ext_getElem?
  intro m
  rw [List.getElem?_take, List.getElem?_take]
  by_cases hm : m < L
  · rw [if_pos hm, if_pos hm, h m hm]
  · rw [if_neg hm, if_neg hm]

/-- The same mutating call on two well-formed arrays with the same live
elements never panics and leaves two well-formed arrays with the same live
elements (their capacities and dead slots may differ). -/
theorem step_contents_congr (d e : List Int) (L C D : Nat) (op : Op)
    (hd : d.length = C) (hC : 1 ≤ C) (hL : L ≤ C)
    (he : e.length = D) (hD : 1 ≤ D) (hLD : L ≤ D) (hs : d.take L = e.take L) :
    ∃ (o1 o2 : List Int) (L1 C1 D1 : Nat),
      step ⟨d, (L : Int), (C : Int)⟩ op = some ⟨o1, (L1 : Int), (C1 : Int)⟩ ∧
      step ⟨e, (L : Int), (D : Int)⟩ op = some ⟨o2, (L1 : Int), (D1 : Int)⟩ ∧
      o1.length = C1 ∧ o2.length = D1 ∧ 1 ≤ C1 ∧ 1 ≤ D1 ∧ L1 ≤ C1 ∧ L1 ≤ D1 ∧
      o1.take L1 = o2.take L1 := by
  have same : ∃ (o1 o2 : List Int) (L1 C1 D1 : Nat),
      some (DynamicArray.mk d (L : Int) (C : Int)) = some ⟨o1, (L1 : Int), (C1 : Int)⟩ ∧
      some (DynamicArray.mk e (L : Int) (D : Int)) = some ⟨o2, (L1 : Int), (D1 : Int)⟩ ∧
      o1.length = C1 ∧ o2.length = D1 ∧ 1 ≤ C1 ∧ 1 ≤ D1 ∧ L1 ≤ C1 ∧ L1 ≤ D1 ∧
      o1.take L1 = o2.take L1 := ⟨d, e, L, C, D, rfl, rfl, hd, he, hC, hD, hL, hLD, hs⟩
  cases op with
  | append v =>
    obtain ⟨o1, C1, h1, a1, a2, _, a4⟩ := Append_contents_mk d L C v hd hC hL
    obtain ⟨o2, D1, h2, b1, b2, _, b4⟩ := Append_contents_mk e L D v he hD hLD
    exact ⟨o1, o2, L + 1, C1, D1, h1, h2, a1, b1, by omega, by omega, a2, b2,
      by rw [a4, b4, hs]⟩
  | insert i v =>
    by_cases hi : i < 0 ∨ i > (L : Int)
    · simp only [step]
      rw [Insert_error _ i v hi, Insert_error _ i v hi]
      exact same
    · obtain ⟨n, rfl⟩ := Int.eq_ofNat_of_zero_le (show 0 ≤ i by omega)
      obtain ⟨o1, C1, h1, a1, a2, _, a4⟩ := Insert_contents_mk d L C n v hd hC hL (by omega)
      obtain ⟨o2, D1, h2, b1, b2, _, b4⟩ := Insert_contents_mk e L D n v he hD hLD (by omega)
      refine ⟨o1, o2, L + 1, C1, D1, ?_, ?_, a1, b1, by omega, by omega, a2, b2,
        by rw [a4, b4, hs]⟩
      · simp only [step]
        rw [h1]
        rfl
      · simp only [step]
        rw [h2]
        rfl
  | set i v =>
    by_cases hi : i < 0 ∨ i ≥ (L : Int)
    · simp only [step]
      rw [Set_error _ i v hi, Set_error _ i v hi]
      exact same
    · obtain ⟨n, rfl⟩ := Int.eq_ofNat_of_zero_le (show 0 ≤ i by omega)
      refine ⟨d.set n v, e.set n v, L, C, D, ?_, ?_, by rw [List.length_set]; exact hd,
        by rw [List.length_set]; exact he, hC, hD, hL, hLD,
        by rw [List.set_take, List.set_take, hs]⟩
      · simp only [step]
        rw [Set_mk d L C n v hd hL (by omega)]
        rfl
      · simp only [step]
        rw [Set_mk e L D n v he hLD (by omega)]
        rfl
  | delete i =>
    by_cases hi : i < 0 ∨ i ≥ (L : Int)
    · simp only [step]
      rw [Delete_error _ i hi, Delete_error _ i hi]
      exact same
    · obtain ⟨n, rfl⟩ := Int.eq_ofNat_of_zero_le (show 0 ≤ i by omega)
      obtain ⟨o1, h1, a1, a4⟩ := Delete_contents_mk d L C n hd hL (by omega)
      obtain ⟨o2, h2, b1, b4⟩ := Delete_contents_mk e L D n he hLD (by omega)
      refine ⟨o1, o2, L - 1, C, D, ?_, ?_, a1, b1, hC, hD, by omega, by omega,
        by rw [a4, b4, hs]⟩
      · simp only [step]
        rw [h1]
        rfl
      · simp only [step]
        rw [h2]
        rfl
  | pop =>
    by_cases hp : L = 0
    · simp only [step]
      rw [Pop_error _ (by simp [hp]), Pop_error _ (by simp [hp])]
      exact same
    · obtain ⟨x, _, h1⟩ := Pop_mk d L C hd hL (by omega)
      obtain ⟨y, _, h2⟩ := Pop_mk e L D he hLD (by omega)
      have hs1 := congrArg (fun l : List Int => l.take (L - 1)) hs
      simp only [List.take_take] at hs1
      have hmin : min (L - 1) L = L - 1 := by omega
      rw [hmin] at hs1
      refine ⟨d, e, L - 1, C, D, ?_, ?_, hd, he, hC, hD, by omega, by omega, hs1⟩
      · simp only [step]
        rw [h1]
        rfl
      · simp only [step]
        rw [h2]
        rfl
  | clear =>
    exact ⟨d, e, 0, C, D, rfl, rfl, hd, he, hC, hD, by omega, by omega, by simp⟩

/-- The result of the scan of `IndexOf` is determined by the contents. -/
theorem indexOf_result_unique (s : List Int) (v : Int) (L : Nat) (r1 r2 : Int)
    (h1 : (r1 = -1 ∧ v ∉ s) ∨
      (∃ j : Nat, r1 = (j : Int) ∧ j < L ∧ s[j]? = some v ∧ ∀ m : Nat, m < j → s[m]? ≠ some v))
    (h2 : (r2 = -1 ∧ v ∉ s) ∨
      (∃ j : Nat, r2 = (j : Int) ∧ j < L ∧ s[j]? = some v ∧ ∀ m : Nat, m < j → s[m]? ≠ some v)) :
    r1 = r2 := by
  rcases h1 with ⟨e1, n1⟩ | ⟨j1, e1, _, g1, m1⟩
  · rcases h2 with ⟨e2, _⟩ | ⟨j2, _, _, g2, _⟩
    · rw [e1, e2]
    · exact absurd (List.getElem?_mem g2) n1
  · rcases h2 with ⟨_, n2⟩ | ⟨j2, e2, _, g2, m2⟩
    · exact absurd (List.getElem?_mem g1) n2
    · have : j1 = j2 := by
        rcases Nat.lt_trichotomy j1 j2 with hlt | heq | hgt
        · exact absurd g1 (m2 j1 hlt)
        · exact heq
        · exact absurd g2 (m1 j2 hgt)
      rw [e1, e2, this]

/-- `ToSlice` by value on a well-formed array: it never panics, returns the
receiver as it was and a sequence of exactly `Length` elements, the `i`-th of
which is the live slot `i` (the value `Get i` returns). -/
theorem ToSlice_copy_of_live_slots (a : DynamicArray) (h : WellFormed a) :
    ∃ s, ToSlice a = some (s, a) ∧ (s.length : Int) = Length a ∧
      s = a.data.take (Length a).toNat ∧
      ∀ i : Int, 0 ≤ i → i < Length a →
        ∃ x, s[i.toNat]? = some x ∧ a.data[i.toNat]? = some x ∧
          Get a i = some ((x, none), a) := by
  obtain ⟨d, l, c⟩ := a
  obtain ⟨L, C, rfl, rfl, hd, hC, hL⟩ := h.exists_nat
  refine ⟨d.take L, ToSlice_mk d L C (by omega), ?_, ?_, ?_⟩
  · simp only [Length, List.length_take]
    omega
  · simp only [Length, Int.toNat_ofNat]
  · intro i hi0 hi1
    simp only [Length] at hi1
    obtain ⟨n, rfl⟩ := Int.eq_ofNat_of_zero_le hi0
    have hn : n < L := by omega
    obtain ⟨x, hx, hg⟩ := Get_mk d L C n hd hL hn
    refine ⟨x, ?_, ?_, hg⟩
    · simp only [Int.toNat_ofNat]
      rw [List.getElem?_take, if_pos hn, hx]
    · simp only [Int.toNat_ofNat]
      exact hx

/-- C24: two well-formed arrays with the same length and equal elements on
`[0, length)`, whatever their dead slots and capacities, give equal results for
`Get`, `IndexOf`, `Contains`, `ToSlice`, `Pop` and `String` (none of them
panics), and the same mutator applied to both leaves two arrays with the same
length and the same contents; after `Clear`, `IndexOf v` is `-1` for every
`v`. -/
theorem dead_slots_unobservable (a b : DynamicArray) (ha : WellFormed a) (hb : WellFormed b)
    (hlen : Length a = Length b)
    (hlive : ∀ m : Nat, (m : Int) < Length a → a.data[m]? = b.data[m]?) :
    (∀ i, ∃ r, Get a i = some (r, a) ∧ Get b i = some (r, b)) ∧
    (∀ v, ∃ r, IndexOf a v = some (r, a) ∧ IndexOf b v = some (r, b)) ∧
    (∀ v, ∃ r, Contains a v = some (r, a) ∧ Contains b v = some (r, b)) ∧
    (∃ s, ToSlice a = some (s, a) ∧ ToSlice b = some (s, b)) ∧
    (∃ r a1 b1, Pop a = some (r, a1) ∧ Pop b = some (r, b1)) ∧
    (∃ s, DynamicArray.String a = some (s, a) ∧ DynamicArray.String b = some (s, b)) ∧
    (∀ op, ∃ a1 b1 s, step a op = some a1 ∧ step b op = some b1 ∧
      Length a1 = Length b1 ∧ ToSlice a1 = some (s, a1) ∧ ToSlice b1 = some (s, b1)) ∧
    (∀ v, ∃ a1, Clear a = some a1 ∧ IndexOf a1 v = some (-1, a1)) := by
  obtain ⟨d, l, c⟩ := a
  obtain ⟨e, l2, c2⟩ := b
  obtain ⟨L, C, rfl, rfl, hd, hC, hL⟩ := ha.exists_nat
  obtain ⟨L2, D, rfl, rfl, he, hD, hLD⟩ := hb.exists_nat
  simp only [Length] at hlen hlive
  have hLL : L2 = L := by omega
  subst hLL
  have hlv : ∀ m : Nat, m < L2 → d[m]? = e[m]? := fun m hm => hlive m (by omega)
  have hs : d.take L2 = e.take L2 := take_eq_of_live_eq d e L2 hlv
  refine ⟨?_, ?_, ?_, ?_, ?_, ?_, ?_, ?_⟩
  · intro i
    by_cases hi : i < 0 ∨ i ≥ (L2 : Int)
    · exact ⟨_, Get_error _ i hi, Get_error _ i hi⟩
    · obtain ⟨n, rfl⟩ := Int.eq_ofNat_of_zero_le (show 0 ≤ i by omega)
      obtain ⟨x, hx, h1⟩ := Get_mk d L2 C n hd hL (by omega)
      obtain ⟨y, hy, h2⟩ := Get_mk e L2 D n he hLD (by omega)
      have hxy : x = y := by
        rw [hlv n (by omega), hy] at hx
        exact (Option.some.inj hx).symm
      subst hxy
      exact ⟨_, h1, h2⟩
  · intro v
    obtain ⟨r1, h1, c1⟩ := IndexOf_mk d L2 C v (by omega)
    obtain ⟨r2, h2, c2⟩ := IndexOf_mk e L2 D v (by omega)
    rw [← hs] at c2
    have hr := indexOf_result_unique (d.take L2) v L2 r1 r2 c1 c2
    subst hr
    exact ⟨r1, h1, h2⟩
  · intro v
    obtain ⟨r1, h1, c1⟩ := IndexOf_mk d L2 C v (by omega)
    obtain ⟨r2, h2, c2⟩ := IndexOf_mk e L2 D v (by omega)
    rw [← hs] at c2
    have hr := indexOf_result_unique (d.take L2) v L2 r1 r2 c1 c2
    subst hr
    exact ⟨_, Contains_eq _ v r1 _ h1, Contains_eq _ v r1 _ h2⟩
  · refine ⟨d.take L2, ToSlice_mk d L2 C (by omega), ?_⟩
    rw [hs]
    exact ToSlice_mk e L2 D (by omega)
  · by_cases hp : L2 = 0
    · exact ⟨_, _, _, Pop_error _ (by simp [hp]), by rw [Pop_error _ (by simp [hp])]⟩
    · obtain ⟨x, hx, h1⟩ := Pop_mk d L2 C hd hL (by omega)
      obtain ⟨y, hy, h2⟩ := Pop_mk e L2 D he hLD (by omega)
      have hxy : x = y := by
        rw [hlv (L2 - 1) (by omega), hy] at hx
        exact (Option.some.inj hx).symm
      subst hxy
      exact ⟨_, _, _, h1, h2⟩
  · obtain ⟨s1, h1⟩ := String_mk d L2 C (by omega)
    obtain ⟨s2, h2⟩ := String_mk e L2 D (by omega)
    have hc := String_congr d e L2 C D hlv
    rw [h1, h2] at hc
    simp only [Option.map_some', Option.some.injEq] at hc
    subst hc
    exact ⟨s1, h1, h2⟩
  · intro op
    obtain ⟨o1, o2, L1, C1, D1, h1, h2, a1, b1, _, _, a3, b3, hs1⟩ :=
      step_contents_congr d e L2 C D op hd hC hL he hD hLD hs
    refine ⟨_, _, o1.take L1, h1, h2, rfl, ToSlice_mk o1 L1 C1 (by omega), ?_⟩
    rw [hs1]
    exact ToSlice_mk o2 L1 D1 (by omega)
  · intro v
    exact ⟨_, rfl, rfl⟩

/-- Witness of C24: two arrays with live elements `[7, 8]`, different dead
slots and different capacities. -/
theorem dead_slots_unobservable_witness :
    WellFormed ⟨[7, 8, 9], 2, 3⟩ ∧ WellFormed ⟨[7, 8], 2, 2⟩ ∧
    Length ⟨[7, 8, 9], 2, 3⟩ = Length ⟨[7, 8], 2, 2⟩ ∧
    (∃ s, DynamicArray.String ⟨[7, 8, 9], 2, 3⟩ = some (s, ⟨[7, 8, 9], 2, 3⟩) ∧
      DynamicArray.String ⟨[7, 8], 2, 2⟩ = some (s, ⟨[7, 8], 2, 2⟩)) ∧
    (∀ v, ∃ r, IndexOf ⟨[7, 8, 9], 2, 3⟩ v = some (r, ⟨[7, 8, 9], 2, 3⟩) ∧
      IndexOf ⟨[7, 8], 2, 2⟩ v = some (r, ⟨[7, 8], 2, 2⟩)) :=
  ⟨by decide, by decide, by decide,
    (dead_slots_unobservable ⟨[7, 8, 9], 2, 3⟩ ⟨[7, 8], 2, 2⟩ (by decide) (by decide) (by decide)
      (by
        intro m hm
        have hm2 : m < 2 := by
          simp only [Length] at hm
          omega
        interval_cases m <;> rfl)).2.2.2.2.2.1,
    (dead_slots_unobservable ⟨[7, 8, 9], 2, 3⟩ ⟨[7, 8], 2, 2⟩ (by decide) (by decide) (by decide)
      (by
        intro m hm
        have hm2 : m < 2 := by
          simp only [Length] at hm
          omega
        interval_cases m <;> rfl)).2.1⟩


/-! ## The methods by reference refine the methods by value -/

theorem set_eq_self_of_getElem? {α : Type} (l : List α) (p : Nat) (a : α)
    (h : l[p]? = some a) : l.set p a = l := by
  apply List.ext_getElem?
  intro m
  rw [List.getElem?_set]
  by_cases hm : p = m
  · subst hm
    have hp : p < l.length := by
      by_contra hc
      rw [List.getElem?_eq_none (by omega)] at h
      exact Option.noConfusion h
    rw [if_pos rfl, if_pos hp, h]
  · rw [if_neg hm]

theorem getElem?_lt_of_eq_some {α : Type} (l : List α) (p : Nat) (a : α)
    (h : l[p]? = some a) : p < l.length := by
  by_contra hc
  rw [List.getElem?_eq_none (by omega)] at h
  exact Option.noConfusion h

theorem append_singleton_set {α : Type} (l : List α) (a b : α) :
    (l ++ [a]).set l.length b = l ++ [b] := by
  induction l with
  | nil => rfl
  | cons x xs ih =>
    simp only [List.cons_append, List.length_cons, List.set_cons_succ, ih]

/-- A counted loop on the heap whose body acts on the backing array at position
`p` as `bodyL` acts on a slice by value does to the heap what the loop by
value does to that slice. -/
theorem forUp_lift (p : Nat) (bodyH : Int → List (List Int) → Option (List (List Int)))
    (bodyL : Int → List Int → Option (List Int)) (Inv : List (List Int) → Prop)
    (hinv : ∀ (h : List (List Int)) (a : List Int), Inv h → Inv (h.set p a))
    (hb : ∀ (i : Int) (h : List (List Int)) (a : List Int), Inv h → h[p]? = some a →
      bodyH i h = (bodyL i a).bind fun a1 => some (h.set p a1)) (n : Nat) :
    ∀ (i : Int) (heap : List (List Int)) (a : List Int), Inv heap → heap[p]? = some a →
      forUp bodyH n i heap = (forUp bodyL n i a).bind fun a1 => some (heap.set p a1) := by
  induction n with
  | zero =>
    intro i heap a _ hp
    simp only [forUp, Option.some_bind]
    rw [set_eq_self_of_getElem? heap p a hp]
  | succ n ih =>
    intro i heap a hI hp
    simp only [forUp]
    rw [hb i heap a hI hp]
    cases hl : bodyL i a with
    | none => rfl
    | some a1 =>
      simp only [Option.some_bind]
      have hp1 : (heap.set p a1)[p]? = some a1 :=
        List.getElem?_set_self (getElem?_lt_of_eq_some heap p a hp)
      rw [ih (i + 1) (heap.set p a1) a1 (hinv heap a1 hI) hp1]
      simp only [List.set_set]

theorem forDown_lift (p : Nat) (bodyH : Int → List (List Int) → Option (List (List Int)))
    (bodyL : Int → List Int → Option (List Int))
    (hb : ∀ (i : Int) (h : List (List Int)) (a : List Int), h[p]? = some a →
      bodyH i h = (bodyL i a).bind fun a1 => some (h.set p a1)) (n : Nat) :
    ∀ (i : Int) (heap : List (List Int)) (a : List Int), heap[p]? = some a →
      forDown bodyH n i heap = (forDown bodyL n i a).bind fun a1 => some (heap.set p a1) := by
  induction n with
  | zero =>
    intro i heap a hp
    simp only [forDown, Option.some_bind]
    rw [set_eq_self_of_getElem? heap p a hp]
  | succ n ih =>
    intro i heap a hp
    simp only [forDown]
    rw [hb i heap a hp]
    cases hl : bodyL i a with
    | none => rfl
    | some a1 =>
      simp only [Option.some_bind]
      have hp1 : (heap.set p a1)[p]? = some a1 :=
        List.getElem?_set_self (getElem?_lt_of_eq_some heap p a hp)
      rw [ih (i - 1) (heap.set p a1) a1 hp1]
      simp only [List.set_set]

theorem ref_load_eq (heap : List (List Int)) (p : Nat) (a : List Int) (i : Int)
    (hp : heap[p]? = some a) : Ref.load heap p i = sliceGet a i := by
  unfold Ref.load
  rw [hp]
  rfl

theorem ref_store_eq (heap : List (List Int)) (p : Nat) (a : List Int) (i v : Int)
    (hp : heap[p]? = some a) :
    Ref.store heap p i v = (sliceSet a i v).bind fun a1 => some (heap.set p a1) := by
  unfold Ref.store
  rw [hp]
  rfl

/-- The copy loop of `resize` and `ToSlice` on the heap, from the backing
array at `src` into the one at `dst`. -/
theorem ref_copyLoop_eq (src dst : Nat) (hne : src ≠ dst) (d : List Int) (n : Nat) (i : Int)
    (heap : List (List Int)) (nd : List Int) (hs : heap[src]? = some d)
    (hd : heap[dst]? = some nd) :
    forUp (fun i h => (Ref.load h src i).bind fun x => Ref.store h dst i x) n i heap
      = (forUp (fun i nd => (sliceGet d i).bind fun x => sliceSet nd i x) n i nd).bind
          fun a1 => some (heap.set dst a1) := by
  apply forUp_lift dst _ _ (fun h => h[src]? = some d)
  · intro h a hI
    rw [List.getElem?_set_ne (fun e => hne e.symm)]
    exact hI
  · intro i h a hI hp
    rw [ref_load_eq h src d i hI]
    cases sliceGet d i with
    | none => rfl
    | some x =>
      simp only [Option.some_bind]
      rw [ref_store_eq h dst a i x hp]
  · exact hs
  · exact hd

theorem ref_resize_eq (heap : List (List Int)) (p : Nat) (l c : Int) (d : List Int)
    (hp : heap[p]? = some d) :
    Ref.resize heap ⟨p, l, c⟩
      = (resize ⟨d, l, c⟩).bind fun g =>
          some (heap ++ [g.data], ⟨heap.length, g.length, g.capacity⟩) := by
  unfold Ref.resize resize Ref.make make
  simp only
  by_cases hc : c * 2 < 0
  · rw [if_pos hc, if_pos hc]
    rfl
  · rw [if_neg hc, if_neg hc]
    simp only [Option.some_bind]
    have hlt : p < heap.length := getElem?_lt_of_eq_some heap p d hp
    rw [ref_copyLoop_eq p heap.length (by omega) d _ 0 _ (List.replicate (c * 2).toNat 0)
      (by rw [List.getElem?_append_left hlt]; exact hp)
      (by rw [List.getElem?_append_right (Nat.le_refl _)]; simp)]
    cases forUp (fun i nd => (sliceGet d i).bind fun x => sliceSet nd i x) (l - 0).toNat 0
        (List.replicate (c * 2).toNat 0) with
    | none => rfl
    | some nd =>
      simp only [Option.some_bind]
      rw [append_singleton_set]


theorem ref_abs_mk (heap : List (List Int)) (p : Nat) (l c : Int) (d : List Int)
    (hp : heap[p]? = some d) : Ref.abs heap ⟨p, l, c⟩ = some ⟨d, l, c⟩ := by
  unfold Ref.abs
  rw [hp]
  rfl

theorem ref_abs_inv (heap : List (List Int)) (da : Ref.DynamicArray) (a : DynamicArray)
    (h : Ref.abs heap da = some a) :
    heap[da.data]? = some a.data ∧ da.length = a.length ∧ da.capacity = a.capacity := by
  unfold Ref.abs at h
  cases hd : heap[da.data]? with
  | none =>
    rw [hd] at h
    exact Option.noConfusion h
  | some d =>
    rw [hd] at h
    simp only [Option.some_bind, Option.some.injEq] at h
    subst h
    exact ⟨rfl, rfl, rfl⟩

theorem ref_Frames_refl (heap : List (List Int)) (da : Ref.DynamicArray) (l c : Int) :
    Ref.Frames heap da heap ⟨da.data, l, c⟩ :=
  ⟨Nat.le_refl _, Or.inl rfl, fun _ _ _ => rfl⟩

theorem ref_Frames_set (heap : List (List Int)) (da : Ref.DynamicArray) (x : List Int)
    (l c : Int) : Ref.Frames heap da (heap.set da.data x) ⟨da.data, l, c⟩ :=
  ⟨by rw [List.length_set], Or.inl rfl,
    fun q _ hq => List.getElem?_set_ne (fun e => hq e.symm)⟩

theorem ref_Frames_append (heap : List (List Int)) (da : Ref.DynamicArray) (x : List Int)
    (l c : Int) : Ref.Frames heap da (heap ++ [x]) ⟨heap.length, l, c⟩ :=
  ⟨by rw [List.length_append]; omega, Or.inr (Nat.le_refl _),
    fun q hq _ => List.getElem?_append_left hq⟩

theorem ref_Frames_trans (heap heap1 heap2 : List (List Int)) (da da1 da2 : Ref.DynamicArray)
    (h1 : Ref.Frames heap da heap1 da1) (h2 : Ref.Frames heap1 da1 heap2 da2) :
    Ref.Frames heap da heap2 da2 := by
  obtain ⟨a1, a2, a3⟩ := h1
  obtain ⟨b1, b2, b3⟩ := h2
  refine ⟨by omega, by omega, fun q hq hne => ?_⟩
  rw [b3 q (by omega) (by omega), a3 q hq hne]

theorem ref_shiftRight_body (p : Nat) (j : Int) (h : List (List Int)) (b : List Int)
    (hb : h[p]? = some b) :
    ((Ref.load h p (j - 1)).bind fun x => Ref.store h p j x)
      = ((sliceGet b (j - 1)).bind fun x => sliceSet b j x).bind
          fun a1 => some (h.set p a1) := by
  rw [ref_load_eq h p b (j - 1) hb]
  cases hg : sliceGet b (j - 1) with
  | none => rfl
  | some y =>
    simp only [Option.some_bind]
    rw [ref_store_eq h p b j y hb]

theorem ref_shiftLeft_body (p : Nat) (j : Int) (h : List (List Int)) (b : List Int)
    (hb : h[p]? = some b) :
    ((Ref.load h p (j + 1)).bind fun x => Ref.store h p j x)
      = ((sliceGet b (j + 1)).bind fun x => sliceSet b j x).bind
          fun a1 => some (h.set p a1) := by
  rw [ref_load_eq h p b (j + 1) hb]
  cases hg : sliceGet b (j + 1) with
  | none => rfl
  | some y =>
    simp only [Option.some_bind]
    rw [ref_store_eq h p b j y hb]

/-- The growth check by reference does what the growth check by value does,
and leaves every backing array that existed as it was. -/
theorem ref_grow_sim (heap : List (List Int)) (da : Ref.DynamicArray) (a g : DynamicArray)
    (ha : Ref.abs heap da = some a)
    (hg : (if a.length ≥ a.capacity then resize a else some a) = some g) :
    ∃ heap1 da1,
      (if da.length ≥ da.capacity then Ref.resize heap da else some (heap, da))
        = some (heap1, da1) ∧
      Ref.abs heap1 da1 = some g ∧ Ref.Frames heap da heap1 da1 := by
  obtain ⟨p, l, c⟩ := da
  obtain ⟨d, l1, c1⟩ := a
  obtain ⟨hp, hl, hc⟩ := ref_abs_inv _ _ _ ha
  simp only at hp hl hc
  subst hl hc
  simp only at hg ⊢
  by_cases hfull : l ≥ c
  · rw [if_pos hfull] at hg ⊢
    rw [ref_resize_eq heap p l c d hp, hg]
    refine ⟨_, _, rfl, ?_, ref_Frames_append heap ⟨p, l, c⟩ g.data g.length g.capacity⟩
    exact ref_abs_mk _ _ _ _ _ (by rw [List.getElem?_append_right (Nat.le_refl _)]; simp)
  · rw [if_neg hfull] at hg ⊢
    rw [← Option.some.inj hg]
    exact ⟨_, _, rfl, ref_abs_mk _ _ _ _ _ hp, ref_Frames_refl heap ⟨p, l, c⟩ l c⟩

/-- Each mutating call by reference does what the call by value does to the
array, and leaves every other backing array that existed as it was. -/
theorem ref_step_sim (heap : List (List Int)) (da : Ref.DynamicArray) (a a1 : DynamicArray)
    (op : Op) (ha : Ref.abs heap da = some a) (hs : step a op = some a1) :
    ∃ heap1 da1, Ref.step heap da op = some (heap1, da1) ∧
      Ref.abs heap1 da1 = some a1 ∧ Ref.Frames heap da heap1 da1 := by
  obtain ⟨p, l, c⟩ := da
  obtain ⟨d, l1, c1⟩ := a
  obtain ⟨hp0, hl0, hc0⟩ := ref_abs_inv _ _ _ ha
  simp only at hp0 hl0 hc0
  subst hl0 hc0
  have hlt := getElem?_lt_of_eq_some heap p d hp0
  -- a write into the receiver's own backing array
  have inPlace : ∀ (x : List Int) (l2 c2 : Int),
      Ref.abs (heap.set p x) ⟨p, l2, c2⟩ = some ⟨x, l2, c2⟩ ∧
      Ref.Frames heap ⟨p, l, c⟩ (heap.set p x) ⟨p, l2, c2⟩ :=
    fun x l2 c2 => ⟨ref_abs_mk _ _ _ _ _ (List.getElem?_set_self hlt),
      ref_Frames_set heap ⟨p, l, c⟩ x l2 c2⟩
  have same : ∀ (l2 c2 : Int),
      Ref.abs heap ⟨p, l2, c2⟩ = some ⟨d, l2, c2⟩ ∧
      Ref.Frames heap ⟨p, l, c⟩ heap ⟨p, l2, c2⟩ :=
    fun l2 c2 => ⟨ref_abs_mk _ _ _ _ _ hp0, ref_Frames_refl heap ⟨p, l, c⟩ l2 c2⟩
  cases op with
  | append v =>
    simp only [step, Append] at hs
    cases hg : (if l ≥ c then resize ⟨d, l, c⟩ else some ⟨d, l, c⟩) with
    | none =>
      rw [hg] at hs
      exact Option.noConfusion hs
    | some g =>
      rw [hg] at hs
      simp only [Option.some_bind] at hs
      obtain ⟨heapg, dag, e1, e2, e3⟩ := ref_grow_sim heap ⟨p, l, c⟩ ⟨d, l, c⟩ g ha hg
      obtain ⟨pg, lg, cg⟩ := dag
      obtain ⟨hp, hl, hc⟩ := ref_abs_inv _ _ _ e2
      simp only at hp hl hc e1
      subst hl hc
      cases hw : sliceSet g.data g.length v with
      | none =>
        rw [hw] at hs
        exact Option.noConfusion hs
      | some x =>
        rw [hw] at hs
        simp only [Option.some_bind, Option.some.injEq] at hs
        subst hs
        refine ⟨heapg.set pg x, ⟨pg, g.length + 1, g.capacity⟩, ?_, ?_, ?_⟩
        · simp only [Ref.step, Ref.Append]
          rw [e1]
          simp only [Option.some_bind]
          rw [ref_store_eq heapg pg g.data _ v hp, hw]
          rfl
        · exact ref_abs_mk _ _ _ _ _
            (List.getElem?_set_self (getElem?_lt_of_eq_some _ _ _ hp))
        · exact ref_Frames_trans _ _ _ _ _ _ e3
            (ref_Frames_set heapg ⟨pg, g.length, g.capacity⟩ x _ _)
  | insert i v =>
    simp only [step, Insert] at hs
    by_cases hi : i < 0 ∨ i > l
    · rw [if_pos hi] at hs
      simp only [Option.map_some', Option.some.injEq] at hs
      subst hs
      refine ⟨heap, ⟨p, l, c⟩, ?_, ha, (same l c).2⟩
      simp only [Ref.step, Ref.Insert]
      rw [if_pos hi]
      rfl
    · rw [if_neg hi] at hs
      cases hg : (if l ≥ c then resize ⟨d, l, c⟩ else some ⟨d, l, c⟩) with
      | none =>
        rw [hg] at hs
        exact Option.noConfusion hs
      | some g =>
        rw [hg] at hs
        simp only [Option.some_bind] at hs
        obtain ⟨heapg, dag, e1, e2, e3⟩ := ref_grow_sim heap ⟨p, l, c⟩ ⟨d, l, c⟩ g ha hg
        obtain ⟨pg, lg, cg⟩ := dag
        obtain ⟨hp, hl, hc⟩ := ref_abs_inv _ _ _ e2
        simp only at hp hl hc e1
        subst hl hc
        cases hsh : forDown (fun i d => (sliceGet d (i - 1)).bind fun x => sliceSet d i x)
            (g.length - i).toNat g.length g.data with
        | none =>
          rw [hsh] at hs
          exact Option.noConfusion hs
        | some sh =>
          rw [hsh] at hs
          simp only [Option.some_bind] at hs
          cases hw : sliceSet sh i v with
          | none =>
            rw [hw] at hs
            exact Option.noConfusion hs
          | some x =>
            rw [hw] at hs
            simp only [Option.some_bind, Option.map_some', Option.some.injEq] at hs
            subst hs
            have hltg := getElem?_lt_of_eq_some _ _ _ hp
            refine ⟨heapg.set pg x, ⟨pg, g.length + 1, g.capacity⟩, ?_, ?_, ?_⟩
            · simp only [Ref.step, Ref.Insert]
              rw [if_neg hi, e1]
              simp only [Option.some_bind]
              rw [forDown_lift pg _
                (fun i d => (sliceGet d (i - 1)).bind fun x => sliceSet d i x)
                (fun j h b hb => ref_shiftRight_body pg j h b hb)
                _ _ heapg g.data hp, hsh]
              simp only [Option.some_bind]
              rw [ref_store_eq _ pg sh i v (List.getElem?_set_self hltg), hw]
              simp only [Option.some_bind, Option.map_some', List.set_set]
            · exact ref_abs_mk _ _ _ _ _ (List.getElem?_set_self hltg)
            · exact ref_Frames_trans _ _ _ _ _ _ e3
                (ref_Frames_set heapg ⟨pg, g.length, g.capacity⟩ x _ _)
  | set i v =>
    simp only [step, Set] at hs
    by_cases hi : i < 0 ∨ i ≥ l
    · rw [if_pos hi] at hs
      simp only [Option.map_some', Option.some.injEq] at hs
      subst hs
      refine ⟨heap, ⟨p, l, c⟩, ?_, ha, (same l c).2⟩
      simp only [Ref.step, Ref.Set]
      rw [if_pos hi]
      rfl
    · rw [if_neg hi] at hs
      cases hw : sliceSet d i v with
      | none =>
        rw [hw] at hs
        exact Option.noConfusion hs
      | some x =>
        rw [hw] at hs
        simp only [Option.some_bind, Option.map_some', Option.some.injEq] at hs
        subst hs
        refine ⟨heap.set p x, ⟨p, l, c⟩, ?_, (inPlace x _ _).1, (inPlace x _ _).2⟩
        simp only [Ref.step, Ref.Set]
        rw [if_neg hi, ref_store_eq heap p d i v hp0, hw]
        rfl
  | delete i =>
    simp only [step, Delete] at hs
    by_cases hi : i < 0 ∨ i ≥ l
    · rw [if_pos hi] at hs
      simp only [Option.map_some', Option.some.injEq] at hs
      subst hs
      refine ⟨heap, ⟨p, l, c⟩, ?_, ha, (same l c).2⟩
      simp only [Ref.step, Ref.Delete]
      rw [if_pos hi]
      rfl
    · rw [if_neg hi] at hs
      cases hsh : forUp (fun i d => (sliceGet d (i + 1)).bind fun x => sliceSet d i x)
          (l - 1 - i).toNat i d with
      | none =>
        rw [hsh] at hs
        exact Option.noConfusion hs
      | some x =>
        rw [hsh] at hs
        simp only [Option.some_bind, Option.map_some', Option.some.injEq] at hs
        subst hs
        refine ⟨heap.set p x, ⟨p, l - 1, c⟩, ?_, (inPlace x _ _).1, (inPlace x _ _).2⟩
        simp only [Ref.step, Ref.Delete]
        rw [if_neg hi]
        rw [forUp_lift p _
          (fun i d => (sliceGet d (i + 1)).bind fun x => sliceSet d i x) (fun _ => True)
          (fun _ _ _ => trivial)
          (fun j h b _ hb => ref_shiftLeft_body p j h b hb)
          _ _ heap d trivial hp0, hsh]
        rfl
  | pop =>
    simp only [step, Pop] at hs
    by_cases hi : l = 0
    · rw [if_pos hi] at hs
      simp only [Option.map_some', Option.some.injEq] at hs
      subst hs
      refine ⟨heap, ⟨p, l, c⟩, ?_, ha, (same l c).2⟩
      simp only [Ref.step, Ref.Pop]
      rw [if_pos hi]
      rfl
    · rw [if_neg hi] at hs
      cases hr : sliceGet d (l - 1) with
      | none =>
        rw [hr] at hs
        exact Option.noConfusion hs
      | some x =>
        rw [hr] at hs
        simp only [Option.some_bind, Option.map_some', Option.some.injEq] at hs
        subst hs
        refine ⟨heap, ⟨p, l - 1, c⟩, ?_, (same _ _).1, (same _ _).2⟩
        simp only [Ref.step, Ref.Pop]
        rw [if_neg hi, ref_load_eq heap p d _ hp0, hr]
        rfl
  | clear =>
    simp only [step, Clear, Option.some.injEq] at hs
    subst hs
    exact ⟨heap, ⟨p, 0, c⟩, rfl, (same _ _).1, (same _ _).2⟩


theorem ref_run_sim (ops : List Op) :
    ∀ (heap : List (List Int)) (da : Ref.DynamicArray) (a a1 : DynamicArray),
      Ref.abs heap da = some a → run a ops = some a1 →
      ∃ heap1 da1, Ref.run heap da ops = some (heap1, da1) ∧
        Ref.abs heap1 da1 = some a1 ∧ Ref.Frames heap da heap1 da1 := by
  induction ops with
  | nil =>
    intro heap da a a1 ha hr
    simp only [run, Option.some.injEq] at hr
    subst hr
    exact ⟨heap, da, rfl, ha, ref_Frames_refl heap da da.length da.capacity⟩
  | cons op ops ih =>
    intro heap da a a1 ha hr
    simp only [run] at hr
    cases hs : step a op with
    | none =>
      rw [hs] at hr
      exact Option.noConfusion hr
    | some am =>
      rw [hs] at hr
      simp only [Option.some_bind] at hr
      obtain ⟨heapm, dam, e1, e2, e3⟩ := ref_step_sim heap da a am op ha hs
      obtain ⟨heap1, da1, f1, f2, f3⟩ := ih heapm dam am a1 e2 hr
      refine ⟨heap1, da1, ?_, f2, ref_Frames_trans _ _ _ _ _ _ e3 f3⟩
      simp only [Ref.run]
      rw [e1]
      exact f1

/-- `ToSlice` by reference allocates one new backing array, fills it with what
`ToSlice` by value returns, and returns its position. -/
theorem ref_ToSlice_sim (heap : List (List Int)) (da : Ref.DynamicArray) (a : DynamicArray)
    (s : List Int) (ha : Ref.abs heap da = some a) (hs : ToSlice a = some (s, a)) :
    Ref.ToSlice heap da = some (heap.length, heap ++ [s], da) := by
  obtain ⟨p, l, c⟩ := da
  obtain ⟨d, l1, c1⟩ := a
  obtain ⟨hp0, hl0, hc0⟩ := ref_abs_inv _ _ _ ha
  simp only at hp0 hl0 hc0
  subst hl0 hc0
  have hlt := getElem?_lt_of_eq_some heap p d hp0
  unfold ToSlice make at hs
  unfold Ref.ToSlice Ref.make
  simp only at hs ⊢
  by_cases hneg : l < 0
  · rw [if_pos hneg] at hs
    exact Option.noConfusion hs
  · rw [if_neg hneg] at hs ⊢
    simp only [Option.some_bind] at hs ⊢
    rw [ref_copyLoop_eq p heap.length (by omega) d _ 0 _ (List.replicate l.toNat 0)
      (by rw [List.getElem?_append_left hlt]; exact hp0)
      (by rw [List.getElem?_append_right (Nat.le_refl _)]; simp)]
    cases hloop : forUp (fun i r => (sliceGet d i).bind fun x => sliceSet r i x) (l - 0).toNat 0
        (List.replicate l.toNat 0) with
    | none =>
      rw [hloop] at hs
      exact Option.noConfusion hs
    | some nd =>
      rw [hloop] at hs
      simp only [Option.some_bind, Option.some.injEq, Prod.mk.injEq, and_true] at hs
      subst hs
      simp only [Option.some_bind]
      rw [append_singleton_set]

/-- C21: on a well-formed array held by reference, `ToSlice` never panics and
leaves the receiver and its backing array as they were; the slice it returns
has exactly `Length` elements, equal in order to the live slots (the values
`Get i` returns).  It is a fresh copy: its backing array did not exist before
the call and is not the array's; after any later sequence of `Append`,
`Insert`, `Set`, `Delete`, `Pop` and `Clear` calls on the array the returned
slice still holds the same elements, and a write into the returned slice
leaves the array as it was. -/
theorem ToSlice_fresh_copy (heap : List (List Int)) (da : Ref.DynamicArray) (a : DynamicArray)
    (ops : List Op) (ha : Ref.abs heap da = some a) (hw : WellFormed a) :
    ∃ (s : List Int) (q : Nat) (heap1 : List (List Int)),
      Ref.ToSlice heap da = some (q, heap1, da) ∧ heap1[q]? = some s ∧
      ToSlice a = some (s, a) ∧ (s.length : Int) = Length a ∧
      (∀ i : Int, 0 ≤ i → i < Length a →
        ∃ x, s[i.toNat]? = some x ∧ Get a i = some ((x, none), a)) ∧
      heap[q]? = none ∧ q ≠ da.data ∧
      Ref.abs heap1 da = some a ∧ (∀ p : Nat, p < heap.length → heap1[p]? = heap[p]?) ∧
      (∃ heap2 da2 a2, Ref.run heap1 da ops = some (heap2, da2) ∧ heap2[q]? = some s ∧
        run a ops = some a2 ∧ Ref.abs heap2 da2 = some a2) ∧
      (∀ (i v : Int) (heap3 : List (List Int)),
        Ref.store heap1 q i v = some heap3 → Ref.abs heap3 da = some a) := by
  obtain ⟨s, hs, hlen, _, hget⟩ := ToSlice_copy_of_live_slots a hw
  obtain ⟨hp0, hl0, hc0⟩ := ref_abs_inv _ _ _ ha
  have hlt := getElem?_lt_of_eq_some heap da.data a.data hp0
  have hq : (heap ++ [s])[heap.length]? = some s := by
    rw [List.getElem?_append_right (Nat.le_refl _)]
    simp
  have hne : heap.length ≠ da.data := by omega
  have hold : ∀ p : Nat, p < heap.length → (heap ++ [s])[p]? = heap[p]? :=
    fun p hp => List.getElem?_append_left hp
  have habs1 : Ref.abs (heap ++ [s]) da = some a := by
    unfold Ref.abs at ha ⊢
    rw [hold da.data hlt]
    exact ha
  refine ⟨s, heap.length, heap ++ [s], ref_ToSlice_sim heap da a s ha hs, hq, hs, hlen,
    fun i h0 h1 => ?_, List.getElem?_eq_none (Nat.le_refl _), hne, habs1, hold, ?_, ?_⟩
  · obtain ⟨x, hx, _, hg⟩ := hget i h0 h1
    exact ⟨x, hx, hg⟩
  · obtain ⟨a2, hr, _⟩ := run_wellFormed ops a hw
    obtain ⟨heap2, da2, e1, e2, e3⟩ := ref_run_sim ops (heap ++ [s]) da a a2 habs1 hr
    refine ⟨heap2, da2, a2, e1, ?_, hr, e2⟩
    rw [e3.2.2 heap.length (by rw [List.length_append]; simp) hne, hq]
  · intro i v heap3 h3
    rw [ref_store_eq (heap ++ [s]) heap.length s i v hq] at h3
    cases hset : sliceSet s i v with
    | none =>
      rw [hset] at h3
      exact Option.noConfusion h3
    | some s1 =>
      rw [hset] at h3
      simp only [Option.some_bind, Option.some.injEq] at h3
      subst h3
      unfold Ref.abs at habs1 ⊢
      rw [List.getElem?_set_ne hne]
      exact habs1

/-- Witness of C21: the slice returned for an array with two live elements
and a dead slot, followed by a `Set`, two `Append`s (one grows the buffer), an
`Insert` and a `Delete`. -/
theorem ToSlice_fresh_copy_witness :
    Ref.abs [[7, 8, 9]] ⟨0, 2, 3⟩ = some ⟨[7, 8, 9], 2, 3⟩ ∧ WellFormed ⟨[7, 8, 9], 2, 3⟩ ∧
    ∃ (s : List Int) (q : Nat) (heap1 : List (List Int)),
      Ref.ToSlice [[7, 8, 9]] ⟨0, 2, 3⟩ = some (q, heap1, ⟨0, 2, 3⟩) ∧ heap1[q]? = some s ∧
      ToSlice ⟨[7, 8, 9], 2, 3⟩ = some (s, ⟨[7, 8, 9], 2, 3⟩) ∧
      (s.length : Int) = Length ⟨[7, 8, 9], 2, 3⟩ ∧
      (∀ i : Int, 0 ≤ i → i < Length ⟨[7, 8, 9], 2, 3⟩ →
        ∃ x, s[i.toNat]? = some x ∧
          Get ⟨[7, 8, 9], 2, 3⟩ i = some ((x, none), ⟨[7, 8, 9], 2, 3⟩)) ∧
      ([[7, 8, 9]] : List (List Int))[q]? = none ∧ q ≠ (Ref.DynamicArray.mk 0 2 3).data ∧
      Ref.abs heap1 ⟨0, 2, 3⟩ = some ⟨[7, 8, 9], 2, 3⟩ ∧
      (∀ p : Nat, p < ([[7, 8, 9]] : List (List Int)).length →
        heap1[p]? = ([[7, 8, 9]] : List (List Int))[p]?) ∧
      (∃ heap2 da2 a2,
        Ref.run heap1 ⟨0, 2, 3⟩
          [Op.set 0 111, Op.append 5, Op.append 6, Op.insert 0 1, Op.delete 2]
          = some (heap2, da2) ∧
        heap2[q]? = some s ∧
        run ⟨[7, 8, 9], 2, 3⟩
          [Op.set 0 111, Op.append 5, Op.append 6, Op.insert 0 1, Op.delete 2] = some a2 ∧
        Ref.abs heap2 da2 = some a2) ∧
      (∀ (i v : Int) (heap3 : List (List Int)),
        Ref.store heap1 q i v = some heap3 →
          Ref.abs heap3 ⟨0, 2, 3⟩ = some ⟨[7, 8, 9], 2, 3⟩) :=
  ⟨by decide, by decide,
    ToSlice_fresh_copy [[7, 8, 9]] ⟨0, 2, 3⟩ ⟨[7, 8, 9], 2, 3⟩
      [Op.set 0 111, Op.append 5, Op.append 6, Op.insert 0 1, Op.delete 2]
      (by decide) (by decide)⟩


end DynArray

namespace HashTable

variable {V : Type}

/-! ## The bucket index computed by `hash` -/

/-- When the wrapped djb2 value is not negative and `Capacity > 0`, the index
lies in `[0, Capacity)`. -/
theorem hash_in_range_of_nonneg (ht : HashTable V) (key : String)
    (hc : 0 < ht.Capacity) (hn : 0 ≤ hashLoop key.toList 5381) :
    ∃ i, hash ht key = some i ∧ 0 ≤ i ∧ i < ht.Capacity := by
  refine ⟨(hashLoop key.toList 5381).tmod ht.Capacity, ?_, Int.tmod_nonneg _ hn,
    Int.tmod_lt_of_pos _ hc⟩
  unfold hash
  have h0 : ¬ (ht.Capacity = 0) := by omega
  simp only
  rw [if_neg h0]

set_option maxRecDepth 100000 in
/-- C28 fails on the code: in a table of capacity 10 the key `"hello world!"`
makes the djb2 value wrap to a negative number, `hash` returns `-6`, and
`Put`, `Get` and `Delete` index `Buckets` out of range (a panic). -/
theorem hash_of_long_key_is_negative :
    ∃ ht : HashTable Int, NewHashTable 10 = some ht ∧ 0 < ht.Capacity ∧
      hashLoop "hello world!".toList 5381 = -3234646270386970366 ∧
      hash ht "hello world!" = some (-6) ∧
      Put ht "hello world!" 1 = none ∧ Get ht "hello world!" = none ∧
      Delete ht "hello world!" = none :=
  ⟨⟨List.replicate 10 [], 0, 10⟩, by decide, by decide, by decide, by decide, by decide,
    by decide, by decide⟩

/-! ## Chains -/

theorem chainUpdate_eq_none_iff (key : String) (value : V) (chain : List (String × V)) :
    chainUpdate key value chain = none ↔ chainFind key chain = none := by
  induction chain with
  | nil => simp [chainUpdate, chainFind]
  | cons p next ih =>
    obtain ⟨k, v⟩ := p
    by_cases hk : k = key
    · simp [chainUpdate, chainFind, hk]
    · simp [chainUpdate, chainFind, hk, ih]

theorem chainFind_chainUpdate_self (key : String) (value : V) :
    ∀ chain out : List (String × V), chainUpdate key value chain = some out →
      chainFind key out = some value := by
  intro chain
  induction chain with
  | nil =>
    intro out h
    simp [chainUpdate] at h
  | cons p next ih =>
    intro out h
    obtain ⟨k, v⟩ := p
    by_cases hk : k = key
    · simp only [chainUpdate, if_pos hk, Option.some.injEq] at h
      rw [← h]
      simp [chainFind, hk]
    · simp only [chainUpdate, if_neg hk, Option.map_eq_some'] at h
      obtain ⟨c, hc, rfl⟩ := h
      simp only [chainFind, if_neg hk]
      exact ih c hc

theorem chainFind_chainUpdate_ne (key key1 : String) (value : V) (hne : key1 ≠ key) :
    ∀ chain out : List (String × V), chainUpdate key value chain = some out →
      chainFind key1 out = chainFind key1 chain := by
  intro chain
  induction chain with
  | nil =>
    intro out h
    simp [chainUpdate] at h
  | cons p next ih =>
    intro out h
    obtain ⟨k, v⟩ := p
    by_cases hk : k = key
    · simp only [chainUpdate, if_pos hk, Option.some.injEq] at h
      rw [← h]
      have hk1 : ¬ (k = key1) := fun e => hne (e.symm.trans hk)
      simp [chainFind, hk1]
    · simp only [chainUpdate, if_neg hk, Option.map_eq_some'] at h
      obtain ⟨c, hc, rfl⟩ := h
      by_cases hk1 : k = key1
      · simp [chainFind, hk1]
      · simp only [chainFind, if_neg hk1]
        exact ih c hc

theorem chainUpdate_keys (key : String) (value : V) :
    ∀ chain out : List (String × V), chainUpdate key value chain = some out →
      out.map Prod.fst = chain.map Prod.fst := by
  intro chain
  induction chain with
  | nil =>
    intro out h
    simp [chainUpdate] at h
  | cons p next ih =>
    intro out h
    obtain ⟨k, v⟩ := p
    by_cases hk : k = key
    · simp only [chainUpdate, if_pos hk, Option.some.injEq] at h
      rw [← h]
      rfl
    · simp only [chainUpdate, if_neg hk, Option.map_eq_some'] at h
      obtain ⟨c, hc, rfl⟩ := h
      simp only [List.map_cons, ih c hc]

/-! ## Buckets -/

theorem bucketGet_natCast (buckets : List (List (String × V))) (n : Nat) :
    bucketGet buckets (n : Int) = buckets[n]? := by
  unfold bucketGet
  by_cases h : n < buckets.length
  · have h1 : (0 : Int) ≤ (n : Int) ∧ (n : Int) < (buckets.length : Int) := ⟨by omega, by omega⟩
    simp [h1]
  · have h1 : ¬ ((0 : Int) ≤ (n : Int) ∧ (n : Int) < (buckets.length : Int)) := by omega
    rw [if_neg h1]
    exact (List.getElem?_eq_none (by omega)).symm

theorem bucketGet_neg (buckets : List (List (String × V))) (i : Int) (h : i < 0) :
    bucketGet buckets i = none := by
  unfold bucketGet
  have h1 : ¬ ((0 : Int) ≤ i ∧ i < (buckets.length : Int)) := by omega
  rw [if_neg h1]

/-- Replacing bucket `n` leaves every other index of `Buckets` as it was. -/
theorem bucketGet_set_ne (buckets : List (List (String × V))) (n : Nat)
    (chain : List (String × V)) (j : Int) (hj : j ≠ (n : Int)) :
    bucketGet (buckets.set n chain) j = bucketGet buckets j := by
  by_cases h0 : j < 0
  · rw [bucketGet_neg _ j h0, bucketGet_neg _ j h0]
  · obtain ⟨m, rfl⟩ := Int.eq_ofNat_of_zero_le (show 0 ≤ j by omega)
    rw [bucketGet_natCast, bucketGet_natCast, List.getElem?_set_ne (by omega)]

theorem foldl_keys_acc (buckets : List (List (String × V))) :
    ∀ acc : List String,
      buckets.foldl (fun keys bucket => keys ++ bucket.map Prod.fst) acc
        = acc ++ buckets.foldl (fun keys bucket => keys ++ bucket.map Prod.fst) [] := by
  induction buckets with
  | nil => intro acc; simp
  | cons b rest ih =>
    intro acc
    simp only [List.foldl_cons, List.nil_append]
    rw [ih (acc ++ b.map Prod.fst), ih (b.map Prod.fst), List.append_assoc]

/-- Replacing a chain by one with the same keys leaves `GetAllKeys` as it
was. -/
theorem keys_set_same (buckets : List (List (String × V))) :
    ∀ (n : Nat) (c c1 : List (String × V)), buckets[n]? = some c →
      c1.map Prod.fst = c.map Prod.fst →
      (buckets.set n c1).foldl (fun keys bucket => keys ++ bucket.map Prod.fst) []
        = buckets.foldl (fun keys bucket => keys ++ bucket.map Prod.fst) [] := by
  induction buckets with
  | nil => intro n c c1 h; simp at h
  | cons b rest ih =>
    intro n c c1 h hk
    cases n with
    | zero =>
      simp only [List.getElem?_cons_zero, Option.some.injEq] at h
      subst h
      simp only [List.set_cons_zero, List.foldl_cons, List.nil_append, hk]
    | succ n =>
      simp only [List.getElem?_cons_succ] at h
      simp only [List.set_cons_succ, List.foldl_cons, List.nil_append]
      rw [foldl_keys_acc (rest.set n c1), foldl_keys_acc rest, ih n c c1 h hk]

/-- Putting one more node in front of a chain adds one key to `GetAllKeys`. -/
theorem keys_set_cons (buckets : List (List (String × V))) :
    ∀ (n : Nat) (c : List (String × V)) (p : String × V), buckets[n]? = some c →
      ((buckets.set n (p :: c)).foldl
          (fun keys bucket => keys ++ bucket.map Prod.fst) []).length
        = (buckets.foldl (fun keys bucket => keys ++ bucket.map Prod.fst) []).length + 1 := by
  induction buckets with
  | nil => intro n c p h; simp at h
  | cons b rest ih =>
    intro n c p h
    cases n with
    | zero =>
      simp only [List.getElem?_cons_zero, Option.some.injEq] at h
      subst h
      simp only [List.set_cons_zero, List.foldl_cons, List.nil_append, List.map_cons]
      rw [foldl_keys_acc rest (p.1 :: List.map Prod.fst b), foldl_keys_acc rest (List.map Prod.fst b)]
      simp only [List.length_append, List.length_cons]
      omega
    | succ n =>
      simp only [List.getElem?_cons_succ] at h
      simp only [List.set_cons_succ, List.foldl_cons, List.nil_append]
      rw [foldl_keys_acc (rest.set n (p :: c)), foldl_keys_acc rest]
      simp only [List.length_append]
      rw [ih n c p h]
      omega

theorem hash_congr (ht ht1 : HashTable V) (key : String) (h : ht1.Capacity = ht.Capacity) :
    hash ht1 key = hash ht key := by
  unfold hash
  rw [h]

/-- `Get` in terms of the chain of the bucket that the key hashes to. -/
theorem Get_eq (ht : HashTable V) (key : String) (n : Nat) (c : List (String × V))
    (hi : hash ht key = some (n : Int)) (hc : ht.Buckets[n]? = some c) :
    Get ht key = match chainFind key c with
      | some value => some (some value, true)
      | none => some (none, false) := by
  unfold Get
  rw [hi]
  simp only [Option.some_bind]
  rw [bucketGet_natCast, hc]
  rfl

/-- C29: when `hash` returns an index of `Buckets` for the key `k`, `Put(k, v)`
does not panic; afterwards `Get(k)` returns `(v, true)` and `Get` of every
other key returns what it returned before; when `k` was absent (`Get` gave
false) `Size` grows by one and one key is added, and when `k` was present
`Size` and the stored keys are unchanged (no duplicate node is created). -/
theorem Put_then_Get (ht : HashTable V) (k : String) (v : V) (i : Int)
    (hi : hash ht k = some i) (hr : 0 ≤ i ∧ i < (ht.Buckets.length : Int)) :
    ∃ ht1 old, Put ht k v = some ht1 ∧ Get ht k = some old ∧
      Get ht1 k = some (some v, true) ∧
      (∀ k1, k1 ≠ k → Get ht1 k1 = Get ht k1) ∧
      (old.2 = false →
        ht1.Size = ht.Size + 1 ∧ (GetAllKeys ht1).length = (GetAllKeys ht).length + 1) ∧
      (old.2 = true → ht1.Size = ht.Size ∧ GetAllKeys ht1 = GetAllKeys ht) := by
  obtain ⟨n, rfl⟩ := Int.eq_ofNat_of_zero_le hr.1
  have hn : n < ht.Buckets.length := by omega
  have hc : ht.Buckets[n]? = some ht.Buckets[n] := List.getElem?_eq_getElem hn
  generalize ht.Buckets[n] = c at hc
  have hget := Get_eq ht k n c hi hc
  -- the frame property shared by both branches of `Put`
  have frame : ∀ (c1 : List (String × V)) (sz : Int),
      (∀ k1, k1 ≠ k → chainFind k1 c1 = chainFind k1 c) →
      ∀ k1, k1 ≠ k →
        Get { ht with Buckets := ht.Buckets.set n c1, Size := sz } k1 = Get ht k1 := by
    intro c1 sz hf k1 hk1
    unfold Get
    have hh : hash { ht with Buckets := ht.Buckets.set n c1, Size := sz } k1 = hash ht k1 :=
      hash_congr ht _ k1 rfl
    rw [hh]
    cases hj : hash ht k1 with
    | none => rfl
    | some j =>
      simp only [Option.some_bind]
      by_cases hjn : j = (n : Int)
      · subst hjn
        rw [bucketGet_natCast, bucketGet_natCast, List.getElem?_set_self hn, hc]
        simp only [Option.some_bind]
        rw [hf k1 hk1]
      · rw [bucketGet_set_ne _ n c1 j hjn]
  have self : ∀ (c1 : List (String × V)) (sz : Int), chainFind k c1 = some v →
      Get { ht with Buckets := ht.Buckets.set n c1, Size := sz } k = some (some v, true) := by
    intro c1 sz hf
    have hh : hash { ht with Buckets := ht.Buckets.set n c1, Size := sz } k = some (n : Int) :=
      (hash_congr ht _ k rfl).trans hi
    rw [Get_eq _ k n c1 hh (List.getElem?_set_self hn), hf]
  cases hu : chainUpdate k v c with
  | some c1 =>
    have hfind : ∃ w, chainFind k c = some w := by
      cases hf : chainFind k c with
      | none =>
        rw [(chainUpdate_eq_none_iff k v c).2 hf] at hu
        exact Option.noConfusion hu
      | some w => exact ⟨w, rfl⟩
    obtain ⟨w, hw⟩ := hfind
    rw [hw] at hget
    have hput : Put ht k v = some { ht with Buckets := ht.Buckets.set n c1, Size := ht.Size } := by
      unfold Put
      rw [hi]
      simp only [Option.some_bind]
      rw [bucketGet_natCast, hc]
      simp only [Option.some_bind, Int.toNat_ofNat]
      rw [hu]
    refine ⟨_, (some w, true), hput, hget, self c1 ht.Size (chainFind_chainUpdate_self k v c c1 hu),
      frame c1 ht.Size (fun k1 hk1 => chainFind_chainUpdate_ne k k1 v hk1 c c1 hu), ?_, ?_⟩
    · intro hf
      exact Bool.noConfusion hf
    · intro _
      exact ⟨rfl, keys_set_same ht.Buckets n c c1 hc (chainUpdate_keys k v c c1 hu)⟩
  | none =>
    have hf : chainFind k c = none := (chainUpdate_eq_none_iff k v c).1 hu
    rw [hf] at hget
    have hput : Put ht k v
        = some { ht with Buckets := ht.Buckets.set n ((k, v) :: c), Size := ht.Size + 1 } := by
      unfold Put
      rw [hi]
      simp only [Option.some_bind]
      rw [bucketGet_natCast, hc]
      simp only [Option.some_bind, Int.toNat_ofNat]
      rw [hu]
    refine ⟨_, (none, false), hput, hget, self ((k, v) :: c) (ht.Size + 1) (by simp [chainFind]),
      frame ((k, v) :: c) (ht.Size + 1) (fun k1 hk1 => ?_), ?_, ?_⟩
    · have hk : ¬ (k = k1) := fun e => hk1 e.symm
      simp [chainFind, hk]
    · intro _
      exact ⟨rfl, keys_set_cons ht.Buckets n c (k, v) hc⟩
    · intro hf
      exact Bool.noConfusion hf

set_option maxRecDepth 100000 in
/-- Witness of C29: `"apple"` is put into a table of capacity 10 that holds
`"banana"`; it hashes to bucket 7. -/
theorem Put_then_Get_witness :
    hash demoTable "apple" = some 7 ∧
    ((0 : Int) ≤ 7 ∧ (7 : Int) < (demoTable.Buckets.length : Int)) ∧
    ∃ ht1 old,
      Put demoTable "apple" 100 = some ht1 ∧ Get demoTable "apple" = some old ∧
      Get ht1 "apple" = some (some 100, true) ∧
      (∀ k1, k1 ≠ "apple" → Get ht1 k1 = Get demoTable k1) ∧
      (old.2 = false →
        ht1.Size = demoTable.Size + 1 ∧
        (GetAllKeys ht1).length = (GetAllKeys demoTable).length + 1) ∧
      (old.2 = true → ht1.Size = demoTable.Size ∧ GetAllKeys ht1 = GetAllKeys demoTable) :=
  ⟨by decide, by decide, Put_then_Get demoTable "apple" 100 7 (by decide) (by decide)⟩

end HashTable

namespace LinkedList

/-! ## The walks stay on the chain -/

theorem linkLast_length (data : Int) :
    ∀ (next : List Int) (x : Int), (linkLast data x next).length = next.length + 2 := by
  intro next
  induction next with
  | nil => intro x; rfl
  | cons y rest ih =>
    intro x
    simp only [linkLast, List.length_cons, ih y]

theorem insertAfter_spec (data : Int) (n : Nat) :
    ∀ chain : List Int, n < chain.length →
      ∃ out, insertAfter data n chain = some out ∧ out.length = chain.length + 1 := by
  induction n with
  | zero =>
    intro chain h
    cases chain with
    | nil => simp at h
    | cons x next => exact ⟨_, rfl, by simp⟩
  | succ n ih =>
    intro chain h
    cases chain with
    | nil => simp at h
    | cons x next =>
      obtain ⟨out, ho, hl⟩ := ih next (by simpa using h)
      refine ⟨x :: out, ?_, by simp [hl]⟩
      simp only [insertAfter]
      rw [ho]
      rfl

theorem unlinkLast_spec :
    ∀ (next : List Int) (x y : Int),
      ∃ out, unlinkLast (x :: y :: next) = some out ∧ out.length = next.length + 1 := by
  intro next
  induction next with
  | nil => exact fun x y => ⟨[x], rfl, rfl⟩
  | cons z rest ih =>
    intro x y
    obtain ⟨out, ho, hl⟩ := ih y z
    refine ⟨x :: out, ?_, by simp [hl]⟩
    simp only [unlinkLast]
    rw [ho]
    rfl

theorem deleteAfter_spec (n : Nat) :
    ∀ chain : List Int, n + 1 < chain.length →
      ∃ out, deleteAfter n chain = some (some out) ∧ out.length + 1 = chain.length := by
  induction n with
  | zero =>
    intro chain h
    match chain, h with
    | x :: y :: next, _ => exact ⟨x :: next, rfl, by simp⟩
  | succ n ih =>
    intro chain h
    cases chain with
    | nil => simp at h
    | cons x next =>
      obtain ⟨out, ho, hl⟩ := ih next (by simpa using h)
      refine ⟨x :: out, ?_, by simp [hl]⟩
      simp only [deleteAfter]
      rw [ho]
      rfl

theorem walk_spec (n : Nat) :
    ∀ chain : List Int, n < chain.length →
      ∃ x rest, walk n chain = some (x :: rest) := by
  induction n with
  | zero =>
    intro chain h
    cases chain with
    | nil => simp at h
    | cons x next => exact ⟨x, next, rfl⟩
  | succ n ih =>
    intro chain h
    cases chain with
    | nil => simp at h
    | cons x next =>
      obtain ⟨y, rest, ho⟩ := ih next (by simpa using h)
      exact ⟨y, rest, by simp only [walk]; exact ho⟩

/-! ## `Size` counts the nodes -/

theorem InsertAtIndex_spec (list : LinkedList) (index data : Int)
    (h : list.Size = (list.Head.length : Int)) :
    ∃ r l, InsertAtIndex list index data = some (r, l) ∧ l.Size = (l.Head.length : Int) ∧
      (r = true ↔ 0 ≤ index ∧ index ≤ list.Size) := by
  obtain ⟨head, size⟩ := list
  simp only at h
  subst h
  unfold InsertAtIndex
  by_cases h1 : index < 0 ∨ index > (head.length : Int)
  · simp only
    rw [if_pos h1]
    exact ⟨false, _, rfl, rfl, by constructor <;> intro h2 <;> first | exact Bool.noConfusion h2 | omega⟩
  · simp only
    rw [if_neg h1]
    by_cases h2 : index = 0
    · rw [if_pos h2]
      refine ⟨true, _, rfl, ?_, by constructor <;> intro _ <;> first | rfl | omega⟩
      simp only [List.length_cons]
      push_cast
      rfl
    · rw [if_neg h2]
      obtain ⟨n, rfl⟩ := Int.eq_ofNat_of_zero_le (show 0 ≤ index by omega)
      have e : ((n : Int) - 1 - 0).toNat = n - 1 := by omega
      obtain ⟨out, ho, hl⟩ := insertAfter_spec data (n - 1) head (by omega)
      rw [e, ho]
      refine ⟨true, _, rfl, ?_, by constructor <;> intro _ <;> first | rfl | omega⟩
      simp only
      rw [hl]
      push_cast
      rfl

theorem DeleteFromHead_spec (list : LinkedList) (h : list.Size = (list.Head.length : Int)) :
    ∃ r l, DeleteFromHead list = some (r, l) ∧ l.Size = (l.Head.length : Int) := by
  obtain ⟨head, size⟩ := list
  simp only at h
  subst h
  cases head with
  | nil => exact ⟨false, _, rfl, rfl⟩
  | cons x next =>
    refine ⟨true, _, rfl, ?_⟩
    simp only [List.length_cons]
    push_cast
    omega

theorem DeleteFromTail_spec (list : LinkedList) (h : list.Size = (list.Head.length : Int)) :
    ∃ r l, DeleteFromTail list = some (r, l) ∧ l.Size = (l.Head.length : Int) := by
  obtain ⟨head, size⟩ := list
  simp only at h
  subst h
  match head with
  | [] => exact ⟨false, _, rfl, rfl⟩
  | [x] => exact ⟨true, _, rfl, by simp⟩
  | x :: y :: next =>
    obtain ⟨out, ho, hl⟩ := unlinkLast_spec next x y
    refine ⟨true, ⟨out, ((x :: y :: next).length : Int) - 1⟩, ?_, ?_⟩
    · simp only [DeleteFromTail]
      rw [ho]
      rfl
    · simp only [List.length_cons]
      rw [hl]
      push_cast
      omega

theorem DeleteAtIndex_spec (list : LinkedList) (index : Int)
    (h : list.Size = (list.Head.length : Int)) :
    ∃ r l, DeleteAtIndex list index = some (r, l) ∧ l.Size = (l.Head.length : Int) ∧
      (r = true ↔ 0 ≤ index ∧ index < list.Size) := by
  by_cases h1 : index < 0 ∨ index ≥ list.Size ∨ list.Head = []
  · refine ⟨false, list, ?_, h, ?_⟩
    · unfold DeleteAtIndex
      rw [if_pos h1]
    · constructor
      · intro h2
        exact Bool.noConfusion h2
      · intro h2
        rcases h1 with h1 | h1 | h1
        · omega
        · omega
        · rw [h1] at h
          simp only [List.length_nil] at h
          omega
  · by_cases h2 : index = 0
    · obtain ⟨head, size⟩ := list
      simp only at h h1
      subst h
      cases head with
      | nil => simp at h1
      | cons x next =>
        refine ⟨true, ⟨next, ((x :: next).length : Int) - 1⟩, ?_, ?_, ?_⟩
        · unfold DeleteAtIndex
          simp only
          rw [if_neg h1, if_pos h2]
          rfl
        · simp only [List.length_cons]
          push_cast
          omega
        · constructor <;> intro _ <;> first | rfl | (simp only; omega)
    · obtain ⟨head, size⟩ := list
      simp only at h h1
      subst h
      obtain ⟨n, rfl⟩ := Int.eq_ofNat_of_zero_le (show 0 ≤ index by omega)
      have e : ((n : Int) - 1 - 0).toNat = n - 1 := by omega
      obtain ⟨out, ho, hl⟩ := deleteAfter_spec (n - 1) head (by omega)
      refine ⟨true, ⟨out, (head.length : Int) - 1⟩, ?_, ?_, ?_⟩
      · unfold DeleteAtIndex
        simp only
        rw [if_neg h1, if_neg h2, e, ho]
        rfl
      · simp only
        omega
      · constructor <;> intro _ <;> first | rfl | (simp only; omega)

theorem GetAtIndex_spec (list : LinkedList) (index : Int)
    (h : list.Size = (list.Head.length : Int)) :
    ∃ r, GetAtIndex list index = some r ∧ (r ≠ [] ↔ 0 ≤ index ∧ index < list.Size) := by
  obtain ⟨head, size⟩ := list
  simp only at h
  subst h
  unfold GetAtIndex
  by_cases h1 : index < 0 ∨ index ≥ (head.length : Int)
  · simp only
    rw [if_pos h1]
    exact ⟨[], rfl, by constructor <;> intro h2 <;> first | exact absurd rfl h2 | omega⟩
  · simp only
    rw [if_neg h1]
    obtain ⟨n, rfl⟩ := Int.eq_ofNat_of_zero_le (show 0 ≤ index by omega)
    have e : ((n : Int) - 0).toNat = n := by omega
    obtain ⟨x, rest, ho⟩ := walk_spec n head (by omega)
    rw [e, ho]
    exact ⟨_, rfl, by constructor <;> intro _ <;> first | omega | simp⟩

theorem step_size (list : LinkedList) (op : Op) (h : list.Size = (list.Head.length : Int)) :
    ∃ l, step list op = some l ∧ l.Size = (l.Head.length : Int) := by
  cases op with
  | insertAtHead d =>
    refine ⟨_, rfl, ?_⟩
    simp only [List.length_cons]
    push_cast
    omega
  | insertAtTail d =>
    obtain ⟨head, size⟩ := list
    simp only at h
    subst h
    cases head with
    | nil => exact ⟨_, rfl, rfl⟩
    | cons x next =>
      refine ⟨_, rfl, ?_⟩
      simp only [linkLast_length, List.length_cons]
      push_cast
      omega
  | insertAtIndex i d =>
    obtain ⟨r, l, h1, h2, _⟩ := InsertAtIndex_spec list i d h
    exact ⟨l, by simp only [step]; rw [h1]; rfl, h2⟩
  | deleteFromHead =>
    obtain ⟨r, l, h1, h2⟩ := DeleteFromHead_spec list h
    exact ⟨l, by simp only [step]; rw [h1]; rfl, h2⟩
  | deleteFromTail =>
    obtain ⟨r, l, h1, h2⟩ := DeleteFromTail_spec list h
    exact ⟨l, by simp only [step]; rw [h1]; rfl, h2⟩
  | deleteAtIndex i =>
    obtain ⟨r, l, h1, h2, _⟩ := DeleteAtIndex_spec list i h
    exact ⟨l, by simp only [step]; rw [h1]; rfl, h2⟩

theorem run_size (ops : List Op) :
    ∀ list : LinkedList, list.Size = (list.Head.length : Int) →
      ∃ l, run list ops = some l ∧ l.Size = (l.Head.length : Int) := by
  induction ops with
  | nil => exact fun list h => ⟨list, rfl, h⟩
  | cons op ops ih =>
    intro list h
    obtain ⟨l1, h1, w1⟩ := step_size list op h
    obtain ⟨l2, h2, w2⟩ := ih l1 w1
    refine ⟨l2, ?_, w2⟩
    simp only [run]
    rw [h1]
    exact h2

/-- C30: from the empty list, every finite sequence of `InsertAtHead`,
`InsertAtTail`, `InsertAtIndex`, `DeleteFromHead`, `DeleteFromTail` and
`DeleteAtIndex` calls runs without dereferencing nil, and after each call
(after every prefix `ops.take j`) `Size` is the number of nodes reachable from
`Head`; hence `IsEmpty()` holds iff `Size == 0`, and on the list reached
`InsertAtIndex`, `DeleteAtIndex` and `GetAtIndex` return without dereferencing
nil for every index, succeeding exactly when the index passes the bounds
check. -/
theorem Size_counts_reachable_nodes (ops : List Op) (j : Nat) (index data : Int) :
    ∃ l, run empty (ops.take j) = some l ∧ l.Size = (l.Head.length : Int) ∧
      (IsEmpty l = true ↔ l.Size = 0) ∧
      (∃ r l1, InsertAtIndex l index data = some (r, l1) ∧
        (r = true ↔ 0 ≤ index ∧ index ≤ l.Size)) ∧
      (∃ r l1, DeleteAtIndex l index = some (r, l1) ∧
        (r = true ↔ 0 ≤ index ∧ index < l.Size)) ∧
      (∃ r, GetAtIndex l index = some r ∧ (r ≠ [] ↔ 0 ≤ index ∧ index < l.Size)) := by
  obtain ⟨l, hl, hs⟩ := run_size (ops.take j) empty rfl
  refine ⟨l, hl, hs, ?_, ?_, ?_, GetAtIndex_spec l index hs⟩
  · unfold IsEmpty
    rw [hs, decide_eq_true_iff]
    constructor
    · intro h
      rw [h]
      rfl
    · intro h
      have : l.Head.length = 0 := by omega
      exact List.length_eq_zero.1 this
  · obtain ⟨r, l1, h1, _, h3⟩ := InsertAtIndex_spec l index data hs
    exact ⟨r, l1, h1, h3⟩
  · obtain ⟨r, l1, h1, _, h3⟩ := DeleteAtIndex_spec l index hs
    exact ⟨r, l1, h1, h3⟩

end LinkedList
